import Mathlib

/-!
# mgodown: preprocessing and table-of-contents synthesis

A shallow embedding of `markdown.go` (package `mgodown`): `Preparse`, `Render`,
`HeadingRender`, `HeaderToHtml` and `ToHTML`, with the properties of the
specification stated and proved over it.

Modelling conventions.
* A Go `[]byte` is a `List Char`; the functions embedded here only compare bytes for
  equality, append and slice, so a byte is represented by the character with the same code.
* Go `int` values (`Level`, `tocLevel`, `minHeading`) are `Int`; `headingCount` only counts
  visited nodes and is a `Nat`. Machine-integer overflow is out of reach: `headingCount` is
  bounded by the number of nodes, and each loop writes ten bytes or more per unit of level.
* A slice expression that would panic makes the embedding return `none`.
* A `Renderer` is an interface value with its own mutable state: its methods are functions
  from a state to the new state, the bytes written to the writer, and the status. A renderer
  is taken not to write to the tree.
* The packages `ast`, `parser` and `html` are not part of the sources embedded here. The
  tree type keeps what `markdown.go` inspects (the `Heading` fields `Level`, `IsTitleblock`
  and `HeadingID`; headings are containers), the walker `ast.WalkFunc` follows the contract
  of the specification, the parser is a parameter.
-/

namespace Mgodown

/-- A byte sequence (`[]byte`). -/
abbrev Bytes := List Char

/-! ## Preprocessing -/

/-- The function `bytes.ReplaceAll` of the Go library for a non-empty `old`: the text is scanned
left to right and every non-overlapping occurrence of `old` is replaced by `new`.
`skip` is the number of bytes of an occurrence already matched that are still to be dropped. -/
def replaceAllAux (old new : Bytes) : Nat → Bytes → Bytes
  | _, [] => []
  | skip + 1, _ :: rest => replaceAllAux old new skip rest
  | 0, c :: rest =>
    if old.isPrefixOf (c :: rest) then new ++ replaceAllAux old new (old.length - 1) rest
    else c :: replaceAllAux old new 0 rest

/-- The call `bytes.ReplaceAll(s, old, new)`. -/
def replaceAll (s old new : Bytes) : Bytes := replaceAllAux old new 0 s

/-- The literal part of the pattern `\[TOC\]\n?`. -/
def tocMarker : Bytes := "[TOC]".toList

/-- End offset of a match of `\[TOC\]\n?` that starts at offset `pos`, where `after` is the
text that follows the five marker bytes: the optional linefeed is taken when present. -/
def matchEnd (pos : Nat) (after : Bytes) : Nat :=
  match after with
  | '\n' :: _ => pos + 6
  | _ => pos + 5

/-- The method `FindIndex` of the compiled pattern `\[TOC\]\n?` on the text `s` that starts
at offset `pos` of the searched bytes: the leftmost match as `(start, end)`, `none` when
there is none. -/
def findIndexAux : Nat → Bytes → Option (Nat × Nat)
  | _, [] => none
  | pos, c :: rest =>
    if tocMarker.isPrefixOf (c :: rest) then some (pos, matchEnd pos ((c :: rest).drop 5))
    else findIndexAux (pos + 1) rest

/-- The call `re.FindIndex(markdown)` for `re = regexp.Compile("\\[TOC\\]\\n?")`. -/
def findIndex (s : Bytes) : Option (Nat × Nat) := findIndexAux 0 s

/-- The first two statements of `Preparse`: both `bytes.ReplaceAll` calls. -/
def normalizeLineEndings (markdown : Bytes) : Bytes :=
  replaceAll (replaceAll markdown "\r\n".toList "\n".toList) "\r".toList "\n".toList

/-- The function `Preparse`: line endings are normalised, then everything through the first match of
`\[TOC\]\n?` is cut off. -/
def Preparse (markdown : Bytes) : Bytes :=
  let markdown := replaceAll markdown "\r\n".toList "\n".toList
  let markdown := replaceAll markdown "\r".toList "\n".toList
  match findIndex markdown with
  | some ix => markdown.drop ix.2
  | none => markdown

/-- Specification of line-ending normalisation, in the words of the spec: every
carriage-return-linefeed pair becomes one linefeed, every remaining carriage return becomes a
linefeed, every other byte is kept. -/
def lineEndingsSpec : Bytes → Bytes
  | [] => []
  | '\r' :: '\n' :: rest => '\n' :: lineEndingsSpec rest
  | '\r' :: rest => '\n' :: lineEndingsSpec rest
  | c :: rest => c :: lineEndingsSpec rest

/-- First pass of the normalisation on its own: each carriage-return-linefeed pair loses its
carriage return. -/
def dropCRLF : Bytes → Bytes
  | [] => []
  | '\r' :: '\n' :: rest => '\n' :: dropCRLF rest
  | c :: rest => c :: dropCRLF rest

/-- Second pass of the normalisation on one byte. -/
def crToLf (c : Char) : Char := if c = '\r' then '\n' else c

/-! ## Document tree, walker and renderer -/

/-- The type `ast.WalkStatus`: what a visitor tells the walker to do next. -/
inductive WalkStatus where
  | GoToNext
  | SkipChildren
  | Terminate
deriving DecidableEq, Repr

/-- The concrete kind of a container node. Only `*ast.Heading` is inspected by this package,
with its fields `Level`, `IsTitleblock` and `HeadingID`; every other container kind is
identified by a name. -/
inductive Kind where
  | heading (level : Int) (isTitleblock : Bool) (headingID : String)
  | other (name : String)
deriving DecidableEq, Repr

/-- The type `ast.Node`: a leaf (identified by its literal content) or a container with children. -/
inductive Node where
  | leaf (literal : String)
  | inner (kind : Kind) (children : List Node)
deriving Repr

/-- The `Renderer` interface. A renderer writes to the `io.Writer` it is given, so every
method returns the bytes it appends; `ρ` is the renderer's own mutable state. -/
structure Renderer (ρ : Type) where
  /-- The method `RenderNode(w, node, entering)`. -/
  RenderNode : ρ → Node → Bool → ρ × Bytes × WalkStatus
  /-- The method `RenderHeader(w, ast)`. -/
  RenderHeader : ρ → Node → ρ × Bytes
  /-- The method `RenderFooter(w, ast)`. -/
  RenderFooter : ρ → Node → ρ × Bytes

/-- Outcome of one visitor call: the visitor's captured variables after the call, the value
written to the visited node's `HeadingID` (if any; the only write to the tree made by the
visitors of this package), and the returned status. -/
structure Visit (σ : Type) where
  state : σ
  headingID : Option String
  status : WalkStatus

/-- Applies a visitor's write to the `HeadingID` field of a node kind. -/
def Kind.assign (k : Kind) (id : Option String) : Kind :=
  match k, id with
  | .heading level isTitleblock _, some s => .heading level isTitleblock s
  | k, _ => k

/-- Result of a walk: the visitor's captured variables after it, the walked tree (or list of
trees) with the heading ids the visitor wrote, and `Terminate` exactly when the walk was
aborted. -/
structure Walked (σ α : Type) where
  state : σ
  tree : α
  status : WalkStatus

mutual
/-- Modelled from the spec: `ast.WalkFunc` (the Tree Walker, not among the sources given).
A leaf is visited once; a container is visited on entering, then its children are walked in
order, then it is visited on exiting. `SkipChildren` returned on entering a container
suppresses the children and the exit call; `Terminate` aborts the whole walk with no further
visitor call. -/
def WalkFunc {σ : Type} (visitor : σ → Node → Bool → Visit σ) (s : σ) :
    Node → Walked σ Node
  | .leaf literal =>
    let r := visitor s (.leaf literal) true
    { state := r.state, tree := .leaf literal,
      status := if r.status = .Terminate then .Terminate else .GoToNext }
  | .inner kind children =>
    let r := visitor s (.inner kind children) true
    let kind1 := kind.assign r.headingID
    if r.status = .Terminate then
      { state := r.state, tree := .inner kind1 children, status := .Terminate }
    else if r.status = .SkipChildren then
      { state := r.state, tree := .inner kind1 children, status := .GoToNext }
    else
      let w := walkChildren visitor r.state children
      if w.status = .Terminate then
        { state := w.state, tree := .inner kind1 w.tree, status := .Terminate }
      else
        let r2 := visitor w.state (.inner kind1 w.tree) false
        { state := r2.state, tree := .inner (kind1.assign r2.headingID) w.tree,
          status := if r2.status = .Terminate then .Terminate else .GoToNext }
/-- The walk over the children of a container, in order, stopping at the first child whose
walk was aborted. -/
def walkChildren {σ : Type} (visitor : σ → Node → Bool → Visit σ) (s : σ) :
    List Node → Walked σ (List Node)
  | [] => { state := s, tree := [], status := .GoToNext }
  | n :: rest =>
    let w := WalkFunc visitor s n
    if w.status = .Terminate then
      { state := w.state, tree := w.tree :: rest, status := .Terminate }
    else
      let w2 := walkChildren visitor w.state rest
      { state := w2.state, tree := w.tree :: w2.tree, status := w2.status }
end

/-! ## Render -/

/-- The visitor of `Render`: every call is delegated to `renderer.RenderNode`, which writes
to the shared buffer. The captured state is the renderer state and the buffer. -/
def renderVisitor {ρ : Type} (renderer : Renderer ρ) (s : ρ × Bytes) (node : Node)
    (entering : Bool) : Visit (ρ × Bytes) :=
  let r := renderer.RenderNode s.1 node entering
  { state := (r.1, s.2 ++ r.2.1), headingID := none, status := r.2.2 }

/-- The function `Render(doc, renderer)`: header, walk, footer, all written to one buffer.
Returns the buffer and the renderer state after the call. -/
def Render {ρ : Type} (doc : Node) (renderer : Renderer ρ) (rs : ρ) : Bytes × ρ :=
  let header := renderer.RenderHeader rs doc
  let w := WalkFunc (renderVisitor renderer) (header.1, header.2) doc
  let footer := renderer.RenderFooter w.state.1 doc
  (w.state.2 ++ footer.2, footer.1)

/-! ## HeadingRender -/

/-- The literal `"\n<ul>\n<li>"`: one list and one item opened. -/
def ulOpen : Bytes := "\n<ul>\n<li>".toList
/-- The literal `"</li>\n</ul>"`: one item and one list closed. -/
def ulClose : Bytes := "</li>\n</ul>".toList
/-- The literal `"</li>\n\n<li>"`: one item closed and the next opened. -/
def liNext : Bytes := "</li>\n\n<li>".toList
/-- The literal `"</a>"`. -/
def aClose : Bytes := "</a>".toList
/-- The heading id `fmt.Sprintf("toc_%d", headingCount)`. -/
def tocID (headingCount : Nat) : String := "toc_" ++ toString headingCount
/-- The anchor written by `fmt.Fprintf(&buf, "<a href=\"#toc_%d\">", headingCount)`. -/
def aOpen (headingCount : Nat) : Bytes :=
  "<a href=\"#toc_".toList ++ (toString headingCount).toList ++ "\">".toList

/-- The variables captured by the visitor of `HeadingRender`, with the renderer's state. -/
structure TocState (ρ : Type) where
  buf : Bytes
  inHeading : Bool
  tocLevel : Int
  headingCount : Nat
  minHeading : Int
  renderer : ρ

/-- The loop `for nodeData.Level < tocLevel { tocLevel--; buf.WriteString("</li>\n</ul>") }`;
`fuel` bounds the number of iterations. -/
def closeLoop (level : Int) : Nat → Int → Bytes → Int × Bytes
  | 0, tocLevel, buf => (tocLevel, buf)
  | fuel + 1, tocLevel, buf =>
    if level < tocLevel then closeLoop level fuel (tocLevel - 1) (buf ++ ulClose)
    else (tocLevel, buf)

/-- The loop `for nodeData.Level > tocLevel { tocLevel++; buf.WriteString("\n<ul>\n<li>") }`;
`fuel` bounds the number of iterations. -/
def openLoop (level : Int) : Nat → Int → Bytes → Int × Bytes
  | 0, tocLevel, buf => (tocLevel, buf)
  | fuel + 1, tocLevel, buf =>
    if level > tocLevel then openLoop level fuel (tocLevel + 1) (buf ++ ulOpen)
    else (tocLevel, buf)

/-- The final loop `for ; tocLevel > 0; tocLevel-- { buf.WriteString("</li>\n</ul>") }`;
`fuel` bounds the number of iterations. -/
def finalClose : Nat → Int → Bytes → Int × Bytes
  | 0, tocLevel, buf => (tocLevel, buf)
  | fuel + 1, tocLevel, buf =>
    if tocLevel > 0 then finalClose fuel (tocLevel - 1) (buf ++ ulClose)
    else (tocLevel, buf)

/-- The three-way comparison of `nodeData.Level` with `tocLevel` on entering a heading: the
new `tocLevel` and buffer. Each loop gets as many iterations as the two levels differ by,
which is when its condition turns false. -/
def adjustLevel (level tocLevel : Int) (buf : Bytes) : Int × Bytes :=
  if level = tocLevel then (tocLevel, buf ++ liNext)
  else if level < tocLevel then
    let closed := closeLoop level (tocLevel - level).toNat tocLevel buf
    (closed.1, closed.2 ++ liNext)
  else openLoop level (level - tocLevel).toNat tocLevel buf

/-- The visitor closure of `HeadingRender`. -/
def headingVisitor {ρ : Type} (renderer : Renderer ρ) (st : TocState ρ) (node : Node)
    (entering : Bool) : Visit (TocState ρ) :=
  match node with
  | .inner (.heading level false _) _ =>
    if !entering then
      { state := { st with inHeading := entering, buf := st.buf ++ aClose },
        headingID := none, status := .GoToNext }
    else
      let minHeading :=
        if st.minHeading = -1 ∨ level ≤ st.minHeading then level else st.minHeading
      let adjusted := adjustLevel level st.tocLevel st.buf
      { state := { st with
          inHeading := entering, minHeading := minHeading, tocLevel := adjusted.1,
          buf := adjusted.2 ++ aOpen st.headingCount, headingCount := st.headingCount + 1 },
        headingID := some (tocID st.headingCount), status := .GoToNext }
  | _ =>
    if st.inHeading then
      let r := renderer.RenderNode st.renderer node entering
      { state := { st with renderer := r.1, buf := st.buf ++ r.2.1 },
        headingID := none, status := r.2.2 }
    else { state := st, headingID := none, status := .GoToNext }

/-- The slice expression `b[lo:hi]`, which panics (`none`) unless `0 ≤ lo ≤ hi ≤ len(b)`. -/
def slice (b : Bytes) (lo hi : Int) : Option Bytes :=
  if 0 ≤ lo ∧ lo ≤ hi ∧ hi ≤ b.length then some ((b.take hi.toNat).drop lo.toNat)
  else none

/-- The captured variables of `HeadingRender` before the walk. -/
def tocInit {ρ : Type} (rs : ρ) : TocState ρ :=
  { buf := [], inHeading := false, tocLevel := 0, headingCount := 0, minHeading := -1,
    renderer := rs }

/-- The walk of `HeadingRender`: `ast.WalkFunc` with the visitor closure from the initial
variables. -/
def tocWalk {ρ : Type} (renderer : Renderer ρ) (rs : ρ) (doc : Node) :
    Walked (TocState ρ) Node :=
  WalkFunc (headingVisitor renderer) (tocInit rs) doc

/-- What `HeadingRender` leaves behind: the returned bytes (`none` when the slice expression
panics), the document with the heading ids written, and the renderer state. -/
structure TocResult (ρ : Type) where
  toc : Option Bytes
  doc : Node
  renderer : ρ

/-- The function `HeadingRender(renderer, doc)`: the walk, the final close loop and the
boundary trim. -/
def HeadingRender {ρ : Type} (renderer : Renderer ρ) (rs : ρ) (doc : Node) : TocResult ρ :=
  let w := tocWalk renderer rs doc
  let st := w.state
  let b := (finalClose st.tocLevel.toNat st.tocLevel st.buf).2
  if st.minHeading > 1 then
    let leftCut := (st.minHeading - 1) * 10
    let rightCut := (st.minHeading - 1) * 11
    { toc := slice b leftCut ((b.length : Int) - rightCut), doc := w.tree,
      renderer := st.renderer }
  else { toc := some b, doc := w.tree, renderer := st.renderer }

/-! ## ToHTML -/

/-- The function `Parse(markdown, p)`: the parser `p` (an external collaborator, here the
function `parse`) is run on the preprocessed bytes. -/
def Parse (markdown : Bytes) (parse : Bytes → Node) : Node :=
  parse (Preparse markdown)

/-- The function `HeaderToHtml(markdown, doc, renderer)`: `HeadingRender` is run only when
the pattern matches the raw bytes; otherwise the nil slice is returned and nothing is
touched. -/
def HeaderToHtml {ρ : Type} (markdown : Bytes) (doc : Node) (renderer : Renderer ρ) (rs : ρ) :
    TocResult ρ :=
  let parseHeading := (findIndex markdown).isSome
  if parseHeading then HeadingRender renderer rs doc
  else { toc := some [], doc := doc, renderer := rs }

/-- The function `ToHTML(markdown, p, renderer)` for a given parser and renderer: the TOC
fragment and the body, `none` when `HeadingRender` panics. `Render` receives the document
and the renderer as `HeaderToHtml` left them. -/
def ToHTML {ρ : Type} (markdown : Bytes) (parse : Bytes → Node) (renderer : Renderer ρ)
    (rs : ρ) : Option (Bytes × Bytes) :=
  let doc := Parse markdown parse
  let heading := HeaderToHtml markdown doc renderer rs
  match heading.toc with
  | some toc => some (toc, (Render heading.doc renderer heading.renderer).1)
  | none => none

/-! ## Vocabulary of the statements -/

/-- Whether a node is a heading that takes part in the table of contents: an `*ast.Heading`
whose `IsTitleblock` is false. -/
def Node.isTocHeading : Node → Bool
  | .inner (.heading _ false _) _ => true
  | _ => false

mutual
/-- Whether `q` holds at every node of a tree. -/
def allNodes (q : Node → Bool) : Node → Bool
  | .leaf literal => q (.leaf literal)
  | .inner kind children => q (.inner kind children) && allNodesList q children
/-- Whether `q` holds at every node of every tree of a list. -/
def allNodesList (q : Node → Bool) : List Node → Bool
  | [] => true
  | n :: rest => allNodes q n && allNodesList q rest
end

/-- Whether a node, if it is a non-title heading, has level at least `m`. -/
def levelAtLeast (m : Int) : Node → Bool
  | .inner (.heading level false _) _ => decide (m ≤ level)
  | _ => true

/-- Every non-title heading of the tree has level at least `m`. -/
def levelsAtLeast (m : Int) (doc : Node) : Bool := allNodes (levelAtLeast m) doc

/-- The tree contains no non-title heading. -/
def headingFree (n : Node) : Bool := allNodes (fun x => !x.isTocHeading) n

/-- No tree of the list contains a non-title heading. -/
def headingFreeList (ns : List Node) : Bool := allNodesList (fun x => !x.isTocHeading) ns

/-- The byte sequence made of `k` copies of `b`, one after the other. -/
def copies : Nat → Bytes → Bytes
  | 0, _ => []
  | k + 1, b => b ++ copies k b

/-- Number of positions of `s` at which the pattern `p` occurs. -/
def countOcc (p : Bytes) : Bytes → Nat
  | [] => 0
  | c :: rest => (if p.isPrefixOf (c :: rest) then 1 else 0) + countOcc p rest

/-- The list-open tag. -/
def tagUl : Bytes := "<ul>".toList
/-- The list-close tag. -/
def tagUlEnd : Bytes := "</ul>".toList
/-- The item-open tag. -/
def tagLi : Bytes := "<li>".toList
/-- The item-close tag. -/
def tagLiEnd : Bytes := "</li>".toList
/-- The four list tags. -/
def listTags : List Bytes := [tagUl, tagUlEnd, tagLi, tagLiEnd]

/-- The bytes a renderer writes over a sequence of `RenderNode` calls started in state `rs`,
with the state it ends in. -/
def runRenderer {ρ : Type} (renderer : Renderer ρ) (rs : ρ) : List (Node × Bool) → ρ × Bytes
  | [] => (rs, [])
  | (node, entering) :: calls =>
    let r := renderer.RenderNode rs node entering
    let rest := runRenderer renderer r.1 calls
    (rest.1, r.2.1 ++ rest.2)

/-- The renderer's output contains no list tag: whatever calls are made, in whatever state,
none of the four list tags occurs in the bytes written. -/
def NoListTags {ρ : Type} (renderer : Renderer ρ) : Prop :=
  ∀ (rs : ρ) (calls : List (Node × Bool)) (tag : Bytes), tag ∈ listTags →
    countOcc tag (runRenderer renderer rs calls).2 = 0

/-- The list markup written on entering a heading of level `level` while `tocLevel` levels
are open: one item switch when the levels agree, otherwise one list close (and then an item
switch) or one list open per level of difference. -/
def levelMarkup (level tocLevel : Int) : Bytes :=
  if level = tocLevel then liNext
  else if level < tocLevel then copies (tocLevel - level).toNat ulClose ++ liNext
  else copies (level - tocLevel).toNat ulOpen

/-- The byte sequence is empty or starts with `<` or a linefeed. -/
def StartsClean (b : Bytes) : Prop := ∀ c ∈ b.head?, c = '<' ∨ c = '\n'

/-- The byte sequence is empty or ends with `>`. -/
def EndsClean (a : Bytes) : Prop := ∀ c ∈ a.getLast?, c = '>'

/-- The invariant of the visitor state of `HeadingRender` on trees whose non-title headings
have level at least 1. Before the first heading nothing is written. From then on
`1 ≤ minHeading ≤ tocLevel`, and the buffer is `minHeading - 1` list opens, then a part `pre`
that ends with `>` and holds every anchor written so far, then the bytes `run` written by
the renderer since; when the renderer writes no list tag, `pre` has
`tocLevel - (minHeading - 1)` more opens than closes of lists and of items. -/
def TocInv {ρ : Type} (r : Renderer ρ) (st : TocState ρ) : Prop :=
  (st.minHeading = -1 ∧ st.buf = [] ∧ st.tocLevel = 0 ∧ st.inHeading = false ∧
    st.headingCount = 0) ∨
  (1 ≤ st.minHeading ∧ st.minHeading ≤ st.tocLevel ∧
    ∃ (pre run : Bytes) (s0 : ρ) (calls : List (Node × Bool)),
      st.buf = copies (st.minHeading - 1).toNat ulOpen ++ (pre ++ run) ∧
      pre ≠ [] ∧ EndsClean pre ∧
      runRenderer r s0 calls = (st.renderer, run) ∧
      (∀ k, k < st.headingCount → aOpen k <:+: pre) ∧
      (NoListTags r →
        countOcc tagUl pre =
          countOcc tagUlEnd pre + (st.tocLevel - (st.minHeading - 1)).toNat ∧
        countOcc tagLi pre =
          countOcc tagLiEnd pre + (st.tocLevel - (st.minHeading - 1)).toNat))

mutual
/-- The values `f` yields at the nodes of a tree, in document order (a node before its
children, children left to right). -/
def collect {α : Type} (f : Node → List α) : Node → List α
  | .leaf literal => f (.leaf literal)
  | .inner kind children => f (.inner kind children) ++ collectList f children
/-- The values `f` yields at the nodes of a list of trees, in document order. -/
def collectList {α : Type} (f : Node → List α) : List Node → List α
  | [] => []
  | n :: rest => collect f n ++ collectList f rest
end

/-- Level and heading id of a node that is a non-title heading. -/
def tocEntry : Node → List (Int × String)
  | .inner (.heading level false headingID) _ => [(level, headingID)]
  | _ => []

/-- Heading id of a node that is a title-block heading. -/
def titleEntry : Node → List String
  | .inner (.heading _ true headingID) _ => [headingID]
  | _ => []

/-- The levels of the non-title headings of a tree, in document order. -/
def tocLevels (doc : Node) : List Int := (collect tocEntry doc).map Prod.fst

/-- The heading ids of the non-title headings of a tree, in document order. -/
def tocHeadingIDs (doc : Node) : List String := (collect tocEntry doc).map Prod.snd

/-- The heading ids of the title-block headings of a tree, in document order. -/
def titleIDs (doc : Node) : List String := collect titleEntry doc

/-- A node kind with the heading id of a non-title heading blanked. -/
def Kind.eraseTocID : Kind → Kind
  | .heading level false _ => .heading level false ""
  | k => k

mutual
/-- The tree with the heading id of every non-title heading blanked: what a tree is apart
from those ids. -/
def eraseTocIDs : Node → Node
  | .leaf literal => .leaf literal
  | .inner kind children => .inner kind.eraseTocID (eraseTocIDsList children)
/-- The list of trees with the heading id of every non-title heading blanked. -/
def eraseTocIDsList : List Node → List Node
  | [] => []
  | n :: rest => eraseTocIDs n :: eraseTocIDsList rest
end

/-- The renderer never returns `Terminate`. -/
def NeverTerminates {ρ : Type} (renderer : Renderer ρ) : Prop :=
  ∀ (rs : ρ) (node : Node) (entering : Bool),
    (renderer.RenderNode rs node entering).2.2 ≠ .Terminate

/-- The renderer returns `SkipChildren`, on entering a node, only when no non-title heading
lies in that node's subtree. -/
def SkipsOnlyHeadingFree {ρ : Type} (renderer : Renderer ρ) : Prop :=
  ∀ (rs : ρ) (node : Node),
    (renderer.RenderNode rs node true).2.2 = .SkipChildren → headingFree node = true

/-- The counters of the visitor of `HeadingRender`: `headingCount`, `minHeading`,
`tocLevel`. -/
def TocState.counters {ρ : Type} (st : TocState ρ) : Nat × Int × Int :=
  (st.headingCount, st.minHeading, st.tocLevel)

/-- What entering a non-title heading of level `level` does to the counters. -/
def enterCounters (c : Nat × Int × Int) (level : Int) : Nat × Int × Int :=
  (c.1 + 1, if c.2.1 = -1 ∨ level ≤ c.2.1 then level else c.2.1, level)

/-- The buffer `b := buf.Bytes()` of `HeadingRender`, after the final close loop and before
the slice. -/
def tocBuffer {ρ : Type} (renderer : Renderer ρ) (rs : ρ) (doc : Node) : Bytes :=
  (finalClose (tocWalk renderer rs doc).state.tocLevel.toNat
    (tocWalk renderer rs doc).state.tocLevel (tocWalk renderer rs doc).state.buf).2

/-- Whether a node kind is that of a non-title heading. -/
def Kind.isTocHeading : Kind → Bool
  | .heading _ false _ => true
  | _ => false

/-- A place in a tree: a gap between two children of some container, given by the
containers on the way down with the children to the left and to the right. -/
inductive Ctx where
  | hole (kind : Kind) (pre post : List Node)
  | step (kind : Kind) (pre : List Node) (inner : Ctx) (post : List Node)

/-- The tree with the nodes `mid` put in the gap. -/
def Ctx.fill : Ctx → List Node → Node
  | .hole kind pre post, mid => .inner kind (pre ++ (mid ++ post))
  | .step kind pre c post, mid => .inner kind (pre ++ c.fill mid :: post)

/-- The gap does not lie inside a non-title heading: no container on the way down to it is
one. -/
def Ctx.outsideHeadings : Ctx → Bool
  | .hole kind _ _ => !kind.isTocHeading
  | .step kind _ c _ => !kind.isTocHeading && c.outsideHeadings

/-- The bytes the renderer writes for the content `children` of a heading when started in
state `rs`, with the state it ends in: the walk of `Render` over the children. -/
def inlineRender {ρ : Type} (renderer : Renderer ρ) (rs : ρ) (children : List Node) :
    ρ × Bytes :=
  (walkChildren (renderVisitor renderer) (rs, []) children).state

/-- Level and content of a node that is a non-title heading. -/
def headingEntry : Node → List (Int × List Node)
  | .inner (.heading level false _) children => [(level, children)]
  | _ => []

/-- The non-title headings of a tree, in document order, each with its level and content. -/
def tocHeadings (doc : Node) : List (Int × List Node) := collect headingEntry doc

/-- Whether a node, if it is a non-title heading, has no non-title heading in its content. -/
def contentHeadingFree : Node → Bool
  | .inner (.heading _ false _) children => headingFreeList children
  | _ => true

/-- Headings are not nested inside headings: no non-title heading has a non-title heading
beneath it. -/
def flat (doc : Node) : Bool := allNodes contentHeadingFree doc

/-- The whole effect of one heading of a flat tree on the visitor's variables: the entering
call, the renderer's bytes for the content, the leaving call. -/
def headingStep {ρ : Type} (renderer : Renderer ρ) (st : TocState ρ)
    (h : Int × List Node) : TocState ρ :=
  let st1 := (headingVisitor renderer st (.inner (.heading h.1 false "") h.2) true).state
  let out := inlineRender renderer st1.renderer h.2
  { st1 with inHeading := false, renderer := out.1, buf := st1.buf ++ out.2 ++ aClose }

/-! ## Traces of a walk -/

/-- A visitor that, besides doing what `v` does, keeps the list of the calls made to it so
far, each call as the node and the entering flag. -/
def recordCalls {σ : Type} (v : σ → Node → Bool → Visit σ) (s : σ × List (Node × Bool))
    (node : Node) (entering : Bool) : Visit (σ × List (Node × Bool)) :=
  { state := ((v s.1 node entering).state, s.2 ++ [(node, entering)]),
    headingID := (v s.1 node entering).headingID,
    status := (v s.1 node entering).status }

/-- The visitor calls made by the walk of a tree, in the order they are made. -/
def walkCalls {σ : Type} (v : σ → Node → Bool → Visit σ) (s : σ) (doc : Node) :
    List (Node × Bool) :=
  (WalkFunc (recordCalls v) (s, []) doc).state.2

/-- The visitor's variables after a sequence of calls started with the variables `s`. -/
def runCalls {σ : Type} (v : σ → Node → Bool → Visit σ) (s : σ) : List (Node × Bool) → σ
  | [] => s
  | (node, entering) :: calls => runCalls v (v s node entering).state calls

/-- The visitor calls made by the walk of `HeadingRender`. -/
def tocCalls {ρ : Type} (renderer : Renderer ρ) (rs : ρ) (doc : Node) : List (Node × Bool) :=
  walkCalls (headingVisitor renderer) (tocInit rs) doc

/-- The renderer that behaves as `renderer` does but writes no bytes. -/
def silent {ρ : Type} (renderer : Renderer ρ) : Renderer ρ where
  RenderNode := fun rs node entering =>
    ((renderer.RenderNode rs node entering).1, [], (renderer.RenderNode rs node entering).2.2)
  RenderHeader := fun rs doc => ((renderer.RenderHeader rs doc).1, [])
  RenderFooter := fun rs doc => ((renderer.RenderFooter rs doc).1, [])

/-- The bytes `HeadingRender` itself has written after a sequence of visitor calls: the
buffer after the same calls with the renderer's bytes left out. -/
def ownMarkup {ρ : Type} (renderer : Renderer ρ) (rs : ρ) (calls : List (Node × Bool)) :
    Bytes :=
  (runCalls (headingVisitor (silent renderer)) (tocInit rs) calls).buf

/-- The renderer that behaves as `renderer` does and keeps, in its state, the list of the
`RenderNode` calls made to it. -/
def logged {ρ : Type} (renderer : Renderer ρ) : Renderer (ρ × List (Node × Bool)) where
  RenderNode := fun rs node entering =>
    (((renderer.RenderNode rs.1 node entering).1, rs.2 ++ [(node, entering)]),
      (renderer.RenderNode rs.1 node entering).2.1,
      (renderer.RenderNode rs.1 node entering).2.2)
  RenderHeader := fun rs doc => (((renderer.RenderHeader rs.1 doc).1, rs.2),
    (renderer.RenderHeader rs.1 doc).2)
  RenderFooter := fun rs doc => (((renderer.RenderFooter rs.1 doc).1, rs.2),
    (renderer.RenderFooter rs.1 doc).2)

/-- Two states of the visitor of `HeadingRender` that agree on everything but the buffer. -/
def sameButBuf {ρ : Type} (a b : TocState ρ) : Prop :=
  a.inHeading = b.inHeading ∧ a.tocLevel = b.tocLevel ∧ a.headingCount = b.headingCount ∧
    a.minHeading = b.minHeading ∧ a.renderer = b.renderer

/-- The `RenderNode` calls made by the walk of `Render`, in the order they are made. -/
def renderCalls {ρ : Type} (renderer : Renderer ρ) (rs : ρ) (doc : Node) :
    List (Node × Bool) :=
  walkCalls (renderVisitor renderer)
    ((renderer.RenderHeader rs doc).1, (renderer.RenderHeader rs doc).2) doc

mutual
/-- The enter and exit events of a tree in document order: a leaf once, a container on
entering, then its children, then the container on exiting. -/
def events : Node → List (Node × Bool)
  | .leaf literal => [(.leaf literal, true)]
  | .inner kind children =>
    (.inner kind children, true) :: (eventsList children ++ [(.inner kind children, false)])
/-- The enter and exit events of a list of trees in document order. -/
def eventsList : List Node → List (Node × Bool)
  | [] => []
  | n :: rest => events n ++ eventsList rest
end

/-- A state of the visitor of `HeadingRender` and a state of the same visitor run with the
logging renderer that agree on everything but the log. -/
def sameButLog {ρ : Type} (a : TocState ρ) (b : TocState (ρ × List (Node × Bool))) : Prop :=
  a.buf = b.buf ∧ a.inHeading = b.inHeading ∧ a.tocLevel = b.tocLevel ∧
    a.headingCount = b.headingCount ∧ a.minHeading = b.minHeading ∧ a.renderer = b.renderer.1

/-- The bytes one call of the visitor of `HeadingRender` appends to the buffer: the buffer
after the call when it is empty before. -/
def written {ρ : Type} (renderer : Renderer ρ) (st : TocState ρ) (node : Node)
    (entering : Bool) : Bytes :=
  (headingVisitor renderer { st with buf := [] } node entering).state.buf

/-- The inline output in the buffer, run by run, over a sequence of visitor calls started
with the variables `st`: a run is what the calls between two calls on non-title headings
append to the buffer (the renderer's bytes for the content of a heading, and nothing outside
the headings); `cur` is the run written so far. -/
def inlineRunsFrom {ρ : Type} (renderer : Renderer ρ) :
    TocState ρ → Bytes → List (Node × Bool) → List Bytes
  | _, cur, [] => [cur]
  | st, cur, (node, entering) :: calls =>
    if node.isTocHeading then
      cur :: inlineRunsFrom renderer (headingVisitor renderer st node entering).state [] calls
    else
      inlineRunsFrom renderer (headingVisitor renderer st node entering).state
        (cur ++ written renderer st node entering) calls

/-- The inline output written during the walk of `HeadingRender`, run by run. -/
def inlineRuns {ρ : Type} (renderer : Renderer ρ) (rs : ρ) (doc : Node) : List Bytes :=
  inlineRunsFrom renderer (tocInit rs) [] (tocCalls renderer rs doc)

/-- The inline output written during the walk of `HeadingRender` contains no list tag: none
of the four list tags occurs in any of its runs. -/
def InlineClean {ρ : Type} (renderer : Renderer ρ) (rs : ρ) (doc : Node) : Prop :=
  ∀ run ∈ inlineRuns renderer rs doc, ∀ tag ∈ listTags, countOcc tag run = 0

/-! ## The flat outline -/

/-- The bytes the renderer writes for each of the given heading contents, taken one after
the other from the state `rs`. -/
def renderContents {ρ : Type} (renderer : Renderer ρ) : ρ → List (List Node) → List Bytes
  | _, [] => []
  | rs, c :: rest =>
    (inlineRender renderer rs c).2 :: renderContents renderer (inlineRender renderer rs c).1 rest

/-- The items of a single list after the first one: for each content an item switch and the
anchor, numbered from `i`, around the content. -/
def outlineTail : Nat → List Bytes → Bytes
  | _, [] => []
  | i, c :: rest => liNext ++ aOpen i ++ c ++ aClose ++ outlineTail (i + 1) rest

/-- The single list with one item per content: `"\n<ul>\n<li>"`, the entries
`<a href="#toc_i">` content `</a>` separated by `"</li>\n\n<li>"`, and `"</li>\n</ul>"`. -/
def flatOutline : List Bytes → Bytes
  | [] => []
  | c :: rest => ulOpen ++ aOpen 0 ++ c ++ aClose ++ outlineTail 1 rest ++ ulClose

/-! ## Lowering the heading levels -/

/-- A node kind with the level of a non-title heading lowered by `d`. -/
def Kind.shift (d : Int) : Kind → Kind
  | .heading level false headingID => .heading (level - d) false headingID
  | k => k

mutual
/-- The tree with the level of every non-title heading lowered by `d`. -/
def shiftLevels (d : Int) : Node → Node
  | .leaf literal => .leaf literal
  | .inner kind children => .inner (kind.shift d) (shiftLevelsList d children)
/-- The list of trees with the level of every non-title heading lowered by `d`. -/
def shiftLevelsList (d : Int) : List Node → List Node
  | [] => []
  | n :: rest => shiftLevels d n :: shiftLevelsList d rest
end

/-- What the renderer does with a node that is not a non-title heading does not depend on
the levels of the non-title headings beneath it, as far as lowering them all by `d` goes. -/
def LevelBlind {ρ : Type} (renderer : Renderer ρ) (d : Int) : Prop :=
  ∀ (rs : ρ) (n : Node) (e : Bool), n.isTocHeading = false →
    renderer.RenderNode rs (shiftLevels d n) e = renderer.RenderNode rs n e

/-- The visitor's variables `a` on a tree and `b` on the same tree with the levels lowered
by `d`, after the same calls: before the first heading nothing is written in either; from
then on `a` has `d` more levels open, a `minHeading` larger by `d`, and `d` more list opens
at the start of the buffer. -/
def shiftedBy {ρ : Type} (d : Int) (a b : TocState ρ) : Prop :=
  a.inHeading = b.inHeading ∧ a.headingCount = b.headingCount ∧ a.renderer = b.renderer ∧
    ((a.minHeading = -1 ∧ b.minHeading = -1 ∧ a.tocLevel = 0 ∧ b.tocLevel = 0 ∧
        a.buf = [] ∧ b.buf = [] ∧ a.inHeading = false) ∨
      (1 ≤ b.minHeading ∧ 0 ≤ b.tocLevel ∧ a.minHeading = b.minHeading + d ∧
        a.tocLevel = b.tocLevel + d ∧ a.buf = copies d.toNat ulOpen ++ b.buf))

/-! ## Sample renderers and documents -/

/-- A sample renderer with every walk signal: a leaf is written as its literal with `<`
dropped, containers write nothing; the leaf `"!stop"` terminates the walk and a container
named `"skip"` skips its children. -/
def sampleRenderer : Renderer Unit where
  RenderNode := fun _ node _ =>
    match node with
    | .leaf literal =>
      ((), literal.toList.filter (fun c => c != '<'),
        if literal = "!stop" then .Terminate else .GoToNext)
    | .inner (.other name) _ => ((), [], if name = "skip" then .SkipChildren else .GoToNext)
    | .inner (.heading _ _ _) _ => ((), [], .GoToNext)
  RenderHeader := fun _ _ => ((), [])
  RenderFooter := fun _ _ => ((), [])

/-- A sample renderer that always continues: a leaf is written as its literal with `<`
dropped, containers write nothing. -/
def textRenderer : Renderer Unit where
  RenderNode := fun _ node _ =>
    match node with
    | .leaf literal => ((), literal.toList.filter (fun c => c != '<'), .GoToNext)
    | .inner _ _ => ((), [], .GoToNext)
  RenderHeader := fun _ _ => ((), [])
  RenderFooter := fun _ _ => ((), [])

/-- A non-title heading of the given level whose content is one text leaf. -/
def sampleHeading (level : Int) (text : String) : Node :=
  .inner (.heading level false "") [.leaf text]

/-- A document: a root container with the given children. -/
def sampleDoc (children : List Node) : Node := .inner (.other "document") children

/-- A sample renderer that never terminates the walk but skips the children of every
container named `"skip"`. -/
def skippingRenderer : Renderer Unit where
  RenderNode := fun _ node _ =>
    match node with
    | .leaf literal => ((), literal.toList.filter (fun c => c != '<'), .GoToNext)
    | .inner (.other name) _ => ((), [], if name = "skip" then .SkipChildren else .GoToNext)
    | .inner (.heading _ _ _) _ => ((), [], .GoToNext)
  RenderHeader := fun _ _ => ((), [])
  RenderFooter := fun _ _ => ((), [])

/-- A sample renderer that shows the order of the calls: the header is `[`, the footer `]`,
a leaf is written as its literal, a container named `x` as `<x>` on entering and `</x>` on
leaving, a heading as `<h>` and `</h>`; it always continues. -/
def tagRenderer : Renderer Unit where
  RenderNode := fun _ node entering =>
    match node with
    | .leaf literal => ((), literal.toList, .GoToNext)
    | .inner (.other name) _ =>
      ((), (if entering then "<" ++ name ++ ">" else "</" ++ name ++ ">").toList, .GoToNext)
    | .inner (.heading _ _ _) _ => ((), (if entering then "<h>" else "</h>").toList, .GoToNext)
  RenderHeader := fun _ _ => ((), "[".toList)
  RenderFooter := fun _ _ => ((), "]".toList)

/-- A sample renderer that looks beneath the node it is given: a leaf is written as its
literal, and a container whose first child is a heading of level 1 is written, on entering,
as `1`; it always continues. -/
def peekRenderer : Renderer Unit where
  RenderNode := fun _ node entering =>
    match node with
    | .leaf literal => ((), literal.toList, .GoToNext)
    | .inner _ (.inner (.heading level _ _) _ :: _) =>
      ((), if level = 1 ∧ entering = true then "1".toList else [], .GoToNext)
    | .inner _ _ => ((), [], .GoToNext)
  RenderHeader := fun _ _ => ((), [])
  RenderFooter := fun _ _ => ((), [])

/-- A sample renderer that writes list tags for list blocks: a leaf is written as its
literal, a container named `x` as `<x>` on entering and `</x>` on leaving, a heading as
nothing; it always continues. -/
def listRenderer : Renderer Unit where
  RenderNode := fun _ node entering =>
    match node with
    | .leaf literal => ((), literal.toList, .GoToNext)
    | .inner (.other name) _ =>
      ((), (if entering then "<" ++ name ++ ">" else "</" ++ name ++ ">").toList, .GoToNext)
    | .inner (.heading _ _ _) _ => ((), [], .GoToNext)
  RenderHeader := fun _ _ => ((), [])
  RenderFooter := fun _ _ => ((), [])

/-! ## Preprocessing: lemmas -/

theorem replaceAllAux_crlf (s : Bytes) :
    replaceAllAux ['\r', '\n'] ['\n'] 0 s = dropCRLF s := by
  induction s using dropCRLF.induct with
  | case1 => simp [replaceAllAux, dropCRLF]
  | case2 rest ih =>
    simp [replaceAllAux, dropCRLF, List.isPrefixOf]
    exact ih
  | case3 c rest hne ih =>
    rw [dropCRLF]
    · rw [replaceAllAux]
      have : (['\r', '\n'] : Bytes).isPrefixOf (c :: rest) = false := by
        cases rest with
        | nil => simp [List.isPrefixOf]
        | cons d rest =>
          simp only [List.isPrefixOf, Bool.and_true]
          by_cases h1 : c = '\r'
          · by_cases h2 : d = '\n'
            · exact absurd (by rw [h2]) (hne rest h1)
            · simp; intro _ h; exact h2 h.symm
          · simp
            intro h; exact absurd h.symm h1
      rw [this]; simp [ih]
    · exact hne

theorem replaceAllAux_cr (s : Bytes) :
    replaceAllAux ['\r'] ['\n'] 0 s = s.map crToLf := by
  induction s with
  | nil => simp [replaceAllAux]
  | cons c rest ih =>
    rw [replaceAllAux]
    by_cases h : c = '\r'
    · subst h
      simp [List.isPrefixOf, replaceAllAux, crToLf]
      exact ih
    · have : (['\r'] : Bytes).isPrefixOf (c :: rest) = false := by
        simp [List.isPrefixOf]; intro h'; exact absurd h'.symm h
      rw [this]; simp [ih, crToLf, h]

theorem map_dropCRLF (s : Bytes) : (dropCRLF s).map crToLf = lineEndingsSpec s := by
  induction s using lineEndingsSpec.induct with
  | case1 => simp [dropCRLF, lineEndingsSpec]
  | case2 rest ih => simp [dropCRLF, lineEndingsSpec, ih, crToLf]
  | case3 rest hne ih =>
    rw [lineEndingsSpec, dropCRLF]
    · simp [crToLf, ih]
    · intro r _ h2; exact hne r h2
    · exact hne
  | case4 c rest h1 h2 ih =>
    rw [lineEndingsSpec, dropCRLF]
    · simp [crToLf, ih]; intro h; exact absurd h h2
    · intro r h3 h4; exact h1 r h3 h4
    · intro r h; exact h1 r h
    · intro h; exact h2 h

theorem normalizeLineEndings_eq (s : Bytes) : normalizeLineEndings s = lineEndingsSpec s := by
  show replaceAllAux ['\r'] ['\n'] 0 (replaceAllAux ['\r', '\n'] ['\n'] 0 s) = _
  rw [replaceAllAux_crlf, replaceAllAux_cr, map_dropCRLF]



theorem lineEndingsSpec_cons_ne (c : Char) (rest : Bytes) (h : c ≠ '\r') :
    lineEndingsSpec (c :: rest) = c :: lineEndingsSpec rest := by
  rw [lineEndingsSpec]
  · intro r h1; exact absurd h1 h
  · exact h

theorem lineEndingsSpec_cr (rest : Bytes) :
    ∃ t, lineEndingsSpec ('\r' :: rest) = '\n' :: t := by
  cases rest with
  | nil => exact ⟨[], by simp [lineEndingsSpec]⟩
  | cons d rest =>
    by_cases h : d = '\n'
    · subst h; exact ⟨lineEndingsSpec rest, by simp [lineEndingsSpec]⟩
    · refine ⟨lineEndingsSpec (d :: rest), ?_⟩
      rw [lineEndingsSpec]
      intro r hr; simp at hr; exact h hr.1

/-- A pattern without line-ending bytes starts the normalised text exactly when it starts the
raw text. -/
theorem prefix_lineEndingsSpec (p : Bytes) (hcr : '\r' ∉ p) (hlf : '\n' ∉ p) (s : Bytes) :
    p <+: lineEndingsSpec s ↔ p <+: s := by
  induction p generalizing s with
  | nil => simp
  | cons a p ih =>
    have ha : a ≠ '\r' := fun h => hcr (by simp [h])
    have ha' : a ≠ '\n' := fun h => hlf (by simp [h])
    have ih' := ih (fun h => hcr (List.mem_cons_of_mem _ h)) (fun h => hlf (List.mem_cons_of_mem _ h))
    cases s with
    | nil => simp [lineEndingsSpec]
    | cons c rest =>
      by_cases hc : c = '\r'
      · subst hc
        obtain ⟨t, ht⟩ := lineEndingsSpec_cr rest
        rw [ht]
        simp [List.cons_prefix_cons, ha, ha']
      · rw [lineEndingsSpec_cons_ne c rest hc]
        simp [List.cons_prefix_cons, ih']

theorem infix_lineEndingsSpec (p : Bytes) (hne : p ≠ []) (hcr : '\r' ∉ p) (hlf : '\n' ∉ p)
    (s : Bytes) : p <:+: lineEndingsSpec s ↔ p <:+: s := by
  have hpre := prefix_lineEndingsSpec p hcr hlf
  have hnil : ¬ p <:+: [] := by simpa using hne
  obtain ⟨a, q, rfl⟩ := List.exists_cons_of_ne_nil hne
  have ha : a ≠ '\r' := fun h => hcr (by simp [h])
  have ha' : a ≠ '\n' := fun h => hlf (by simp [h])
  induction s using lineEndingsSpec.induct with
  | case1 => simp [lineEndingsSpec]
  | case2 rest ih =>
    have ih : (a :: q <:+: lineEndingsSpec rest ↔ a :: q <:+: rest) := ih
    rw [lineEndingsSpec, List.infix_cons_iff, List.infix_cons_iff, List.infix_cons_iff, ih]
    simp [List.cons_prefix_cons, ha, ha']
  | case3 rest h ih =>
    have ih : (a :: q <:+: lineEndingsSpec rest ↔ a :: q <:+: rest) := ih
    have h1 := hpre ('\r' :: rest)
    rw [List.infix_cons_iff, ← h1, ← ih]
    rw [lineEndingsSpec]
    · rw [List.infix_cons_iff]
    · exact h
  | case4 c rest h1 h2 ih =>
    have ih : (a :: q <:+: lineEndingsSpec rest ↔ a :: q <:+: rest) := ih
    have h3 := hpre (c :: rest)
    rw [List.infix_cons_iff, ← h3, ← ih, lineEndingsSpec_cons_ne c rest h2, List.infix_cons_iff]

theorem findIndexAux_eq_none (pos : Nat) (s : Bytes) :
    findIndexAux pos s = none ↔ ¬ tocMarker <:+: s := by
  induction s generalizing pos with
  | nil => simp [findIndexAux, tocMarker]
  | cons c rest ih =>
    rw [findIndexAux, List.infix_cons_iff]
    by_cases h : tocMarker.isPrefixOf (c :: rest) = true
    · rw [if_pos h]
      simp [List.isPrefixOf_iff_prefix.mp h]
    · rw [if_neg h, ih]
      have : ¬ tocMarker <+: c :: rest := fun h' => h (List.isPrefixOf_iff_prefix.mpr h')
      simp [this]

theorem matchEnd_eq (pos : Nat) (s : Bytes) (i : Nat) :
    matchEnd pos (s.drop (i + 5)) = if s[i + 5]? = some '\n' then pos + 6 else pos + 5 := by
  rw [← List.head?_drop]
  cases s.drop (i + 5) with
  | nil => simp [matchEnd]
  | cons d t =>
    by_cases h : d = '\n'
    · subst h; simp [matchEnd]
    · simp only [List.head?_cons, Option.some.injEq, h, if_false]
      unfold matchEnd
      split
      · rename_i heq; simp at heq; exact absurd heq.1 h
      · rfl

theorem findIndexAux_first (s : Bytes) (i pos : Nat) (hocc : tocMarker <+: s.drop i)
    (hfirst : ∀ j, j < i → ¬ tocMarker <+: s.drop j) :
    findIndexAux pos s = some (pos + i, matchEnd (pos + i) (s.drop (i + 5))) := by
  induction i generalizing s pos with
  | zero =>
    cases s with
    | nil => simp [tocMarker] at hocc
    | cons c rest =>
      rw [findIndexAux, if_pos (List.isPrefixOf_iff_prefix.mpr (by simpa using hocc))]
      simp
  | succ i ih =>
    cases s with
    | nil => simp [tocMarker] at hocc
    | cons c rest =>
      have h0 : ¬ tocMarker <+: c :: rest := by simpa using hfirst 0 (Nat.succ_pos i)
      rw [findIndexAux, if_neg (fun h => h0 (List.isPrefixOf_iff_prefix.mp h))]
      have := ih rest (pos + 1) (by simpa using hocc)
        (fun j hj => by simpa using hfirst (j + 1) (Nat.succ_lt_succ hj))
      rw [this]
      simp [Nat.add_assoc, Nat.add_comm 1 i, Nat.add_right_comm]



theorem Preparse_eq_of_first (markdown : Bytes) (i : Nat)
    (hocc : tocMarker <+: (normalizeLineEndings markdown).drop i)
    (hfirst : ∀ j, j < i → ¬ tocMarker <+: (normalizeLineEndings markdown).drop j) :
    Preparse markdown =
      (normalizeLineEndings markdown).drop
        (if (normalizeLineEndings markdown)[i + 5]? = some '\n' then i + 6 else i + 5) := by
  have h := findIndexAux_first (normalizeLineEndings markdown) i 0 hocc hfirst
  rw [matchEnd_eq] at h
  show (match findIndex (normalizeLineEndings markdown) with
      | some ix => (normalizeLineEndings markdown).drop ix.2
      | none => normalizeLineEndings markdown) = _
  unfold findIndex
  rw [h]
  simp

theorem Preparse_eq_of_no_marker (markdown : Bytes) (h : ¬ tocMarker <:+: markdown) :
    Preparse markdown = lineEndingsSpec markdown := by
  have hn : ¬ tocMarker <:+: normalizeLineEndings markdown := by
    rw [normalizeLineEndings_eq,
      infix_lineEndingsSpec tocMarker (by decide) (by decide) (by decide)]
    exact h
  show (match findIndex (normalizeLineEndings markdown) with
      | some ix => (normalizeLineEndings markdown).drop ix.2
      | none => normalizeLineEndings markdown) = _
  unfold findIndex
  rw [(findIndexAux_eq_none 0 _).mpr hn, normalizeLineEndings_eq]

theorem lineEndingsSpec_of_no_cr (x : Bytes) (h : '\r' ∉ x) : lineEndingsSpec x = x := by
  induction x with
  | nil => simp [lineEndingsSpec]
  | cons c rest ih =>
    have hc : c ≠ '\r' := fun e => h (by simp [e])
    rw [lineEndingsSpec_cons_ne c rest hc, ih (fun e => h (List.mem_cons_of_mem _ e))]

/-- A second marker cannot start inside the first one, nor on the linefeed that follows it. -/
theorem later_marker_after_cut (s : Bytes) (i k : Nat) (hocc : tocMarker <+: s.drop i)
    (hk : i < k) (hocc2 : tocMarker <+: s.drop k) :
    (if s[i + 5]? = some '\n' then i + 6 else i + 5) ≤ k := by
  obtain ⟨t, ht⟩ := hocc
  obtain ⟨t2, ht2⟩ := hocc2
  obtain ⟨d, rfl⟩ : ∃ d, k = i + (d + 1) := ⟨k - i - 1, by omega⟩
  have h1 : s.drop (i + (d + 1)) = (tocMarker ++ t).drop (d + 1) := by
    rw [ht, List.drop_drop]
  rw [h1] at ht2
  have h5 : s[i + 5]? = t.head? := by
    have : s.drop (i + 5) = (tocMarker ++ t).drop 5 := by rw [ht, List.drop_drop]
    rw [← List.head?_drop, this]
    simp [tocMarker]
  match d, ht2 with
  | 0, ht2 => simp [tocMarker] at ht2
  | 1, ht2 => simp [tocMarker] at ht2
  | 2, ht2 => simp [tocMarker] at ht2
  | 3, ht2 => simp [tocMarker] at ht2
  | 4, ht2 =>
    have : t = tocMarker ++ t2 := by simpa [tocMarker] using ht2.symm
    rw [h5, this]
    simp [tocMarker]
  | d + 5, _ => split <;> omega

theorem Preparse_marker_hello : Preparse "[TOC]\nHello".toList = "Hello".toList := by decide

/-! ## The walker: invariants -/

theorem WalkFunc_leaf {σ : Type} (v : σ → Node → Bool → Visit σ) (s : σ) (literal : String) :
    WalkFunc v s (.leaf literal) =
      { state := (v s (.leaf literal) true).state, tree := .leaf literal,
        status := if (v s (.leaf literal) true).status = .Terminate then .Terminate
          else .GoToNext } := by
  simp only [WalkFunc]

theorem WalkFunc_inner {σ : Type} (v : σ → Node → Bool → Visit σ) (s : σ) (kind : Kind)
    (children : List Node) :
    WalkFunc v s (.inner kind children) =
      if (v s (.inner kind children) true).status = .Terminate then
        { state := (v s (.inner kind children) true).state,
          tree := .inner (kind.assign (v s (.inner kind children) true).headingID) children,
          status := .Terminate }
      else if (v s (.inner kind children) true).status = .SkipChildren then
        { state := (v s (.inner kind children) true).state,
          tree := .inner (kind.assign (v s (.inner kind children) true).headingID) children,
          status := .GoToNext }
      else if (walkChildren v (v s (.inner kind children) true).state children).status
          = .Terminate then
        { state := (walkChildren v (v s (.inner kind children) true).state children).state,
          tree := .inner (kind.assign (v s (.inner kind children) true).headingID)
            (walkChildren v (v s (.inner kind children) true).state children).tree,
          status := .Terminate }
      else
        { state := (v (walkChildren v (v s (.inner kind children) true).state children).state
            (.inner (kind.assign (v s (.inner kind children) true).headingID)
              (walkChildren v (v s (.inner kind children) true).state children).tree)
            false).state,
          tree := .inner
            ((kind.assign (v s (.inner kind children) true).headingID).assign
              (v (walkChildren v (v s (.inner kind children) true).state children).state
                (.inner (kind.assign (v s (.inner kind children) true).headingID)
                  (walkChildren v (v s (.inner kind children) true).state children).tree)
                false).headingID)
            (walkChildren v (v s (.inner kind children) true).state children).tree,
          status :=
            if (v (walkChildren v (v s (.inner kind children) true).state children).state
                (.inner (kind.assign (v s (.inner kind children) true).headingID)
                  (walkChildren v (v s (.inner kind children) true).state children).tree)
                false).status = .Terminate then .Terminate
            else .GoToNext } := by
  simp only [WalkFunc]

theorem walkChildren_nil {σ : Type} (v : σ → Node → Bool → Visit σ) (s : σ) :
    walkChildren v s [] = { state := s, tree := [], status := .GoToNext } := by
  simp only [walkChildren]

theorem walkChildren_cons {σ : Type} (v : σ → Node → Bool → Visit σ) (s : σ) (n : Node)
    (rest : List Node) :
    walkChildren v s (n :: rest) =
      if (WalkFunc v s n).status = .Terminate then
        { state := (WalkFunc v s n).state, tree := (WalkFunc v s n).tree :: rest,
          status := .Terminate }
      else
        { state := (walkChildren v (WalkFunc v s n).state rest).state,
          tree := (WalkFunc v s n).tree :: (walkChildren v (WalkFunc v s n).state rest).tree,
          status := (walkChildren v (WalkFunc v s n).state rest).status } := by
  simp only [walkChildren]

theorem Kind.assign_isTocHeading (kind : Kind) (id : Option String) (cs cs' : List Node) :
    (Node.inner (kind.assign id) cs').isTocHeading = (Node.inner kind cs).isTocHeading := by
  cases kind with
  | other name => cases id <;> rfl
  | heading level t hid => cases id <;> cases t <;> rfl

mutual
/-- A property `P` of the visitor state that every visitor call preserves holds after the
walk. Entering calls are only made on nodes of the tree (so `q` may be assumed); an exit call
on a non-title heading is only made after that heading was entered, which `S` records. -/
theorem WalkFunc_inv {σ : Type} (v : σ → Node → Bool → Visit σ) (P S : σ → Prop)
    (q : Node → Bool)
    (henter : ∀ s n, q n = true → P s →
      P (v s n true).state ∧ (n.isTocHeading = true → S (v s n true).state) ∧
        (S s → S (v s n true).state))
    (hexit : ∀ s n, P s → (n.isTocHeading = true → S s) →
      P (v s n false).state ∧ (S s → S (v s n false).state)) :
    ∀ (n : Node) (s : σ), allNodes q n = true → P s →
      P (WalkFunc v s n).state ∧ (S s → S (WalkFunc v s n).state)
  | .leaf literal, s, hq, hp => by
    simp only [allNodes] at hq
    have h := henter s (.leaf literal) hq hp
    rw [WalkFunc_leaf]
    exact ⟨h.1, h.2.2⟩
  | .inner kind children, s, hq, hp => by
    simp only [allNodes, Bool.and_eq_true] at hq
    have h := henter s (.inner kind children) hq.1 hp
    have hc := walkChildren_inv v P S q henter hexit children
      (v s (.inner kind children) true).state hq.2 h.1
    rw [WalkFunc_inner]
    split
    · exact ⟨h.1, h.2.2⟩
    · split
      · exact ⟨h.1, h.2.2⟩
      · split
        · exact ⟨hc.1, fun hs => hc.2 (h.2.2 hs)⟩
        · have hx := hexit (walkChildren v (v s (.inner kind children) true).state children).state
            (.inner (kind.assign (v s (.inner kind children) true).headingID)
              (walkChildren v (v s (.inner kind children) true).state children).tree)
            hc.1
            (fun ht => hc.2 (h.2.1 (by rw [← ht]; exact (Kind.assign_isTocHeading _ _ _ _).symm)))
          exact ⟨hx.1, fun hs => hx.2 (hc.2 (h.2.2 hs))⟩
theorem walkChildren_inv {σ : Type} (v : σ → Node → Bool → Visit σ) (P S : σ → Prop)
    (q : Node → Bool)
    (henter : ∀ s n, q n = true → P s →
      P (v s n true).state ∧ (n.isTocHeading = true → S (v s n true).state) ∧
        (S s → S (v s n true).state))
    (hexit : ∀ s n, P s → (n.isTocHeading = true → S s) →
      P (v s n false).state ∧ (S s → S (v s n false).state)) :
    ∀ (ns : List Node) (s : σ), allNodesList q ns = true → P s →
      P (walkChildren v s ns).state ∧ (S s → S (walkChildren v s ns).state)
  | [], s, _, hp => by
    rw [walkChildren_nil]
    exact ⟨hp, id⟩
  | n :: rest, s, hq, hp => by
    simp only [allNodesList, Bool.and_eq_true] at hq
    have h1 := WalkFunc_inv v P S q henter hexit n s hq.1 hp
    have h2 := walkChildren_inv v P S q henter hexit rest (WalkFunc v s n).state hq.2 h1.1
    rw [walkChildren_cons]
    split
    · exact h1
    · exact ⟨h2.1, fun hs => h2.2 (h1.2 hs)⟩
end

/-! ## Counting tag occurrences -/

/-- A pattern none of whose bytes is the first byte of `b` starts `a ++ b` exactly when it
starts `a`. -/
theorem isPrefixOf_append_of_head (p a b : Bytes) (h : ∀ c ∈ b.head?, c ∉ p) :
    p.isPrefixOf (a ++ b) = p.isPrefixOf a := by
  induction a generalizing p with
  | nil =>
    cases p with
    | nil => cases b <;> simp [List.isPrefixOf]
    | cons p0 p' =>
      cases b with
      | nil => simp [List.isPrefixOf]
      | cons c b' =>
        have hc : p0 ≠ c := fun e => h c (by simp) (by simp [e])
        simp [List.isPrefixOf, hc]
  | cons x a' ih =>
    cases p with
    | nil => simp [List.isPrefixOf]
    | cons p0 p' =>
      show (p0 == x && p'.isPrefixOf (a' ++ b)) = (p0 == x && p'.isPrefixOf a')
      rw [ih p' (fun c hc hm => h c hc (List.mem_cons_of_mem _ hm))]

theorem countOcc_append_of_head (p a b : Bytes) (h : ∀ c ∈ b.head?, c ∉ p.tail) :
    countOcc p (a ++ b) = countOcc p a + countOcc p b := by
  induction a with
  | nil => simp [countOcc]
  | cons x a' ih =>
    have hp : p.isPrefixOf (x :: a' ++ b) = p.isPrefixOf (x :: a') := by
      cases p with
      | nil => simp [List.isPrefixOf]
      | cons p0 p' =>
        show (p0 == x && p'.isPrefixOf (a' ++ b)) = (p0 == x && p'.isPrefixOf a')
        rw [isPrefixOf_append_of_head p' a' b h]
    show (if p.isPrefixOf (x :: a' ++ b) then 1 else 0) + countOcc p (a' ++ b) =
      (if p.isPrefixOf (x :: a') then 1 else 0) + countOcc p a' + countOcc p b
    rw [hp, ih]
    omega

/-- A pattern whose bytes before the last all differ from the last byte of the non-empty `a`
starts `a ++ b` exactly when it starts `a`. -/
theorem isPrefixOf_append_of_last (p a b : Bytes) (hne : a ≠ [])
    (h : ∀ c ∈ a.getLast?, c ∉ p.dropLast) :
    p.isPrefixOf (a ++ b) = p.isPrefixOf a := by
  induction a generalizing p with
  | nil => exact absurd rfl hne
  | cons x a' ih =>
    cases p with
    | nil => simp [List.isPrefixOf]
    | cons p0 p' =>
      show (p0 == x && p'.isPrefixOf (a' ++ b)) = (p0 == x && p'.isPrefixOf a')
      cases a' with
      | nil =>
        cases p' with
        | nil => cases b <;> simp [List.isPrefixOf]
        | cons p1 p'' =>
          have hx : p0 ≠ x := fun e => h x (by simp) (by simp [List.dropLast, e])
          simp [hx]
      | cons y a'' =>
        rw [ih p' (by simp)]
        intro c hc hm
        refine h c (by simpa [List.getLast?_cons_cons] using hc) ?_
        cases p' with
        | nil => simp at hm
        | cons p1 p'' => simp only [List.dropLast_cons₂]; exact List.mem_cons_of_mem _ hm

theorem countOcc_append_of_last (p a b : Bytes) (h : ∀ c ∈ a.getLast?, c ∉ p.dropLast) :
    countOcc p (a ++ b) = countOcc p a + countOcc p b := by
  induction a with
  | nil => simp [countOcc]
  | cons x a' ih =>
    have hp : p.isPrefixOf (x :: a' ++ b) = p.isPrefixOf (x :: a') :=
      isPrefixOf_append_of_last p (x :: a') b (by simp) h
    have ih' : countOcc p (a' ++ b) = countOcc p a' + countOcc p b := by
      cases a' with
      | nil => simp [countOcc]
      | cons y a'' =>
        apply ih
        intro c hc
        exact h c (by simpa [List.getLast?_cons_cons] using hc)
    show (if p.isPrefixOf (x :: a' ++ b) then 1 else 0) + countOcc p (a' ++ b) =
      (if p.isPrefixOf (x :: a') then 1 else 0) + countOcc p a' + countOcc p b
    rw [hp, ih']
    omega

theorem countOcc_eq_zero_of_not_mem (p0 : Char) (p' s : Bytes) (h : p0 ∉ s) :
    countOcc (p0 :: p') s = 0 := by
  induction s with
  | nil => simp [countOcc]
  | cons x s' ih =>
    have hx : p0 ≠ x := fun e => h (by simp [e])
    simp only [countOcc, List.isPrefixOf]
    rw [ih (fun hm => h (List.mem_cons_of_mem _ hm))]
    simp [hx]

/-! ## The level loops -/

theorem copies_succ_right (k : Nat) (b : Bytes) : copies (k + 1) b = copies k b ++ b := by
  induction k with
  | zero => simp [copies]
  | succ k ih =>
    show b ++ copies (k + 1) b = b ++ copies k b ++ b
    rw [ih, List.append_assoc]

theorem copies_add (j k : Nat) (b : Bytes) : copies (j + k) b = copies j b ++ copies k b := by
  induction j with
  | zero => simp [copies]
  | succ j ih =>
    rw [Nat.succ_add]
    show b ++ copies (j + k) b = b ++ copies j b ++ copies k b
    rw [ih, List.append_assoc]

theorem length_copies (k : Nat) (b : Bytes) : (copies k b).length = k * b.length := by
  induction k with
  | zero => simp [copies]
  | succ k ih =>
    show (b ++ copies k b).length = _
    rw [List.length_append, ih, Nat.succ_mul, Nat.add_comm]

/-- The close loop runs until `tocLevel` has come down to `level`. -/
theorem closeLoop_eq (level : Int) (n : Nat) (tocLevel : Int) (buf : Bytes)
    (h : tocLevel = level + n) :
    closeLoop level n tocLevel buf = (level, buf ++ copies n ulClose) := by
  induction n generalizing tocLevel buf with
  | zero => simp [closeLoop, copies, h]
  | succ n ih =>
    have hlt : level < tocLevel := by rw [h]; push_cast; omega
    rw [closeLoop, if_pos hlt, ih (tocLevel - 1) _ (by rw [h]; push_cast; omega)]
    rw [List.append_assoc]
    rfl

/-- The open loop runs until `tocLevel` has come up to `level`. -/
theorem openLoop_eq (level : Int) (n : Nat) (tocLevel : Int) (buf : Bytes)
    (h : level = tocLevel + n) :
    openLoop level n tocLevel buf = (level, buf ++ copies n ulOpen) := by
  induction n generalizing tocLevel buf with
  | zero => simp [openLoop, copies, h]
  | succ n ih =>
    have hlt : level > tocLevel := by rw [h]; push_cast; omega
    rw [openLoop, if_pos hlt, ih (tocLevel + 1) _ (by rw [h]; push_cast; omega)]
    rw [List.append_assoc]
    rfl

/-- The final loop closes every level still open; a `tocLevel` that is not positive is left
as it is. -/
theorem finalClose_eq (tocLevel : Int) (buf : Bytes) :
    finalClose tocLevel.toNat tocLevel buf =
      (min tocLevel 0, buf ++ copies tocLevel.toNat ulClose) := by
  have key : ∀ (n : Nat) (t : Int) (b : Bytes), t = n →
      finalClose n t b = (0, b ++ copies n ulClose) := by
    intro n
    induction n with
    | zero => intro t b h; simp [finalClose, copies, h]
    | succ n ih =>
      intro t b h
      have hpos : t > 0 := by rw [h]; push_cast; omega
      rw [finalClose, if_pos hpos, ih (t - 1) _ (by rw [h]; push_cast; omega)]
      rw [List.append_assoc]
      rfl
  by_cases h : 0 ≤ tocLevel
  · rw [key tocLevel.toNat tocLevel buf (Int.toNat_of_nonneg h).symm]
    simp [h]
  · have h0 : tocLevel.toNat = 0 := by omega
    rw [h0]
    simp only [finalClose, copies, List.append_nil]
    congr 1
    omega

/-- On entering a heading the level comparison leaves `tocLevel` equal to the heading's
level and appends `levelMarkup`. -/
theorem adjustLevel_eq (level tocLevel : Int) (buf : Bytes) :
    adjustLevel level tocLevel buf = (level, buf ++ levelMarkup level tocLevel) := by
  unfold adjustLevel levelMarkup
  by_cases h1 : level = tocLevel
  · simp [h1]
  · rw [if_neg h1, if_neg h1]
    by_cases h2 : level < tocLevel
    · rw [if_pos h2, if_pos h2]
      rw [closeLoop_eq level _ tocLevel buf (by omega)]
      simp
    · rw [if_neg h2, if_neg h2]
      rw [openLoop_eq level _ tocLevel buf (by omega)]

/-- The visitor on entering a non-title heading. -/
theorem headingVisitor_enter {ρ : Type} (r : Renderer ρ) (st : TocState ρ) (level : Int)
    (id : String) (cs : List Node) :
    headingVisitor r st (.inner (.heading level false id) cs) true =
      { state :=
          { st with
            inHeading := true
            minHeading := if st.minHeading = -1 ∨ level ≤ st.minHeading then level
              else st.minHeading
            tocLevel := level
            buf := st.buf ++ levelMarkup level st.tocLevel ++ aOpen st.headingCount
            headingCount := st.headingCount + 1 },
        headingID := some (tocID st.headingCount), status := .GoToNext } := by
  simp [headingVisitor, adjustLevel_eq]

/-- The visitor on leaving a non-title heading. -/
theorem headingVisitor_exit {ρ : Type} (r : Renderer ρ) (st : TocState ρ) (level : Int)
    (id : String) (cs : List Node) :
    headingVisitor r st (.inner (.heading level false id) cs) false =
      { state := { st with inHeading := false, buf := st.buf ++ aClose },
        headingID := none, status := .GoToNext } := by
  simp [headingVisitor]

/-- The visitor on any node that is not a non-title heading. -/
theorem headingVisitor_other {ρ : Type} (r : Renderer ρ) (st : TocState ρ) (n : Node)
    (entering : Bool) (h : n.isTocHeading = false) :
    headingVisitor r st n entering =
      if st.inHeading then
        { state := { st with
            renderer := (r.RenderNode st.renderer n entering).1
            buf := st.buf ++ (r.RenderNode st.renderer n entering).2.1 },
          headingID := none, status := (r.RenderNode st.renderer n entering).2.2 }
      else { state := st, headingID := none, status := .GoToNext } := by
  unfold headingVisitor
  split
  · simp [Node.isTocHeading] at h
  · rfl

/-! ## List tags in the markup written by `HeadingRender` -/

theorem countOcc_tag_append_start (tag a b : Bytes) (ht : tag ∈ listTags) (hb : StartsClean b) :
    countOcc tag (a ++ b) = countOcc tag a + countOcc tag b := by
  apply countOcc_append_of_head
  intro c hc hm
  simp only [listTags, List.mem_cons, List.mem_singleton, List.not_mem_nil, or_false] at ht
  rcases hb c hc with rfl | rfl <;> rcases ht with rfl | rfl | rfl | rfl <;>
    exact absurd hm (by decide)

theorem countOcc_tag_append_end (tag a b : Bytes) (ht : tag ∈ listTags) (ha : EndsClean a) :
    countOcc tag (a ++ b) = countOcc tag a + countOcc tag b := by
  apply countOcc_append_of_last
  intro c hc hm
  simp only [listTags, List.mem_cons, List.mem_singleton, List.not_mem_nil, or_false] at ht
  have := ha c hc
  subst this
  rcases ht with rfl | rfl | rfl | rfl <;> exact absurd hm (by decide)

theorem StartsClean_append (a b : Bytes) (ha : StartsClean a) (hne : a ≠ []) :
    StartsClean (a ++ b) := by
  cases a with
  | nil => exact absurd rfl hne
  | cons x a' => exact ha

theorem EndsClean_append (a b : Bytes) (hb : EndsClean b) (hne : b ≠ []) :
    EndsClean (a ++ b) := by
  intro c hc
  rw [List.getLast?_append_of_ne_nil _ hne] at hc
  exact hb c hc

theorem StartsClean_copies (k : Nat) (b : Bytes) (hb : StartsClean b) (hne : b ≠ []) :
    StartsClean (copies k b) := by
  cases k with
  | zero => intro c hc; simp [copies] at hc
  | succ k => exact StartsClean_append b _ hb hne

theorem EndsClean_copies (k : Nat) (b : Bytes) (hb : EndsClean b) (hne : b ≠ []) :
    EndsClean (copies k b) := by
  cases k with
  | zero => intro c hc; simp [copies] at hc
  | succ k => rw [copies_succ_right]; exact EndsClean_append _ b hb hne

theorem countOcc_tag_copies (tag : Bytes) (ht : tag ∈ listTags) (k : Nat) (b : Bytes)
    (hb : StartsClean b) :
    countOcc tag (copies k b) = k * countOcc tag b := by
  induction k with
  | zero => simp [copies, countOcc]
  | succ k ih =>
    rw [copies_succ_right, countOcc_tag_append_start tag _ _ ht hb, ih, Nat.succ_mul]

theorem ulOpen_clean : ulOpen ≠ [] ∧ StartsClean ulOpen ∧ EndsClean ulOpen := by
  refine ⟨by decide, ?_, ?_⟩ <;> intro c hc <;> simp [ulOpen] at hc <;> simp [← hc]

theorem ulClose_clean : ulClose ≠ [] ∧ StartsClean ulClose ∧ EndsClean ulClose := by
  refine ⟨by decide, ?_, ?_⟩ <;> intro c hc <;> simp [ulClose] at hc <;> simp [← hc]

theorem liNext_clean : liNext ≠ [] ∧ StartsClean liNext ∧ EndsClean liNext := by
  refine ⟨by decide, ?_, ?_⟩ <;> intro c hc <;> simp [liNext] at hc <;> simp [← hc]

theorem aClose_clean : aClose ≠ [] ∧ StartsClean aClose ∧ EndsClean aClose := by
  refine ⟨by decide, ?_, ?_⟩ <;> intro c hc <;> simp [aClose] at hc <;> simp [← hc]

theorem aOpen_clean (k : Nat) : aOpen k ≠ [] ∧ StartsClean (aOpen k) ∧ EndsClean (aOpen k) := by
  refine ⟨by simp [aOpen], ?_, ?_⟩
  · intro c hc; simp [aOpen] at hc; simp [← hc]
  · intro c hc
    unfold aOpen at hc
    rw [List.getLast?_append_of_ne_nil _ (by decide)] at hc
    simp at hc; simp [← hc]

theorem digitChar_ne_lt (d : Nat) : Nat.digitChar d ≠ '<' := by
  by_cases h : d < 16
  · interval_cases d <;> decide
  · have hstar : Nat.digitChar d = '*' := by
      unfold Nat.digitChar
      repeat (rw [if_neg (by omega)])
    rw [hstar]
    decide

theorem toDigitsCore_no_lt (fuel n : Nat) (ds : List Char) (h : '<' ∉ ds) :
    '<' ∉ Nat.toDigitsCore 10 fuel n ds := by
  induction fuel generalizing n ds with
  | zero => simpa [Nat.toDigitsCore] using h
  | succ fuel ih =>
    have hd : '<' ∉ Nat.digitChar (n % 10) :: ds := by
      intro hm
      rcases List.mem_cons.mp hm with e | e
      · exact digitChar_ne_lt _ e.symm
      · exact h e
    unfold Nat.toDigitsCore
    simp only
    split
    · exact hd
    · exact ih _ _ hd

theorem aOpen_no_tag (tag : Bytes) (ht : tag ∈ listTags) (k : Nat) :
    countOcc tag (aOpen k) = 0 := by
  have hd : '<' ∉ (toString k).toList := by
    show '<' ∉ Nat.toDigits 10 k
    exact toDigitsCore_no_lt _ _ _ (by simp)
  have hrest : '<' ∉ "a href=\"#toc_".toList ++ (toString k).toList ++ "\">".toList := by
    simp only [List.mem_append, not_or]
    exact ⟨⟨by decide, hd⟩, by decide⟩
  have hsplit : aOpen k =
      '<' :: 'a' :: (" href=\"#toc_".toList ++ (toString k).toList ++ "\">".toList) := by
    simp [aOpen]
  have hrest' : '<' ∉ 'a' :: (" href=\"#toc_".toList ++ (toString k).toList ++ "\">".toList) := by
    simpa using hrest
  simp only [listTags, List.mem_cons, List.mem_singleton, List.not_mem_nil, or_false] at ht
  rw [hsplit]
  rcases ht with rfl | rfl | rfl | rfl
  all_goals
    rw [countOcc]
    first
      | rw [show tagUl = '<' :: "ul>".toList from rfl]
      | rw [show tagUlEnd = '<' :: "/ul>".toList from rfl]
      | rw [show tagLi = '<' :: "li>".toList from rfl]
      | rw [show tagLiEnd = '<' :: "/li>".toList from rfl]
    rw [countOcc_eq_zero_of_not_mem _ _ _ hrest']
    simp [List.isPrefixOf]

/-! ## The invariant of the table-of-contents walk -/

theorem runRenderer_snoc {ρ : Type} (r : Renderer ρ) (s0 : ρ) (calls : List (Node × Bool))
    (n : Node) (e : Bool) :
    runRenderer r s0 (calls ++ [(n, e)]) =
      ((r.RenderNode (runRenderer r s0 calls).1 n e).1,
        (runRenderer r s0 calls).2 ++ (r.RenderNode (runRenderer r s0 calls).1 n e).2.1) := by
  induction calls generalizing s0 with
  | nil => simp [runRenderer]
  | cons c calls ih =>
    obtain ⟨m, f⟩ := c
    rw [List.cons_append, runRenderer, runRenderer, ih]
    simp

theorem levelMarkup_clean (level tocLevel : Int) :
    levelMarkup level tocLevel ≠ [] ∧ StartsClean (levelMarkup level tocLevel) := by
  unfold levelMarkup
  split
  · exact ⟨liNext_clean.1, liNext_clean.2.1⟩
  · split
    · rename_i h1 h2
      obtain ⟨k, hk⟩ : ∃ k, (tocLevel - level).toNat = k + 1 := ⟨(tocLevel - level).toNat - 1, by omega⟩
      rw [hk]
      exact ⟨by simp [copies, ulClose], StartsClean_append _ _
        (StartsClean_copies _ _ ulClose_clean.2.1 ulClose_clean.1) (by simp [copies, ulClose])⟩
    · rename_i h1 h2
      obtain ⟨k, hk⟩ : ∃ k, (level - tocLevel).toNat = k + 1 := ⟨(level - tocLevel).toNat - 1, by omega⟩
      rw [hk]
      exact ⟨by simp [copies, ulOpen], StartsClean_copies _ _ ulOpen_clean.2.1 ulOpen_clean.1⟩

theorem countOcc_levelMarkup (level tocLevel : Int) :
    countOcc tagUl (levelMarkup level tocLevel) = (level - tocLevel).toNat ∧
    countOcc tagUlEnd (levelMarkup level tocLevel) = (tocLevel - level).toNat ∧
    countOcc tagLi (levelMarkup level tocLevel) =
      (if level ≤ tocLevel then 1 else (level - tocLevel).toNat) ∧
    countOcc tagLiEnd (levelMarkup level tocLevel) =
      (if level ≤ tocLevel then (tocLevel - level).toNat + 1 else 0) := by
  have hUl : tagUl ∈ listTags := by simp [listTags]
  have hUlEnd : tagUlEnd ∈ listTags := by simp [listTags]
  have hLi : tagLi ∈ listTags := by simp [listTags]
  have hLiEnd : tagLiEnd ∈ listTags := by simp [listTags]
  have o1 : countOcc tagUl ulOpen = 1 := by decide
  have o2 : countOcc tagUlEnd ulOpen = 0 := by decide
  have o3 : countOcc tagLi ulOpen = 1 := by decide
  have o4 : countOcc tagLiEnd ulOpen = 0 := by decide
  have c1 : countOcc tagUl ulClose = 0 := by decide
  have c2 : countOcc tagUlEnd ulClose = 1 := by decide
  have c3 : countOcc tagLi ulClose = 0 := by decide
  have c4 : countOcc tagLiEnd ulClose = 1 := by decide
  have n1 : countOcc tagUl liNext = 0 := by decide
  have n2 : countOcc tagUlEnd liNext = 0 := by decide
  have n3 : countOcc tagLi liNext = 1 := by decide
  have n4 : countOcc tagLiEnd liNext = 1 := by decide
  unfold levelMarkup
  by_cases h1 : level = tocLevel
  · rw [if_pos h1, n1, n2, n3, n4]
    subst h1
    simp
  · rw [if_neg h1]
    by_cases h2 : level < tocLevel
    · rw [if_pos h2]
      rw [countOcc_tag_append_start _ _ _ hUl liNext_clean.2.1,
        countOcc_tag_append_start _ _ _ hUlEnd liNext_clean.2.1,
        countOcc_tag_append_start _ _ _ hLi liNext_clean.2.1,
        countOcc_tag_append_start _ _ _ hLiEnd liNext_clean.2.1,
        countOcc_tag_copies _ hUl _ _ ulClose_clean.2.1,
        countOcc_tag_copies _ hUlEnd _ _ ulClose_clean.2.1,
        countOcc_tag_copies _ hLi _ _ ulClose_clean.2.1,
        countOcc_tag_copies _ hLiEnd _ _ ulClose_clean.2.1,
        c1, c2, c3, c4, n1, n2, n3, n4]
      have hle : level ≤ tocLevel := by omega
      simp only [if_pos hle]
      refine ⟨?_, ?_, ?_, ?_⟩ <;> omega
    · rw [if_neg h2]
      rw [countOcc_tag_copies _ hUl _ _ ulOpen_clean.2.1,
        countOcc_tag_copies _ hUlEnd _ _ ulOpen_clean.2.1,
        countOcc_tag_copies _ hLi _ _ ulOpen_clean.2.1,
        countOcc_tag_copies _ hLiEnd _ _ ulOpen_clean.2.1,
        o1, o2, o3, o4]
      have hle : ¬ level ≤ tocLevel := by omega
      simp only [if_neg hle]
      refine ⟨?_, ?_, ?_, ?_⟩ <;> omega

theorem levelMarkup_of_zero (level : Int) (h : 1 ≤ level) :
    levelMarkup level 0 = copies (level - 1).toNat ulOpen ++ ulOpen := by
  unfold levelMarkup
  rw [if_neg (by omega), if_neg (by omega), ← copies_succ_right]
  congr 1
  omega

theorem countOcc_tag_rebase (tag : Bytes) (ht : tag ∈ listTags) (d : Nat)
    (pre run mark anchor : Bytes) (hpre : EndsClean pre) (hmark : StartsClean mark)
    (hanchor : StartsClean anchor) :
    countOcc tag (copies d ulOpen ++ (((pre ++ run) ++ mark) ++ anchor)) =
      d * countOcc tag ulOpen +
        (countOcc tag pre + countOcc tag run + countOcc tag mark + countOcc tag anchor) := by
  rw [countOcc_tag_append_end _ _ _ ht (EndsClean_copies _ _ ulOpen_clean.2.2 ulOpen_clean.1),
    countOcc_tag_append_start _ _ _ ht hanchor, countOcc_tag_append_start _ _ _ ht hmark,
    countOcc_tag_append_end _ _ _ ht hpre, countOcc_tag_copies _ ht _ _ ulOpen_clean.2.1]

/-- Entering a non-title heading of level at least 1 keeps the invariant. -/
theorem TocInv_enter {ρ : Type} (r : Renderer ρ) (st : TocState ρ) (level : Int) (id : String)
    (cs : List Node) (hl : 1 ≤ level) (h : TocInv r st) :
    TocInv r (headingVisitor r st (.inner (.heading level false id) cs) true).state ∧
      (headingVisitor r st (.inner (.heading level false id) cs) true).state.minHeading ≠ -1
      := by
  have hUl : tagUl ∈ listTags := by simp [listTags]
  have hUlEnd : tagUlEnd ∈ listTags := by simp [listTags]
  have hLi : tagLi ∈ listTags := by simp [listTags]
  have hLiEnd : tagLiEnd ∈ listTags := by simp [listTags]
  rw [headingVisitor_enter]
  rcases h with ⟨hm, hb, ht, _, hc0⟩ |
    ⟨hm1, hmt, pre, run, s0, calls, hb, hpre, hend, hrun, hanch, hcnt⟩
  · refine ⟨Or.inr ⟨?_, ?_, ulOpen ++ aOpen st.headingCount, [], st.renderer, [], ?_, ?_, ?_,
      ?_, ?_, ?_⟩, ?_⟩
    · simp only [hm]; simpa using hl
    · simp only [hm]; simp
    · simp only [hm, hb, ht]
      rw [levelMarkup_of_zero level hl]
      simp
    · simp [ulOpen]
    · exact EndsClean_append _ _ (aOpen_clean _).2.2 (aOpen_clean _).1
    · rfl
    · intro k hk
      have hk' : k = st.headingCount := by
        have : k < st.headingCount + 1 := hk
        omega
      rw [hk']
      exact (List.suffix_append _ _).isInfix
    · intro _
      simp only [hm]
      rw [countOcc_tag_append_start _ _ _ hUl (aOpen_clean _).2.1,
        countOcc_tag_append_start _ _ _ hUlEnd (aOpen_clean _).2.1,
        countOcc_tag_append_start _ _ _ hLi (aOpen_clean _).2.1,
        countOcc_tag_append_start _ _ _ hLiEnd (aOpen_clean _).2.1,
        aOpen_no_tag _ hUl, aOpen_no_tag _ hUlEnd, aOpen_no_tag _ hLi, aOpen_no_tag _ hLiEnd,
        show countOcc tagUl ulOpen = 1 by decide, show countOcc tagUlEnd ulOpen = 0 by decide,
        show countOcc tagLi ulOpen = 1 by decide, show countOcc tagLiEnd ulOpen = 0 by decide]
      simp only [true_or, if_true]
      constructor <;> omega
    · simp only [hm]; simp; omega
  · have hmin : (if st.minHeading = -1 ∨ level ≤ st.minHeading then level else st.minHeading)
        = min level st.minHeading := by
      by_cases hlm : level ≤ st.minHeading
      · rw [if_pos (Or.inr hlm), min_eq_left hlm]
      · rw [if_neg (by omega), min_eq_right (by omega)]
    have hsplit : copies (st.minHeading - 1).toNat ulOpen =
        copies (min level st.minHeading - 1).toNat ulOpen ++
          copies (st.minHeading - min level st.minHeading).toNat ulOpen := by
      rw [← copies_add]
      congr 1
      omega
    refine ⟨Or.inr ⟨?_, ?_,
      copies (st.minHeading - min level st.minHeading).toNat ulOpen ++
        (((pre ++ run) ++ levelMarkup level st.tocLevel) ++ aOpen st.headingCount),
      [], st.renderer, [], ?_, ?_, ?_, ?_, ?_, ?_⟩, ?_⟩
    · simp only [hmin]; omega
    · simp only [hmin]; omega
    · simp only [hmin, hb]
      rw [hsplit]
      simp only [List.append_assoc, List.append_nil]
    · have := (aOpen_clean st.headingCount).1
      simp [this]
    · exact EndsClean_append _ _ (EndsClean_append _ _ (aOpen_clean _).2.2 (aOpen_clean _).1)
        (by simp [(aOpen_clean st.headingCount).1])
    · rfl
    · intro k hk
      have hk' : k < st.headingCount ∨ k = st.headingCount := by
        have : k < st.headingCount + 1 := hk
        omega
      rcases hk' with hk' | hk'
      · obtain ⟨u, w, huw⟩ := hanch k hk'
        refine ⟨copies (st.minHeading - min level st.minHeading).toNat ulOpen ++ u,
          w ++ run ++ levelMarkup level st.tocLevel ++ aOpen st.headingCount, ?_⟩
        rw [← huw]
        simp only [List.append_assoc]
      · rw [hk']
        refine ⟨copies (st.minHeading - min level st.minHeading).toNat ulOpen ++
          ((pre ++ run) ++ levelMarkup level st.tocLevel), [], ?_⟩
        simp only [List.append_assoc, List.append_nil]
    · intro hn
      obtain ⟨hc1, hc2⟩ := hcnt hn
      have hrun0 : ∀ tag, tag ∈ listTags → countOcc tag run = 0 := by
        intro tag ht
        have := hn s0 calls tag ht
        rw [hrun] at this
        exact this
      obtain ⟨m1, m2, m3, m4⟩ := countOcc_levelMarkup level st.tocLevel
      simp only [hmin]
      rw [countOcc_tag_rebase _ hUl _ _ _ _ _ hend (levelMarkup_clean _ _).2 (aOpen_clean _).2.1,
        countOcc_tag_rebase _ hUlEnd _ _ _ _ _ hend (levelMarkup_clean _ _).2
          (aOpen_clean _).2.1,
        countOcc_tag_rebase _ hLi _ _ _ _ _ hend (levelMarkup_clean _ _).2 (aOpen_clean _).2.1,
        countOcc_tag_rebase _ hLiEnd _ _ _ _ _ hend (levelMarkup_clean _ _).2
          (aOpen_clean _).2.1,
        aOpen_no_tag _ hUl, aOpen_no_tag _ hUlEnd, aOpen_no_tag _ hLi, aOpen_no_tag _ hLiEnd,
        hrun0 _ hUl, hrun0 _ hUlEnd, hrun0 _ hLi, hrun0 _ hLiEnd, m1, m2, m3, m4,
        show countOcc tagUl ulOpen = 1 by decide, show countOcc tagUlEnd ulOpen = 0 by decide,
        show countOcc tagLi ulOpen = 1 by decide, show countOcc tagLiEnd ulOpen = 0 by decide,
        hc1, hc2]
      constructor
      · omega
      · split_ifs <;> omega
    · simp only [hmin]; omega

/-- Leaving a non-title heading keeps the invariant, once a heading has been entered. -/
theorem TocInv_exit {ρ : Type} (r : Renderer ρ) (st : TocState ρ) (level : Int) (id : String)
    (cs : List Node) (h : TocInv r st) (hseen : st.minHeading ≠ -1) :
    TocInv r (headingVisitor r st (.inner (.heading level false id) cs) false).state := by
  rw [headingVisitor_exit]
  rcases h with ⟨hm, _⟩ | ⟨hm1, hmt, pre, run, s0, calls, hb, hpre, hend, hrun, hanch, hcnt⟩
  · exact absurd hm hseen
  · refine Or.inr ⟨hm1, hmt, (pre ++ run) ++ aClose, [], st.renderer, [], ?_, ?_, ?_, rfl,
      ?_, ?_⟩
    · simp only [hb]
      simp only [List.append_assoc, List.append_nil]
    · simp [aClose]
    · exact EndsClean_append _ _ aClose_clean.2.2 aClose_clean.1
    · intro k hk
      obtain ⟨u, w, huw⟩ := hanch k hk
      refine ⟨u, w ++ run ++ aClose, ?_⟩
      rw [← huw]
      simp only [List.append_assoc]
    · intro hn
      obtain ⟨hc1, hc2⟩ := hcnt hn
      have hrun0 : ∀ tag, tag ∈ listTags → countOcc tag run = 0 := by
        intro tag ht
        have := hn s0 calls tag ht
        rw [hrun] at this
        exact this
      have hUl : tagUl ∈ listTags := by simp [listTags]
      have hUlEnd : tagUlEnd ∈ listTags := by simp [listTags]
      have hLi : tagLi ∈ listTags := by simp [listTags]
      have hLiEnd : tagLiEnd ∈ listTags := by simp [listTags]
      rw [countOcc_tag_append_start _ _ _ hUl aClose_clean.2.1,
        countOcc_tag_append_start _ _ _ hUlEnd aClose_clean.2.1,
        countOcc_tag_append_start _ _ _ hLi aClose_clean.2.1,
        countOcc_tag_append_start _ _ _ hLiEnd aClose_clean.2.1,
        countOcc_tag_append_end _ _ _ hUl hend, countOcc_tag_append_end _ _ _ hUlEnd hend,
        countOcc_tag_append_end _ _ _ hLi hend, countOcc_tag_append_end _ _ _ hLiEnd hend,
        hrun0 _ hUl, hrun0 _ hUlEnd, hrun0 _ hLi, hrun0 _ hLiEnd,
        show countOcc tagUl aClose = 0 by decide, show countOcc tagUlEnd aClose = 0 by decide,
        show countOcc tagLi aClose = 0 by decide, show countOcc tagLiEnd aClose = 0 by decide,
        hc1, hc2]
      dsimp only
      constructor <;> omega

/-- A call on a node that is not a non-title heading keeps the invariant. -/
theorem TocInv_other {ρ : Type} (r : Renderer ρ) (st : TocState ρ) (n : Node) (e : Bool)
    (hn : n.isTocHeading = false) (h : TocInv r st) :
    TocInv r (headingVisitor r st n e).state ∧
      (headingVisitor r st n e).state.minHeading = st.minHeading := by
  rw [headingVisitor_other r st n e hn]
  by_cases hin : st.inHeading = true
  · rw [if_pos hin]
    refine ⟨?_, rfl⟩
    rcases h with ⟨_, _, _, hf, _⟩ |
      ⟨hm1, hmt, pre, run, s0, calls, hb, hpre, hend, hrun, hanch, hcnt⟩
    · rw [hf] at hin; exact absurd hin (by decide)
    · refine Or.inr ⟨hm1, hmt, pre, run ++ (r.RenderNode st.renderer n e).2.1, s0,
        calls ++ [(n, e)], ?_, hpre, hend, ?_, hanch, hcnt⟩
      · simp only [hb]
        simp only [List.append_assoc]
      · rw [runRenderer_snoc, hrun]
  · rw [if_neg hin]
    exact ⟨h, rfl⟩

/-- Every entering call on a node whose level, if it is a non-title heading, is at least 1
keeps the invariant, and records that a heading was entered. -/
theorem TocInv_henter {ρ : Type} (r : Renderer ρ) (s : TocState ρ) (n : Node)
    (hq : levelAtLeast 1 n = true) (hp : TocInv r s) :
    TocInv r (headingVisitor r s n true).state ∧
      (n.isTocHeading = true → (headingVisitor r s n true).state.minHeading ≠ -1) ∧
      (s.minHeading ≠ -1 → (headingVisitor r s n true).state.minHeading ≠ -1) := by
  by_cases hn : n.isTocHeading = true
  · match n, hn, hq with
    | .inner (.heading level false id) cs, _, hq =>
      have hl : 1 ≤ level := by simpa [levelAtLeast] using hq
      have := TocInv_enter r s level id cs hl hp
      exact ⟨this.1, fun _ => this.2, fun _ => this.2⟩
  · have hn' : n.isTocHeading = false := by simpa using hn
    have := TocInv_other r s n true hn' hp
    exact ⟨this.1, fun h => absurd h hn, fun hs => by rw [this.2]; exact hs⟩

/-- Every exit call keeps the invariant, given that a non-title heading is only left after
it was entered. -/
theorem TocInv_hexit {ρ : Type} (r : Renderer ρ) (s : TocState ρ) (n : Node)
    (hp : TocInv r s) (hs : n.isTocHeading = true → s.minHeading ≠ -1) :
    TocInv r (headingVisitor r s n false).state ∧
      (s.minHeading ≠ -1 → (headingVisitor r s n false).state.minHeading ≠ -1) := by
  by_cases hn : n.isTocHeading = true
  · match n, hn, hs with
    | .inner (.heading level false id) cs, hn, hs =>
      refine ⟨TocInv_exit r s level id cs hp (hs hn), ?_⟩
      intro h
      rw [headingVisitor_exit]
      exact h
  · have hn' : n.isTocHeading = false := by simpa using hn
    have := TocInv_other r s n false hn' hp
    exact ⟨this.1, fun hs => by rw [this.2]; exact hs⟩

/-- The invariant holds after the walk of any tree whose non-title headings have level at
least 1, whatever the renderer returns. -/
theorem TocInv_tocWalk {ρ : Type} (r : Renderer ρ) (rs : ρ) (doc : Node)
    (hlev : levelsAtLeast 1 doc = true) : TocInv r (tocWalk r rs doc).state :=
  (WalkFunc_inv (headingVisitor r) (TocInv r) (fun st => st.minHeading ≠ -1)
    (levelAtLeast 1) (TocInv_henter r) (TocInv_hexit r) doc (tocInit rs) hlev
    (Or.inl ⟨rfl, rfl, rfl, rfl, rfl⟩)).1

/-! ## The final close and the boundary trim -/

/-- The bytes returned by `HeadingRender`, in terms of the state the walk ends in. -/
theorem HeadingRender_toc {ρ : Type} (r : Renderer ρ) (rs : ρ) (doc : Node) :
    (HeadingRender r rs doc).toc =
      if (tocWalk r rs doc).state.minHeading > 1 then
        slice ((tocWalk r rs doc).state.buf ++
            copies (tocWalk r rs doc).state.tocLevel.toNat ulClose)
          (((tocWalk r rs doc).state.minHeading - 1) * 10)
          ((((tocWalk r rs doc).state.buf ++
            copies (tocWalk r rs doc).state.tocLevel.toNat ulClose).length : Int) -
            ((tocWalk r rs doc).state.minHeading - 1) * 11)
      else some ((tocWalk r rs doc).state.buf ++
        copies (tocWalk r rs doc).state.tocLevel.toNat ulClose) := by
  unfold HeadingRender
  simp only [finalClose_eq]
  split <;> rfl

theorem HeadingRender_doc {ρ : Type} (r : Renderer ρ) (rs : ρ) (doc : Node) :
    (HeadingRender r rs doc).doc = (tocWalk r rs doc).tree := by
  unfold HeadingRender
  simp only
  split <;> rfl

theorem HeadingRender_renderer {ρ : Type} (r : Renderer ρ) (rs : ρ) (doc : Node) :
    (HeadingRender r rs doc).renderer = (tocWalk r rs doc).state.renderer := by
  unfold HeadingRender
  simp only
  split <;> rfl

/-- Slicing `k` list opens off the front and `k` list closes off the back. -/
theorem slice_wrapped (k : Nat) (mid : Bytes) (m : Int) (hm : m - 1 = k) :
    slice (copies k ulOpen ++ mid ++ copies k ulClose) ((m - 1) * 10)
      (((copies k ulOpen ++ mid ++ copies k ulClose).length : Int) - (m - 1) * 11) = some mid
    := by
  have ho : (copies k ulOpen).length = k * 10 := by rw [length_copies]; rfl
  have hc : (copies k ulClose).length = k * 11 := by rw [length_copies]; rfl
  have hlen : (copies k ulOpen ++ mid ++ copies k ulClose).length
      = k * 10 + mid.length + k * 11 := by
    rw [List.length_append, List.length_append, ho, hc]
  unfold slice
  rw [hlen, hm]
  rw [if_pos (by push_cast; omega)]
  have h1 : (((k * 10 + mid.length + k * 11 : Nat) : Int) - (k : Int) * 11).toNat
      = (copies k ulOpen ++ mid).length := by
    rw [List.length_append, ho]; push_cast; omega
  have h2 : ((k : Int) * 10).toNat = (copies k ulOpen).length := by
    rw [ho]; omega
  rw [h1, h2, List.take_left, List.drop_left]

/-- What the invariant says about the bytes returned: nothing before the first heading;
otherwise the buffer after the final close is `minHeading - 1` list opens, the returned
bytes, and `minHeading - 1` list closes. -/
theorem HeadingRender_of_TocInv {ρ : Type} (r : Renderer ρ) (rs : ρ) (doc : Node)
    (h : TocInv r (tocWalk r rs doc).state) :
    ((tocWalk r rs doc).state.minHeading = -1 ∧ (tocWalk r rs doc).state.tocLevel = 0 ∧
        (tocWalk r rs doc).state.buf = [] ∧ (tocWalk r rs doc).state.headingCount = 0 ∧
        (HeadingRender r rs doc).toc = some []) ∨
      (1 ≤ (tocWalk r rs doc).state.minHeading ∧
        ∃ (pre run : Bytes) (j : Nat),
          pre ≠ [] ∧ EndsClean pre ∧
          (∀ k, k < (tocWalk r rs doc).state.headingCount → aOpen k <:+: pre) ∧
          (∀ tag, tag ∈ listTags → NoListTags r → countOcc tag run = 0) ∧
          (NoListTags r → countOcc tagUl pre = countOcc tagUlEnd pre + j ∧
            countOcc tagLi pre = countOcc tagLiEnd pre + j) ∧
          (tocWalk r rs doc).state.buf ++
              copies (tocWalk r rs doc).state.tocLevel.toNat ulClose =
            copies ((tocWalk r rs doc).state.minHeading - 1).toNat ulOpen ++
              ((pre ++ run) ++ copies j ulClose) ++
              copies ((tocWalk r rs doc).state.minHeading - 1).toNat ulClose ∧
          (HeadingRender r rs doc).toc = some ((pre ++ run) ++ copies j ulClose)) := by
  rw [HeadingRender_toc]
  rcases h with ⟨hm, hb, ht, _, hc0⟩ |
    ⟨hm1, hmt, pre, run, s0, calls, hb, hpre, hend, hrun, hanch, hcnt⟩
  · left
    refine ⟨hm, ht, hb, hc0, ?_⟩
    rw [hm, hb, ht, if_neg (by decide)]
    rfl
  · right
    refine ⟨hm1, pre, run,
      ((tocWalk r rs doc).state.tocLevel - ((tocWalk r rs doc).state.minHeading - 1)).toNat,
      hpre, hend, hanch, ?_, hcnt, ?_, ?_⟩
    · intro tag ht hn
      have := hn s0 calls tag ht
      rw [hrun] at this
      exact this
    · rw [hb]
      have : (tocWalk r rs doc).state.tocLevel.toNat =
          ((tocWalk r rs doc).state.tocLevel - ((tocWalk r rs doc).state.minHeading - 1)).toNat
            + ((tocWalk r rs doc).state.minHeading - 1).toNat := by omega
      rw [this, copies_add]
      simp only [List.append_assoc]
    · have hsplit : (tocWalk r rs doc).state.buf ++
          copies (tocWalk r rs doc).state.tocLevel.toNat ulClose =
          copies ((tocWalk r rs doc).state.minHeading - 1).toNat ulOpen ++
            ((pre ++ run) ++ copies ((tocWalk r rs doc).state.tocLevel -
              ((tocWalk r rs doc).state.minHeading - 1)).toNat ulClose) ++
            copies ((tocWalk r rs doc).state.minHeading - 1).toNat ulClose := by
        rw [hb]
        have : (tocWalk r rs doc).state.tocLevel.toNat =
            ((tocWalk r rs doc).state.tocLevel -
              ((tocWalk r rs doc).state.minHeading - 1)).toNat
              + ((tocWalk r rs doc).state.minHeading - 1).toNat := by omega
        rw [this, copies_add]
        simp only [List.append_assoc]
      by_cases hgt : (tocWalk r rs doc).state.minHeading > 1
      · rw [if_pos hgt, hsplit]
        exact slice_wrapped _ _ _ (by omega)
      · rw [if_neg hgt, hsplit]
        have h0 : ((tocWalk r rs doc).state.minHeading - 1).toNat = 0 := by omega
        rw [h0]
        simp [copies]

theorem tocBuffer_eq {ρ : Type} (r : Renderer ρ) (rs : ρ) (doc : Node) :
    tocBuffer r rs doc = (tocWalk r rs doc).state.buf ++
      copies (tocWalk r rs doc).state.tocLevel.toNat ulClose := by
  unfold tocBuffer
  rw [finalClose_eq]

theorem findIndex_isSome (markdown : Bytes) :
    (findIndex markdown).isSome = true ↔ tocMarker <:+: markdown := by
  unfold findIndex
  cases h : findIndexAux 0 markdown with
  | none =>
    have := (findIndexAux_eq_none 0 markdown).mp h
    simp [this]
  | some ix =>
    have : ¬ findIndexAux 0 markdown = none := by rw [h]; simp
    have := (not_congr (findIndexAux_eq_none 0 markdown)).mp this
    simp only [Option.isSome_some, true_iff]
    exact not_not.mp this

/-! ## The sample renderers -/

theorem sampleRenderer_output (rs : Unit) (calls : List (Node × Bool)) :
    '<' ∉ (runRenderer sampleRenderer rs calls).2 := by
  induction calls generalizing rs with
  | nil => simp [runRenderer]
  | cons c calls ih =>
    obtain ⟨n, e⟩ := c
    rw [runRenderer]
    simp only [List.mem_append, not_or]
    refine ⟨?_, ih _⟩
    cases n with
    | leaf literal => simp [sampleRenderer]
    | inner kind cs => cases kind <;> simp [sampleRenderer]

theorem sampleRenderer_noListTags : NoListTags sampleRenderer := by
  intro rs calls tag ht
  simp only [listTags, List.mem_cons, List.mem_singleton, List.not_mem_nil, or_false] at ht
  rcases ht with rfl | rfl | rfl | rfl <;>
    exact countOcc_eq_zero_of_not_mem _ _ _ (sampleRenderer_output rs calls)

theorem textRenderer_neverTerminates : NeverTerminates textRenderer := by
  intro rs n e
  cases n <;> simp [textRenderer]

theorem textRenderer_skips : SkipsOnlyHeadingFree textRenderer := by
  intro rs n h
  cases n <;> simp [textRenderer] at h

theorem skippingRenderer_neverTerminates : NeverTerminates skippingRenderer := by
  intro rs n e
  cases n with
  | leaf literal => simp [skippingRenderer]
  | inner kind cs =>
    cases kind with
    | other name => simp only [skippingRenderer]; split <;> simp
    | heading l t i => simp [skippingRenderer]

/-! ## Frame: what a walk leaves untouched -/

theorem Kind.eraseTocID_assign (kind : Kind) (id : Option String) (cs : List Node)
    (h : (Node.inner kind cs).isTocHeading = false → id = none) :
    (kind.assign id).eraseTocID = kind.eraseTocID := by
  cases kind with
  | other name => cases id <;> rfl
  | heading level t hid =>
    cases t with
    | false => cases id <;> rfl
    | true =>
      have := h rfl
      subst this
      rfl

mutual
/-- A walk whose visitor writes heading ids on non-title headings only changes nothing else
in the tree. -/
theorem WalkFunc_erase {σ : Type} (v : σ → Node → Bool → Visit σ)
    (hv : ∀ s n e, n.isTocHeading = false → (v s n e).headingID = none) :
    ∀ (n : Node) (s : σ), eraseTocIDs (WalkFunc v s n).tree = eraseTocIDs n
  | .leaf literal, s => by rw [WalkFunc_leaf]
  | .inner kind children, s => by
    have hc := walkChildren_erase v hv children (v s (.inner kind children) true).state
    have h1 : (kind.assign (v s (.inner kind children) true).headingID).eraseTocID
        = kind.eraseTocID :=
      Kind.eraseTocID_assign kind _ children (hv s _ true)
    rw [WalkFunc_inner]
    split
    · simp only [eraseTocIDs, h1]
    · split
      · simp only [eraseTocIDs, h1]
      · split
        · simp only [eraseTocIDs, h1, hc]
        · simp only [eraseTocIDs, hc]
          rw [Kind.eraseTocID_assign _ _
            (walkChildren v (v s (.inner kind children) true).state children).tree
            (hv _ _ false), h1]
theorem walkChildren_erase {σ : Type} (v : σ → Node → Bool → Visit σ)
    (hv : ∀ s n e, n.isTocHeading = false → (v s n e).headingID = none) :
    ∀ (ns : List Node) (s : σ), eraseTocIDsList (walkChildren v s ns).tree = eraseTocIDsList ns
  | [], s => by rw [walkChildren_nil]
  | n :: rest, s => by
    have h1 := WalkFunc_erase v hv n s
    have h2 := walkChildren_erase v hv rest (WalkFunc v s n).state
    rw [walkChildren_cons]
    split
    · simp only [eraseTocIDsList, h1]
    · simp only [eraseTocIDsList, h1, h2]
end

theorem headingVisitor_headingID_none {ρ : Type} (r : Renderer ρ) (st : TocState ρ) (n : Node)
    (e : Bool) (h : n.isTocHeading = false) : (headingVisitor r st n e).headingID = none := by
  rw [headingVisitor_other r st n e h]
  split <;> rfl

/-- The walk of `HeadingRender` changes nothing in the tree but heading ids of non-title
headings. -/
theorem tocWalk_erase {ρ : Type} (r : Renderer ρ) (rs : ρ) (doc : Node) :
    eraseTocIDs (tocWalk r rs doc).tree = eraseTocIDs doc :=
  WalkFunc_erase _ (headingVisitor_headingID_none r) doc _

mutual
theorem collect_tocEntry_erase :
    ∀ (n : Node), collect tocEntry (eraseTocIDs n) = (collect tocEntry n).map (fun p => (p.1, ""))
  | .leaf literal => by simp [eraseTocIDs, collect, tocEntry]
  | .inner kind children => by
    have hc := collectList_tocEntry_erase children
    simp only [eraseTocIDs, collect, hc, List.map_append]
    congr 1
    cases kind with
    | other name => rfl
    | heading level t hid => cases t <;> rfl
theorem collectList_tocEntry_erase :
    ∀ (ns : List Node),
      collectList tocEntry (eraseTocIDsList ns) =
        (collectList tocEntry ns).map (fun p => (p.1, ""))
  | [] => by simp [eraseTocIDsList, collectList]
  | n :: rest => by
    simp only [eraseTocIDsList, collectList, List.map_append, collect_tocEntry_erase n,
      collectList_tocEntry_erase rest]
end

mutual
theorem collect_titleEntry_erase :
    ∀ (n : Node), collect titleEntry (eraseTocIDs n) = collect titleEntry n
  | .leaf literal => by simp [eraseTocIDs, collect, titleEntry]
  | .inner kind children => by
    have hc := collectList_titleEntry_erase children
    simp only [eraseTocIDs, collect, hc]
    congr 1
    cases kind with
    | other name => rfl
    | heading level t hid => cases t <;> rfl
theorem collectList_titleEntry_erase :
    ∀ (ns : List Node),
      collectList titleEntry (eraseTocIDsList ns) = collectList titleEntry ns
  | [] => by simp [eraseTocIDsList, collectList]
  | n :: rest => by
    simp only [eraseTocIDsList, collectList, collect_titleEntry_erase n,
      collectList_titleEntry_erase rest]
end

theorem tocLevels_of_erase_eq (a b : Node) (h : eraseTocIDs a = eraseTocIDs b) :
    tocLevels a = tocLevels b := by
  have ha := collect_tocEntry_erase a
  have hb := collect_tocEntry_erase b
  rw [h, hb] at ha
  have := congrArg (List.map Prod.fst) ha
  simpa [tocLevels, List.map_map, Function.comp_def] using this.symm

theorem titleIDs_of_erase_eq (a b : Node) (h : eraseTocIDs a = eraseTocIDs b) :
    titleIDs a = titleIDs b := by
  unfold titleIDs
  rw [← collect_titleEntry_erase a, ← collect_titleEntry_erase b, h]

/-! ## Counters and heading ids after a walk that reaches every heading -/

theorem Kind.assign_none (kind : Kind) : kind.assign none = kind := by
  cases kind <;> rfl

theorem tocEntry_of_not_tocHeading (n : Node) (h : n.isTocHeading = false) : tocEntry n = [] := by
  match n, h with
  | .leaf _, _ => rfl
  | .inner (.other _) _, _ => rfl
  | .inner (.heading _ true _) _, _ => rfl

mutual
theorem collect_tocEntry_of_headingFree :
    ∀ (n : Node), headingFree n = true → collect tocEntry n = []
  | .leaf literal, _ => rfl
  | .inner kind children, h => by
    simp only [headingFree, allNodes, Bool.and_eq_true, Bool.not_eq_true'] at h
    have hc := collectList_tocEntry_of_headingFree children h.2
    simp only [collect, hc, List.append_nil]
    exact tocEntry_of_not_tocHeading _ h.1
theorem collectList_tocEntry_of_headingFree :
    ∀ (ns : List Node), allNodesList (fun x => !x.isTocHeading) ns = true →
      collectList tocEntry ns = []
  | [], _ => rfl
  | n :: rest, h => by
    simp only [allNodesList, Bool.and_eq_true] at h
    simp only [collectList, collect_tocEntry_of_headingFree n h.1,
      collectList_tocEntry_of_headingFree rest h.2, List.append_nil]
end

theorem headingVisitor_other_counters {ρ : Type} (r : Renderer ρ) (st : TocState ρ) (n : Node)
    (e : Bool) (h : n.isTocHeading = false) :
    (headingVisitor r st n e).state.counters = st.counters := by
  rw [headingVisitor_other r st n e h]
  split <;> rfl

theorem headingVisitor_status_ne_terminate {ρ : Type} (r : Renderer ρ)
    (hterm : NeverTerminates r) (st : TocState ρ) (n : Node) (e : Bool) :
    (headingVisitor r st n e).status ≠ .Terminate := by
  by_cases h : n.isTocHeading = true
  · match n, h with
    | .inner (.heading level false id) cs, _ =>
      cases e
      · rw [headingVisitor_exit]; simp
      · rw [headingVisitor_enter]; simp
  · rw [headingVisitor_other r st n e (by simpa using h)]
    split
    · exact hterm _ _ _
    · simp

theorem headingVisitor_other_skip {ρ : Type} (r : Renderer ρ) (hskip : SkipsOnlyHeadingFree r)
    (st : TocState ρ) (n : Node) (h : n.isTocHeading = false)
    (hs : (headingVisitor r st n true).status = .SkipChildren) : headingFree n = true := by
  rw [headingVisitor_other r st n true h] at hs
  split at hs
  · exact hskip _ _ hs
  · simp at hs

theorem foldl_enterCounters_fst (l : List (Int × String)) (c : Nat × Int × Int) :
    (l.foldl (fun c p => enterCounters c p.1) c).1 = c.1 + l.length := by
  induction l generalizing c with
  | nil => simp
  | cons p l ih =>
    rw [List.foldl_cons, ih]
    simp only [enterCounters, List.length_cons]
    omega

mutual
/-- With a renderer that never terminates the walk and skips only subtrees without
non-title headings, the walk of `HeadingRender` is never aborted, its counters are those of
entering every non-title heading of the tree in document order, and those headings get the
ids `toc_c, toc_(c+1), ...` from the count `c` the walk started with. -/
theorem WalkFunc_counters {ρ : Type} (r : Renderer ρ) (hterm : NeverTerminates r)
    (hskip : SkipsOnlyHeadingFree r) :
    ∀ (n : Node) (st : TocState ρ),
      (WalkFunc (headingVisitor r) st n).status = .GoToNext ∧
      (WalkFunc (headingVisitor r) st n).state.counters =
        (collect tocEntry n).foldl (fun c p => enterCounters c p.1) st.counters ∧
      (collect tocEntry (WalkFunc (headingVisitor r) st n).tree).map Prod.snd =
        (List.range' st.headingCount (collect tocEntry n).length).map tocID
  | .leaf literal, st => by
    rw [WalkFunc_leaf]
    refine ⟨?_, ?_, ?_⟩
    · simp only [if_neg (headingVisitor_status_ne_terminate r hterm st _ true)]
    · simp only [collect, tocEntry, List.foldl_nil]
      exact headingVisitor_other_counters r st _ true rfl
    · simp [collect, tocEntry]
  | .inner kind children, st => by
    by_cases hk : (Node.inner kind children).isTocHeading = true
    · match kind, hk with
      | .heading level false id, _ =>
        have hc := walkChildren_counters r hterm hskip children
          (headingVisitor r st (.inner (.heading level false id) children) true).state
        rw [WalkFunc_inner]
        rw [if_neg (headingVisitor_status_ne_terminate r hterm _ _ _),
          if_neg (by rw [headingVisitor_enter]; simp),
          if_neg (by rw [hc.1]; simp)]
        refine ⟨?_, ?_, ?_⟩
        · simp only [if_neg (headingVisitor_status_ne_terminate r hterm _ _ _)]
        · simp only [headingVisitor_enter, Kind.assign, headingVisitor_exit] at hc ⊢
          simp only [collect, tocEntry, List.singleton_append, List.foldl_cons]
          exact hc.2.1
        · simp only [headingVisitor_enter, Kind.assign, headingVisitor_exit] at hc ⊢
          simp only [collect, tocEntry, List.singleton_append, List.map_cons,
            List.length_cons, List.range'_succ]
          rw [hc.2.2]
    · have hk' : (Node.inner kind children).isTocHeading = false := by simpa using hk
      have hid := headingVisitor_headingID_none r st _ true hk'
      have hcnt := headingVisitor_other_counters r st _ true hk'
      have he : tocEntry (.inner kind children) = [] := tocEntry_of_not_tocHeading _ hk'
      rw [WalkFunc_inner]
      rw [if_neg (headingVisitor_status_ne_terminate r hterm _ _ _), hid, Kind.assign_none]
      by_cases hs : (headingVisitor r st (.inner kind children) true).status = .SkipChildren
      · rw [if_pos hs]
        have hf := collect_tocEntry_of_headingFree _
          (headingVisitor_other_skip r hskip st _ hk' hs)
        refine ⟨rfl, ?_, ?_⟩
        · rw [hf]; exact hcnt
        · rw [hf]; simp
      · have hc := walkChildren_counters r hterm hskip children
          (headingVisitor r st (.inner kind children) true).state
        have hk2 : (Node.inner kind (walkChildren (headingVisitor r)
            (headingVisitor r st (.inner kind children) true).state children).tree).isTocHeading
            = false := by
          rw [← hk']
          cases kind with
          | other name => rfl
          | heading level t hid' => cases t <;> rfl
        rw [if_neg hs, if_neg (by rw [hc.1]; simp)]
        refine ⟨?_, ?_, ?_⟩
        · simp only [if_neg (headingVisitor_status_ne_terminate r hterm _ _ _)]
        · simp only [collect, he, List.nil_append]
          rw [headingVisitor_other_counters r _ _ false hk2, hc.2.1, hcnt]
        · simp only [headingVisitor_headingID_none r _ _ false hk2, Kind.assign_none]
          simp only [collect, he, List.nil_append,
            tocEntry_of_not_tocHeading _ hk2]
          rw [hc.2.2]
          have : (headingVisitor r st (.inner kind children) true).state.headingCount
              = st.headingCount := congrArg Prod.fst hcnt
          rw [this]
theorem walkChildren_counters {ρ : Type} (r : Renderer ρ) (hterm : NeverTerminates r)
    (hskip : SkipsOnlyHeadingFree r) :
    ∀ (ns : List Node) (st : TocState ρ),
      (walkChildren (headingVisitor r) st ns).status = .GoToNext ∧
      (walkChildren (headingVisitor r) st ns).state.counters =
        (collectList tocEntry ns).foldl (fun c p => enterCounters c p.1) st.counters ∧
      (collectList tocEntry (walkChildren (headingVisitor r) st ns).tree).map Prod.snd =
        (List.range' st.headingCount (collectList tocEntry ns).length).map tocID
  | [], st => by
    rw [walkChildren_nil]
    simp [collectList]
  | n :: rest, st => by
    have h1 := WalkFunc_counters r hterm hskip n st
    have h2 := walkChildren_counters r hterm hskip rest (WalkFunc (headingVisitor r) st n).state
    rw [walkChildren_cons, if_neg (by rw [h1.1]; simp)]
    refine ⟨h2.1, ?_, ?_⟩
    · simp only [collectList, List.foldl_append]
      rw [h2.2.1, h1.2.1]
    · simp only [collectList, List.map_append, List.length_append]
      rw [h1.2.2, h2.2.2]
      have hcount : (WalkFunc (headingVisitor r) st n).state.headingCount
          = st.headingCount + (collect tocEntry n).length := by
        have := congrArg Prod.fst h1.2.1
        rw [foldl_enterCounters_fst] at this
        exact this
      rw [hcount, ← List.map_append, List.range'_append_1, Nat.add_comm]
end

/-! ## Anchors, smallest level -/

/-- Every anchor numbered below `headingCount` is in the buffer, at every point of the walk,
for every tree and renderer. -/
theorem tocWalk_anchors {ρ : Type} (r : Renderer ρ) (rs : ρ) (doc : Node) :
    ∀ k, k < (tocWalk r rs doc).state.headingCount → aOpen k <:+: (tocWalk r rs doc).state.buf
    := by
  have hall : ∀ n : Node, allNodes (fun _ => true) n = true := by
    intro n
    exact (Node.rec (motive_1 := fun n => allNodes (fun _ => true) n = true)
      (motive_2 := fun ns => allNodesList (fun _ => true) ns = true)
      (fun _ => rfl) (fun _ _ ih => by simp [allNodes, ih]) rfl
      (fun _ _ h1 h2 => by simp [allNodesList, h1, h2]) n)
  refine (WalkFunc_inv (headingVisitor r)
    (fun st => ∀ k, k < st.headingCount → aOpen k <:+: st.buf) (fun _ => True)
    (fun _ => true) ?_ ?_ doc (tocInit rs) (hall doc) ?_).1
  · intro s n _ hp
    refine ⟨?_, fun _ => trivial, fun _ => trivial⟩
    by_cases hn : n.isTocHeading = true
    · match n, hn with
      | .inner (.heading level false id) cs, _ =>
        rw [headingVisitor_enter]
        intro k hk
        have hk' : k < s.headingCount ∨ k = s.headingCount := by
          have : k < s.headingCount + 1 := hk
          omega
        rcases hk' with hk' | hk'
        · obtain ⟨u, w, huw⟩ := hp k hk'
          exact ⟨u, w ++ levelMarkup level s.tocLevel ++ aOpen s.headingCount, by
            show u ++ aOpen k ++ (w ++ levelMarkup level s.tocLevel ++ aOpen s.headingCount)
              = s.buf ++ levelMarkup level s.tocLevel ++ aOpen s.headingCount
            rw [← huw]; simp only [List.append_assoc]⟩
        · rw [hk']
          exact (List.suffix_append _ _).isInfix
    · rw [headingVisitor_other r s n true (by simpa using hn)]
      split
      · intro k hk
        obtain ⟨u, w, huw⟩ := hp k hk
        exact ⟨u, w ++ (r.RenderNode s.renderer n true).2.1, by
          show u ++ aOpen k ++ (w ++ (r.RenderNode s.renderer n true).2.1)
            = s.buf ++ (r.RenderNode s.renderer n true).2.1
          rw [← huw]; simp only [List.append_assoc]⟩
      · exact hp
  · intro s n hp _
    refine ⟨?_, fun _ => trivial⟩
    by_cases hn : n.isTocHeading = true
    · match n, hn with
      | .inner (.heading level false id) cs, _ =>
        rw [headingVisitor_exit]
        intro k hk
        obtain ⟨u, w, huw⟩ := hp k hk
        exact ⟨u, w ++ aClose, by
          show u ++ aOpen k ++ (w ++ aClose) = s.buf ++ aClose
          rw [← huw]; simp only [List.append_assoc]⟩
    · rw [headingVisitor_other r s n false (by simpa using hn)]
      split
      · intro k hk
        obtain ⟨u, w, huw⟩ := hp k hk
        exact ⟨u, w ++ (r.RenderNode s.renderer n false).2.1, by
          show u ++ aOpen k ++ (w ++ (r.RenderNode s.renderer n false).2.1)
            = s.buf ++ (r.RenderNode s.renderer n false).2.1
          rw [← huw]; simp only [List.append_assoc]⟩
      · exact hp
  · intro k hk
    exact absurd hk (Nat.not_lt_zero k)

mutual
theorem collect_levels_ge (m : Int) :
    ∀ (n : Node), allNodes (levelAtLeast m) n = true →
      ∀ p, p ∈ collect tocEntry n → m ≤ p.1
  | .leaf literal, _, p, hp => by simp [collect, tocEntry] at hp
  | .inner kind children, h, p, hp => by
    simp only [allNodes, Bool.and_eq_true] at h
    simp only [collect, List.mem_append] at hp
    rcases hp with hp | hp
    · match kind, h.1, hp with
      | .heading level false id, h1, hp =>
        simp only [tocEntry, List.mem_singleton] at hp
        rw [hp]
        simpa [levelAtLeast] using h1
      | .heading level true id, _, hp => simp [tocEntry] at hp
      | .other name, _, hp => simp [tocEntry] at hp
    · exact collectList_levels_ge m children h.2 p hp
theorem collectList_levels_ge (m : Int) :
    ∀ (ns : List Node), allNodesList (levelAtLeast m) ns = true →
      ∀ p, p ∈ collectList tocEntry ns → m ≤ p.1
  | [], _, p, hp => by simp [collectList] at hp
  | n :: rest, h, p, hp => by
    simp only [allNodesList, Bool.and_eq_true] at h
    simp only [collectList, List.mem_append] at hp
    rcases hp with hp | hp
    · exact collect_levels_ge m n h.1 p hp
    · exact collectList_levels_ge m rest h.2 p hp
end

/-- The `minHeading` computed over levels that are all at least 1 is their minimum. -/
theorem foldl_enterCounters_min (l : List (Int × String)) (c : Nat × Int × Int)
    (hl : ∀ p, p ∈ l → 1 ≤ p.1) (hc : c.2.1 = -1 ∨ 1 ≤ c.2.1) :
    ((l.foldl (fun c p => enterCounters c p.1) c).2.1 = -1 ∨
        1 ≤ (l.foldl (fun c p => enterCounters c p.1) c).2.1) ∧
      (∀ p, p ∈ l → (l.foldl (fun c p => enterCounters c p.1) c).2.1 ≤ p.1) ∧
      (l ≠ [] → c.2.1 = -1 →
        ∃ p, p ∈ l ∧ (l.foldl (fun c p => enterCounters c p.1) c).2.1 = p.1) ∧
      (1 ≤ c.2.1 → 1 ≤ (l.foldl (fun c p => enterCounters c p.1) c).2.1 ∧
        (l.foldl (fun c p => enterCounters c p.1) c).2.1 ≤ c.2.1 ∧
        ((l.foldl (fun c p => enterCounters c p.1) c).2.1 = c.2.1 ∨
          ∃ p, p ∈ l ∧ (l.foldl (fun c p => enterCounters c p.1) c).2.1 = p.1)) := by
  induction l generalizing c with
  | nil => simp [hc]
  | cons q l ih =>
    have hq : 1 ≤ q.1 := hl q (by simp)
    have hstep : 1 ≤ (enterCounters c q.1).2.1 ∧ (enterCounters c q.1).2.1 ≤ q.1 ∧
        (c.2.1 = -1 → (enterCounters c q.1).2.1 = q.1) ∧
        (1 ≤ c.2.1 → (enterCounters c q.1).2.1 ≤ c.2.1 ∧
          ((enterCounters c q.1).2.1 = c.2.1 ∨ (enterCounters c q.1).2.1 = q.1)) := by
      simp only [enterCounters]
      split_ifs with h <;> omega
    obtain ⟨i1, i2, _, i4⟩ := ih (enterCounters c q.1)
      (fun p hp => hl p (List.mem_cons_of_mem _ hp)) (Or.inr hstep.1)
    obtain ⟨j1, j2, j3⟩ := i4 hstep.1
    rw [List.foldl_cons]
    refine ⟨i1, ?_, ?_, ?_⟩
    · intro p hp
      rcases List.mem_cons.mp hp with rfl | hp
      · omega
      · exact i2 p hp
    · intro _ hc1
      rcases j3 with j3 | ⟨p, hp, hpe⟩
      · exact ⟨q, by simp, by rw [j3]; exact hstep.2.2.1 hc1⟩
      · exact ⟨p, List.mem_cons_of_mem _ hp, hpe⟩
    · intro hc1
      refine ⟨j1, by have := (hstep.2.2.2 hc1).1; omega, ?_⟩
      rcases j3 with j3 | ⟨p, hp, hpe⟩
      · rcases (hstep.2.2.2 hc1).2 with e | e
        · left; rw [j3, e]
        · right; exact ⟨q, by simp, by rw [j3, e]⟩
      · right; exact ⟨p, List.mem_cons_of_mem _ hp, hpe⟩

/-- With a renderer that reaches every heading, `minHeading` after the walk is the smallest
level of the tree. -/
theorem tocWalk_minHeading {ρ : Type} (r : Renderer ρ) (rs : ρ) (doc : Node)
    (hterm : NeverTerminates r) (hskip : SkipsOnlyHeadingFree r)
    (hlev : levelsAtLeast 1 doc = true) (m : Int) (hm : m ∈ tocLevels doc)
    (hmin : ∀ l, l ∈ tocLevels doc → m ≤ l) :
    (tocWalk r rs doc).state.minHeading = m := by
  have hc := (WalkFunc_counters r hterm hskip doc (tocInit rs)).2.1
  have hmh : (tocWalk r rs doc).state.minHeading =
      ((collect tocEntry doc).foldl (fun c p => enterCounters c p.1) (tocInit rs).counters).2.1
      := by
    have := congrArg (fun c => c.2.1) hc
    exact this
  have hge := collect_levels_ge 1 doc hlev
  obtain ⟨_, f2, f3, _⟩ := foldl_enterCounters_min (collect tocEntry doc) (tocInit rs).counters
    hge (Or.inl rfl)
  have hne : collect tocEntry doc ≠ [] := by
    intro h
    simp [tocLevels, h] at hm
  obtain ⟨p, hp, hpe⟩ := f3 hne rfl
  obtain ⟨q, hq, hqe⟩ := List.mem_map.mp hm
  rw [hmh]
  have h1 := f2 q hq
  have h2 := hmin p.1 (List.mem_map.mpr ⟨p, hp, rfl⟩)
  rw [hqe] at h1
  omega

/-! ## Walking outside and inside headings -/

theorem WalkFunc_status {σ : Type} (v : σ → Node → Bool → Visit σ) (s : σ) (n : Node) :
    (WalkFunc v s n).status = .GoToNext ∨ (WalkFunc v s n).status = .Terminate := by
  cases n with
  | leaf literal =>
    rw [WalkFunc_leaf]
    by_cases h : (v s (.leaf literal) true).status = .Terminate <;> simp [h]
  | inner kind children =>
    rw [WalkFunc_inner]
    split
    · exact Or.inr rfl
    · split
      · exact Or.inl rfl
      · split
        · exact Or.inr rfl
        · dsimp only
          split
          · exact Or.inr rfl
          · exact Or.inl rfl

theorem walkChildren_status {σ : Type} (v : σ → Node → Bool → Visit σ) (s : σ)
    (ns : List Node) :
    (walkChildren v s ns).status = .GoToNext ∨ (walkChildren v s ns).status = .Terminate := by
  induction ns generalizing s with
  | nil => rw [walkChildren_nil]; exact Or.inl rfl
  | cons n rest ih =>
    rw [walkChildren_cons]
    split
    · exact Or.inr rfl
    · exact ih _

/-- The walk over a concatenation: the first part, then (unless aborted) the second. -/
theorem walkChildren_append {σ : Type} (v : σ → Node → Bool → Visit σ) (s : σ)
    (a b : List Node) :
    walkChildren v s (a ++ b) =
      if (walkChildren v s a).status = .Terminate then
        { state := (walkChildren v s a).state, tree := (walkChildren v s a).tree ++ b,
          status := .Terminate }
      else
        { state := (walkChildren v (walkChildren v s a).state b).state,
          tree := (walkChildren v s a).tree ++ (walkChildren v (walkChildren v s a).state b).tree,
          status := (walkChildren v (walkChildren v s a).state b).status } := by
  induction a generalizing s with
  | nil => simp [walkChildren_nil]
  | cons n rest ih =>
    rw [List.cons_append, walkChildren_cons, walkChildren_cons]
    by_cases h : (WalkFunc v s n).status = .Terminate
    · simp [h]
    · simp only [if_neg h]
      rw [ih]
      split <;> simp

/-- A non-title-heading container visited while no heading is open: the visitor does nothing
on entering, and nothing on leaving when still no heading is open. -/
theorem WalkFunc_outside {ρ : Type} (r : Renderer ρ) (st : TocState ρ) (kind : Kind)
    (children : List Node) (hk : (Node.inner kind children).isTocHeading = false)
    (hin : st.inHeading = false)
    (hafter : (walkChildren (headingVisitor r) st children).status = .Terminate ∨
      (walkChildren (headingVisitor r) st children).state.inHeading = false) :
    WalkFunc (headingVisitor r) st (.inner kind children) =
      { state := (walkChildren (headingVisitor r) st children).state,
        tree := .inner kind (walkChildren (headingVisitor r) st children).tree,
        status := (walkChildren (headingVisitor r) st children).status } := by
  have henter : headingVisitor r st (.inner kind children) true =
      { state := st, headingID := none, status := .GoToNext } := by
    rw [headingVisitor_other r st _ true hk, hin]; rfl
  rw [WalkFunc_inner, henter]
  simp only [Kind.assign_none]
  rw [if_neg (by simp), if_neg (by simp)]
  by_cases ht : (walkChildren (headingVisitor r) st children).status = .Terminate
  · rw [if_pos ht, ht]
  · rw [if_neg ht]
    have hin2 : (walkChildren (headingVisitor r) st children).state.inHeading = false := by
      rcases hafter with h | h
      · exact absurd h ht
      · exact h
    have hk2 : (Node.inner kind
        (walkChildren (headingVisitor r) st children).tree).isTocHeading = false := by
      rw [← hk]
      cases kind with
      | other name => rfl
      | heading level t hid' => cases t <;> rfl
    have hexit : headingVisitor r (walkChildren (headingVisitor r) st children).state
        (.inner kind (walkChildren (headingVisitor r) st children).tree) false =
        { state := (walkChildren (headingVisitor r) st children).state, headingID := none,
          status := .GoToNext } := by
      rw [headingVisitor_other r _ _ false hk2, hin2]; rfl
    rw [hexit]
    simp only [Kind.assign_none]
    rcases walkChildren_status (headingVisitor r) st children with h | h
    · rw [h]; simp
    · exact absurd h ht

mutual
/-- A walk that starts with no heading open ends with no heading open, unless aborted. -/
theorem WalkFunc_inHeading {ρ : Type} (r : Renderer ρ) :
    ∀ (n : Node) (st : TocState ρ), st.inHeading = false →
      (WalkFunc (headingVisitor r) st n).status = .Terminate ∨
        (WalkFunc (headingVisitor r) st n).state.inHeading = false
  | .leaf literal, st, hin => by
    rw [WalkFunc_leaf, headingVisitor_other r st (.leaf literal) true rfl, hin]
    exact Or.inr hin
  | .inner kind children, st, hin => by
    by_cases hk : (Node.inner kind children).isTocHeading = true
    · match kind, hk with
      | .heading level false id, _ =>
        rw [WalkFunc_inner]
        split
        · exact Or.inl rfl
        · split
          · rename_i h1 h2
            rw [headingVisitor_enter] at h2
            simp at h2
          · split
            · exact Or.inl rfl
            · right
              simp only [headingVisitor_enter, Kind.assign, headingVisitor_exit]
    · have hk' : (Node.inner kind children).isTocHeading = false := by simpa using hk
      have hc := walkChildren_inHeading r children st hin
      rw [WalkFunc_outside r st kind children hk' hin hc]
      exact hc
theorem walkChildren_inHeading {ρ : Type} (r : Renderer ρ) :
    ∀ (ns : List Node) (st : TocState ρ), st.inHeading = false →
      (walkChildren (headingVisitor r) st ns).status = .Terminate ∨
        (walkChildren (headingVisitor r) st ns).state.inHeading = false
  | [], st, hin => by
    rw [walkChildren_nil]
    exact Or.inr hin
  | n :: rest, st, hin => by
    rw [walkChildren_cons]
    by_cases ht : (WalkFunc (headingVisitor r) st n).status = .Terminate
    · rw [if_pos ht]
      exact Or.inl rfl
    · rw [if_neg ht]
      rcases WalkFunc_inHeading r n st hin with h | h
      · exact absurd h ht
      · exact walkChildren_inHeading r rest _ h
end

mutual
/-- A subtree without non-title headings, walked while no heading is open, changes nothing:
not the visitor's variables, not the tree. -/
theorem WalkFunc_headingFree {ρ : Type} (r : Renderer ρ) :
    ∀ (n : Node) (st : TocState ρ), headingFree n = true → st.inHeading = false →
      WalkFunc (headingVisitor r) st n = { state := st, tree := n, status := .GoToNext }
  | .leaf literal, st, _, hin => by
    rw [WalkFunc_leaf, headingVisitor_other r st (.leaf literal) true rfl, hin]
    rfl
  | .inner kind children, st, hf, hin => by
    simp only [headingFree, allNodes, Bool.and_eq_true, Bool.not_eq_true'] at hf
    have hc := walkChildren_headingFree r children st hf.2 hin
    rw [WalkFunc_outside r st kind children hf.1 hin (by rw [hc]; exact Or.inr hin), hc]
theorem walkChildren_headingFree {ρ : Type} (r : Renderer ρ) :
    ∀ (ns : List Node) (st : TocState ρ),
      allNodesList (fun x => !x.isTocHeading) ns = true → st.inHeading = false →
      walkChildren (headingVisitor r) st ns = { state := st, tree := ns, status := .GoToNext }
  | [], st, _, _ => by rw [walkChildren_nil]
  | n :: rest, st, hf, hin => by
    simp only [allNodesList, Bool.and_eq_true] at hf
    rw [walkChildren_cons, WalkFunc_headingFree r n st hf.1 hin]
    simp only [walkChildren_headingFree r rest st hf.2 hin]
    simp
end

theorem Node.isTocHeading_inner (kind : Kind) (cs : List Node) :
    (Node.inner kind cs).isTocHeading = kind.isTocHeading := by
  cases kind with
  | other name => rfl
  | heading level t id => cases t <;> rfl

/-- Putting a subtree without non-title headings into a gap outside the headings changes
neither the visitor's variables after the walk nor the walk's status, and the walked tree is
the walked tree without it, with the subtree put (unchanged) into the same gap. -/
theorem WalkFunc_fill {ρ : Type} (r : Renderer ρ) (t : Node) (ht : headingFree t = true) :
    ∀ (ctx : Ctx) (st : TocState ρ), ctx.outsideHeadings = true → st.inHeading = false →
      ∃ ctx' : Ctx,
        (WalkFunc (headingVisitor r) st (ctx.fill [t])).state =
          (WalkFunc (headingVisitor r) st (ctx.fill [])).state ∧
        (WalkFunc (headingVisitor r) st (ctx.fill [t])).status =
          (WalkFunc (headingVisitor r) st (ctx.fill [])).status ∧
        (WalkFunc (headingVisitor r) st (ctx.fill [t])).tree = ctx'.fill [t] ∧
        (WalkFunc (headingVisitor r) st (ctx.fill [])).tree = ctx'.fill [] := by
  intro ctx
  induction ctx with
  | hole kind pre post =>
    intro st hout hin
    have hk : kind.isTocHeading = false := by simpa [Ctx.outsideHeadings] using hout
    simp only [Ctx.fill]
    rw [WalkFunc_outside r st kind _ (by rw [Node.isTocHeading_inner]; exact hk) hin
        (walkChildren_inHeading r _ st hin),
      WalkFunc_outside r st kind _ (by rw [Node.isTocHeading_inner]; exact hk) hin
        (walkChildren_inHeading r _ st hin)]
    rw [walkChildren_append _ st pre ([t] ++ post), walkChildren_append _ st pre ([] ++ post)]
    by_cases hterm : (walkChildren (headingVisitor r) st pre).status = .Terminate
    · simp only [if_pos hterm]
      refine ⟨.hole kind (walkChildren (headingVisitor r) st pre).tree post, ?_, ?_, ?_, ?_⟩ <;> trivial
    · simp only [if_neg hterm]
      have hin1 : (walkChildren (headingVisitor r) st pre).state.inHeading = false := by
        rcases walkChildren_inHeading r pre st hin with h | h
        · exact absurd h hterm
        · exact h
      have hT : walkChildren (headingVisitor r) (walkChildren (headingVisitor r) st pre).state
          ([t] ++ post) =
          { state := (walkChildren (headingVisitor r)
              (walkChildren (headingVisitor r) st pre).state post).state,
            tree := t :: (walkChildren (headingVisitor r)
              (walkChildren (headingVisitor r) st pre).state post).tree,
            status := (walkChildren (headingVisitor r)
              (walkChildren (headingVisitor r) st pre).state post).status } := by
        rw [List.singleton_append, walkChildren_cons, WalkFunc_headingFree r t _ ht hin1]
        simp
      rw [hT, List.nil_append]
      refine ⟨.hole kind (walkChildren (headingVisitor r) st pre).tree
        (walkChildren (headingVisitor r) (walkChildren (headingVisitor r) st pre).state
          post).tree, ?_, ?_, ?_, ?_⟩ <;> trivial
  | step kind pre c post ih =>
    intro st hout hin
    simp only [Ctx.outsideHeadings, Bool.and_eq_true, Bool.not_eq_true'] at hout
    simp only [Ctx.fill]
    rw [WalkFunc_outside r st kind _ (by rw [Node.isTocHeading_inner]; exact hout.1) hin
        (walkChildren_inHeading r _ st hin),
      WalkFunc_outside r st kind _ (by rw [Node.isTocHeading_inner]; exact hout.1) hin
        (walkChildren_inHeading r _ st hin)]
    rw [walkChildren_append _ st pre (c.fill [t] :: post),
      walkChildren_append _ st pre (c.fill [] :: post)]
    by_cases hterm : (walkChildren (headingVisitor r) st pre).status = .Terminate
    · simp only [if_pos hterm]
      refine ⟨.step kind (walkChildren (headingVisitor r) st pre).tree c post, ?_, ?_, ?_, ?_⟩ <;> trivial
    · simp only [if_neg hterm]
      have hin1 : (walkChildren (headingVisitor r) st pre).state.inHeading = false := by
        rcases walkChildren_inHeading r pre st hin with h | h
        · exact absurd h hterm
        · exact h
      obtain ⟨c', h1, h2, h3, h4⟩ := ih (walkChildren (headingVisitor r) st pre).state
        hout.2 hin1
      rw [walkChildren_cons, walkChildren_cons, h1, h2, h3, h4]
      by_cases hterm2 : (WalkFunc (headingVisitor r)
          (walkChildren (headingVisitor r) st pre).state (c.fill [])).status = .Terminate
      · simp only [if_pos hterm2]
        refine ⟨.step kind (walkChildren (headingVisitor r) st pre).tree c' post, ?_, ?_, ?_, ?_⟩ <;> trivial
      · simp only [if_neg hterm2]
        refine ⟨.step kind (walkChildren (headingVisitor r) st pre).tree c'
          (walkChildren (headingVisitor r) (WalkFunc (headingVisitor r)
            (walkChildren (headingVisitor r) st pre).state (c.fill [])).state post).tree, ?_, ?_, ?_, ?_⟩ <;> trivial

/-! ## Flat trees: the walk heading by heading -/

mutual
/-- Two visitors that agree, through a map `f` of their states, on every node that is not a
non-title heading walk a tree without such headings in step. -/
theorem WalkFunc_sim {σ₁ σ₂ : Type} (v₁ : σ₁ → Node → Bool → Visit σ₁)
    (v₂ : σ₂ → Node → Bool → Visit σ₂) (f : σ₂ → σ₁)
    (h : ∀ s n e, n.isTocHeading = false →
      v₁ (f s) n e =
        { state := f (v₂ s n e).state, headingID := (v₂ s n e).headingID,
          status := (v₂ s n e).status }) :
    ∀ (n : Node) (s : σ₂), headingFree n = true →
      WalkFunc v₁ (f s) n =
        { state := f (WalkFunc v₂ s n).state, tree := (WalkFunc v₂ s n).tree,
          status := (WalkFunc v₂ s n).status }
  | .leaf literal, s, _ => by
    rw [WalkFunc_leaf, WalkFunc_leaf, h s (.leaf literal) true rfl]
  | .inner kind children, s, hf => by
    simp only [headingFree, allNodes, Bool.and_eq_true, Bool.not_eq_true'] at hf
    have hc := walkChildren_sim v₁ v₂ f h children (v₂ s (.inner kind children) true).state hf.2
    have hk2 : ∀ id cs', (Node.inner (kind.assign id) cs').isTocHeading = false := by
      intro id cs'
      rw [Kind.assign_isTocHeading kind id children cs']
      exact hf.1
    rw [WalkFunc_inner, WalkFunc_inner, h s _ true hf.1]
    dsimp only
    by_cases h1 : (v₂ s (.inner kind children) true).status = .Terminate
    · rw [if_pos h1, if_pos h1]
    · rw [if_neg h1, if_neg h1]
      by_cases h2 : (v₂ s (.inner kind children) true).status = .SkipChildren
      · rw [if_pos h2, if_pos h2]
      · rw [if_neg h2, if_neg h2, hc]
        dsimp only
        by_cases h3 : (walkChildren v₂ (v₂ s (.inner kind children) true).state
            children).status = .Terminate
        · rw [if_pos h3, if_pos h3]
        · rw [if_neg h3, if_neg h3, h _ _ false (hk2 _ _)]
theorem walkChildren_sim {σ₁ σ₂ : Type} (v₁ : σ₁ → Node → Bool → Visit σ₁)
    (v₂ : σ₂ → Node → Bool → Visit σ₂) (f : σ₂ → σ₁)
    (h : ∀ s n e, n.isTocHeading = false →
      v₁ (f s) n e =
        { state := f (v₂ s n e).state, headingID := (v₂ s n e).headingID,
          status := (v₂ s n e).status }) :
    ∀ (ns : List Node) (s : σ₂), allNodesList (fun x => !x.isTocHeading) ns = true →
      walkChildren v₁ (f s) ns =
        { state := f (walkChildren v₂ s ns).state, tree := (walkChildren v₂ s ns).tree,
          status := (walkChildren v₂ s ns).status }
  | [], s, _ => by rw [walkChildren_nil, walkChildren_nil]
  | n :: rest, s, hf => by
    simp only [allNodesList, Bool.and_eq_true] at hf
    rw [walkChildren_cons, walkChildren_cons, WalkFunc_sim v₁ v₂ f h n s hf.1]
    dsimp only
    by_cases h1 : (WalkFunc v₂ s n).status = .Terminate
    · rw [if_pos h1, if_pos h1]
    · rw [if_neg h1, if_neg h1, walkChildren_sim v₁ v₂ f h rest _ hf.2]
end

/-- Inside a heading whose content has no non-title heading, the walk of `HeadingRender`
writes what the walk of `Render` over that content writes, and leaves the tree alone. -/
theorem walkChildren_inline {ρ : Type} (r : Renderer ρ) (st : TocState ρ)
    (hin : st.inHeading = true) (cs : List Node) (hf : headingFreeList cs = true) :
    walkChildren (headingVisitor r) st cs =
      { state := { st with
          renderer := (inlineRender r st.renderer cs).1
          buf := st.buf ++ (inlineRender r st.renderer cs).2 },
        tree := (walkChildren (renderVisitor r) (st.renderer, []) cs).tree,
        status := (walkChildren (renderVisitor r) (st.renderer, []) cs).status } := by
  have key := walkChildren_sim (headingVisitor r) (renderVisitor r)
    (fun p : ρ × Bytes => { st with renderer := p.1, buf := st.buf ++ p.2 }) (by
      intro p n e hn
      rw [headingVisitor_other r _ n e hn]
      simp only [hin, if_true, renderVisitor, List.append_assoc]) cs (st.renderer, []) hf
  simp only [List.append_nil] at key
  exact key

mutual
theorem WalkFunc_status_of_never {σ : Type} (v : σ → Node → Bool → Visit σ)
    (hv : ∀ s n e, (v s n e).status ≠ .Terminate) :
    ∀ (n : Node) (s : σ), (WalkFunc v s n).status = .GoToNext
  | .leaf literal, s => by
    rw [WalkFunc_leaf]
    simp only [if_neg (hv _ _ _)]
  | .inner kind children, s => by
    rw [WalkFunc_inner, if_neg (hv _ _ _)]
    split
    · rfl
    · rw [if_neg (by rw [walkChildren_status_of_never v hv children _]; simp)]
      simp only [if_neg (hv _ _ _)]
theorem walkChildren_status_of_never {σ : Type} (v : σ → Node → Bool → Visit σ)
    (hv : ∀ s n e, (v s n e).status ≠ .Terminate) :
    ∀ (ns : List Node) (s : σ), (walkChildren v s ns).status = .GoToNext
  | [], s => by rw [walkChildren_nil]
  | n :: rest, s => by
    rw [walkChildren_cons, if_neg (by rw [WalkFunc_status_of_never v hv n s]; simp)]
    exact walkChildren_status_of_never v hv rest _
end

mutual
theorem collect_of_headingFree {α : Type} (f : Node → List α)
    (hf : ∀ n, n.isTocHeading = false → f n = []) :
    ∀ (n : Node), headingFree n = true → collect f n = []
  | .leaf literal, _ => by
    simp only [collect]
    exact hf _ rfl
  | .inner kind children, h => by
    simp only [headingFree, allNodes, Bool.and_eq_true, Bool.not_eq_true'] at h
    simp only [collect, collectList_of_headingFree f hf children h.2, List.append_nil]
    exact hf _ h.1
theorem collectList_of_headingFree {α : Type} (f : Node → List α)
    (hf : ∀ n, n.isTocHeading = false → f n = []) :
    ∀ (ns : List Node), allNodesList (fun x => !x.isTocHeading) ns = true →
      collectList f ns = []
  | [], _ => rfl
  | n :: rest, h => by
    simp only [allNodesList, Bool.and_eq_true] at h
    simp only [collectList, collect_of_headingFree f hf n h.1,
      collectList_of_headingFree f hf rest h.2, List.append_nil]
end

theorem headingEntry_of_not_tocHeading (n : Node) (h : n.isTocHeading = false) :
    headingEntry n = [] := by
  match n, h with
  | .leaf _, _ => rfl
  | .inner (.other _) _, _ => rfl
  | .inner (.heading _ true _) _, _ => rfl

theorem headingStep_inHeading {ρ : Type} (r : Renderer ρ) (st : TocState ρ)
    (h : Int × List Node) : (headingStep r st h).inHeading = false := rfl

theorem foldl_headingStep_inHeading {ρ : Type} (r : Renderer ρ) (l : List (Int × List Node))
    (st : TocState ρ) (hin : st.inHeading = false) :
    (l.foldl (headingStep r) st).inHeading = false := by
  induction l generalizing st with
  | nil => exact hin
  | cons h l ih => exact ih _ (headingStep_inHeading r st h)

mutual
/-- In a tree without headings nested in headings, with a renderer that never terminates
the walk, the visitor's variables after the walk are those of the headings taken one after
the other. -/
theorem WalkFunc_flat {ρ : Type} (r : Renderer ρ) (hterm : NeverTerminates r) :
    ∀ (n : Node) (st : TocState ρ), flat n = true → st.inHeading = false →
      (WalkFunc (headingVisitor r) st n).state = (collect headingEntry n).foldl (headingStep r) st
  | .leaf literal, st, _, hin => by
    rw [WalkFunc_headingFree r (.leaf literal) st rfl hin]
    rfl
  | .inner kind children, st, hf, hin => by
    simp only [flat, allNodes, Bool.and_eq_true] at hf
    by_cases hk : (Node.inner kind children).isTocHeading = true
    · match kind, hk, hf with
      | .heading level false id, _, hf =>
        have hcs : headingFreeList children = true := hf.1
        have hst : (walkChildren (headingVisitor r)
            (headingVisitor r st (.inner (.heading level false id) children) true).state
            children).status = .GoToNext :=
          walkChildren_status_of_never _ (headingVisitor_status_ne_terminate r hterm) _ _
        rw [WalkFunc_inner, if_neg (headingVisitor_status_ne_terminate r hterm _ _ _),
          if_neg (by rw [headingVisitor_enter]; simp), if_neg (by rw [hst]; simp)]
        rw [walkChildren_inline r _ (by rw [headingVisitor_enter]) children hcs]
        simp only [headingVisitor_enter, Kind.assign, headingVisitor_exit]
        simp only [collect, headingEntry,
          collectList_of_headingFree headingEntry headingEntry_of_not_tocHeading children hcs,
          List.append_nil, List.foldl_cons, List.foldl_nil, headingStep, headingVisitor_enter]
    · have hk' : (Node.inner kind children).isTocHeading = false := by simpa using hk
      rw [WalkFunc_outside r st kind children hk' hin (walkChildren_inHeading r _ st hin)]
      simp only [collect, headingEntry_of_not_tocHeading _ hk', List.nil_append]
      exact walkChildren_flat r hterm children st hf.2 hin
theorem walkChildren_flat {ρ : Type} (r : Renderer ρ) (hterm : NeverTerminates r) :
    ∀ (ns : List Node) (st : TocState ρ), allNodesList contentHeadingFree ns = true →
      st.inHeading = false →
      (walkChildren (headingVisitor r) st ns).state =
        (collectList headingEntry ns).foldl (headingStep r) st
  | [], st, _, _ => by
    rw [walkChildren_nil]
    rfl
  | n :: rest, st, hf, hin => by
    simp only [allNodesList, Bool.and_eq_true] at hf
    have h1 := WalkFunc_flat r hterm n st hf.1 hin
    have hs := WalkFunc_status_of_never _ (headingVisitor_status_ne_terminate r hterm) n st
    rw [walkChildren_cons, if_neg (by rw [hs]; simp)]
    simp only [collectList, List.foldl_append]
    rw [walkChildren_flat r hterm rest _ hf.2
      (by rw [h1]; exact foldl_headingStep_inHeading r _ st hin), h1]
end

/-- The walk of `HeadingRender` over a flat tree, heading by heading. -/
theorem tocWalk_flat {ρ : Type} (r : Renderer ρ) (hterm : NeverTerminates r) (rs : ρ)
    (doc : Node) (hflat : flat doc = true) :
    (tocWalk r rs doc).state = (tocHeadings doc).foldl (headingStep r) (tocInit rs) :=
  WalkFunc_flat r hterm doc (tocInit rs) hflat rfl

/-! ## Traces of a walk: lemmas -/

mutual
/-- Two visitors that keep a relation between their states, and return the same status and
heading id when their states are related, walk every tree in step. -/
theorem WalkFunc_rel {σ₁ σ₂ : Type} (v₁ : σ₁ → Node → Bool → Visit σ₁)
    (v₂ : σ₂ → Node → Bool → Visit σ₂) (R : σ₁ → σ₂ → Prop)
    (h : ∀ s₁ s₂ n e, R s₁ s₂ →
      R (v₁ s₁ n e).state (v₂ s₂ n e).state ∧
        (v₁ s₁ n e).headingID = (v₂ s₂ n e).headingID ∧
        (v₁ s₁ n e).status = (v₂ s₂ n e).status) :
    ∀ (n : Node) (s₁ : σ₁) (s₂ : σ₂), R s₁ s₂ →
      R (WalkFunc v₁ s₁ n).state (WalkFunc v₂ s₂ n).state ∧
        (WalkFunc v₁ s₁ n).tree = (WalkFunc v₂ s₂ n).tree ∧
        (WalkFunc v₁ s₁ n).status = (WalkFunc v₂ s₂ n).status
  | .leaf literal, s₁, s₂, hR => by
    have he := h s₁ s₂ (.leaf literal) true hR
    rw [WalkFunc_leaf, WalkFunc_leaf, he.2.2]
    exact ⟨he.1, rfl, rfl⟩
  | .inner kind children, s₁, s₂, hR => by
    have he := h s₁ s₂ (.inner kind children) true hR
    have hc := walkChildren_rel v₁ v₂ R h children _ _ he.1
    rw [WalkFunc_inner, WalkFunc_inner, he.2.1, he.2.2]
    by_cases h1 : (v₂ s₂ (.inner kind children) true).status = .Terminate
    · simp only [if_pos h1, and_self, and_true]
      exact he.1
    · simp only [if_neg h1]
      by_cases h2 : (v₂ s₂ (.inner kind children) true).status = .SkipChildren
      · simp only [if_pos h2, and_self, and_true]
        exact he.1
      · simp only [if_neg h2]
        rw [hc.2.1, hc.2.2]
        by_cases h3 : (walkChildren v₂ (v₂ s₂ (.inner kind children) true).state
            children).status = .Terminate
        · simp only [if_pos h3, and_self, and_true]
          exact hc.1
        · simp only [if_neg h3]
          have hx := h _ _ (.inner (kind.assign (v₂ s₂ (.inner kind children) true).headingID)
            (walkChildren v₂ (v₂ s₂ (.inner kind children) true).state children).tree)
            false hc.1
          rw [hx.2.1, hx.2.2]
          exact ⟨hx.1, rfl, rfl⟩
theorem walkChildren_rel {σ₁ σ₂ : Type} (v₁ : σ₁ → Node → Bool → Visit σ₁)
    (v₂ : σ₂ → Node → Bool → Visit σ₂) (R : σ₁ → σ₂ → Prop)
    (h : ∀ s₁ s₂ n e, R s₁ s₂ →
      R (v₁ s₁ n e).state (v₂ s₂ n e).state ∧
        (v₁ s₁ n e).headingID = (v₂ s₂ n e).headingID ∧
        (v₁ s₁ n e).status = (v₂ s₂ n e).status) :
    ∀ (ns : List Node) (s₁ : σ₁) (s₂ : σ₂), R s₁ s₂ →
      R (walkChildren v₁ s₁ ns).state (walkChildren v₂ s₂ ns).state ∧
        (walkChildren v₁ s₁ ns).tree = (walkChildren v₂ s₂ ns).tree ∧
        (walkChildren v₁ s₁ ns).status = (walkChildren v₂ s₂ ns).status
  | [], s₁, s₂, hR => by
    rw [walkChildren_nil, walkChildren_nil]
    exact ⟨hR, rfl, rfl⟩
  | n :: rest, s₁, s₂, hR => by
    have h1 := WalkFunc_rel v₁ v₂ R h n s₁ s₂ hR
    have h2 := walkChildren_rel v₁ v₂ R h rest _ _ h1.1
    rw [walkChildren_cons, walkChildren_cons, h1.2.1, h1.2.2]
    by_cases ht : (WalkFunc v₂ s₂ n).status = .Terminate
    · simp only [if_pos ht, and_self, and_true]
      exact h1.1
    · simp only [if_neg ht]
      exact ⟨h2.1, by rw [h2.2.1], h2.2.2⟩
end

theorem runCalls_append {σ : Type} (v : σ → Node → Bool → Visit σ) (s : σ)
    (a b : List (Node × Bool)) : runCalls v s (a ++ b) = runCalls v (runCalls v s a) b := by
  induction a generalizing s with
  | nil => rfl
  | cons c a ih =>
    obtain ⟨n, e⟩ := c
    rw [List.cons_append, runCalls, runCalls, ih]

theorem runCalls_snoc {σ : Type} (v : σ → Node → Bool → Visit σ) (s : σ)
    (a : List (Node × Bool)) (n : Node) (e : Bool) :
    runCalls v s (a ++ [(n, e)]) = (v (runCalls v s a) n e).state := by
  rw [runCalls_append]
  rfl

theorem allNodes_true (n : Node) : allNodes (fun _ => true) n = true :=
  Node.rec (motive_1 := fun n => allNodes (fun _ => true) n = true)
    (motive_2 := fun ns => allNodesList (fun _ => true) ns = true)
    (fun _ => rfl) (fun _ _ ih => by simp [allNodes, ih]) rfl
    (fun _ _ h1 h2 => by simp [allNodesList, h1, h2]) n

/-- The recording walk does what the plain walk does. -/
theorem WalkFunc_recordCalls {σ : Type} (v : σ → Node → Bool → Visit σ) (s : σ)
    (l : List (Node × Bool)) (n : Node) :
    (WalkFunc (recordCalls v) (s, l) n).state.1 = (WalkFunc v s n).state ∧
      (WalkFunc (recordCalls v) (s, l) n).tree = (WalkFunc v s n).tree ∧
      (WalkFunc (recordCalls v) (s, l) n).status = (WalkFunc v s n).status :=
  WalkFunc_rel (recordCalls v) v (fun a b => a.1 = b) (by
    intro s₁ s₂ n e hR
    subst hR
    exact ⟨rfl, rfl, rfl⟩) n (s, l) s rfl

/-- Invariants hold after every call of a walk: if `P` is kept by every visitor call (under
the conditions of `WalkFunc_inv`), then `P` holds for the visitor's variables after every
initial part of the calls of the walk, and the walk ends in the state after all of them. -/
theorem walkCalls_inv {σ : Type} (v : σ → Node → Bool → Visit σ) (P S : σ → Prop)
    (q : Node → Bool)
    (henter : ∀ s n, q n = true → P s →
      P (v s n true).state ∧ (n.isTocHeading = true → S (v s n true).state) ∧
        (S s → S (v s n true).state))
    (hexit : ∀ s n, P s → (n.isTocHeading = true → S s) →
      P (v s n false).state ∧ (S s → S (v s n false).state))
    (doc : Node) (s₀ : σ) (hq : allNodes q doc = true) (hp : P s₀) :
    (WalkFunc v s₀ doc).state = runCalls v s₀ (walkCalls v s₀ doc) ∧
      ∀ p, p <+: walkCalls v s₀ doc → P (runCalls v s₀ p) := by
  have key := (WalkFunc_inv (recordCalls v)
    (fun sl => sl.1 = runCalls v s₀ sl.2 ∧ ∀ p, p <+: sl.2 → P (runCalls v s₀ p))
    (fun sl => S sl.1) q ?_ ?_ doc (s₀, []) hq ?_).1
  · exact ⟨by rw [← (WalkFunc_recordCalls v s₀ [] doc).1]; exact key.1, key.2⟩
  · intro sl n hqn hP
    obtain ⟨h1, h2⟩ := hP
    have hPs : P sl.1 := by rw [h1]; exact h2 _ (List.prefix_refl _)
    have hstep := henter sl.1 n hqn hPs
    refine ⟨⟨?_, ?_⟩, hstep.2.1, hstep.2.2⟩
    · show (v sl.1 n true).state = runCalls v s₀ (sl.2 ++ [(n, true)])
      rw [runCalls_snoc, ← h1]
    · intro p hpre
      show P (runCalls v s₀ p)
      rcases List.prefix_concat_iff.mp hpre with e | hpre'
      · rw [e, runCalls_snoc, ← h1]
        exact hstep.1
      · exact h2 p hpre'
  · intro sl n hP hS
    obtain ⟨h1, h2⟩ := hP
    have hPs : P sl.1 := by rw [h1]; exact h2 _ (List.prefix_refl _)
    have hstep := hexit sl.1 n hPs hS
    refine ⟨⟨?_, ?_⟩, hstep.2⟩
    · show (v sl.1 n false).state = runCalls v s₀ (sl.2 ++ [(n, false)])
      rw [runCalls_snoc, ← h1]
    · intro p hpre
      show P (runCalls v s₀ p)
      rcases List.prefix_concat_iff.mp hpre with e | hpre'
      · rw [e, runCalls_snoc, ← h1]
        exact hstep.1
      · exact h2 p hpre'
  · refine ⟨rfl, ?_⟩
    intro p hpre
    have : p = [] := List.prefix_nil.mp hpre
    rw [this]
    exact hp

/-- A walk ends in the state reached by its calls. -/
theorem WalkFunc_eq_runCalls {σ : Type} (v : σ → Node → Bool → Visit σ) (s : σ) (doc : Node) :
    (WalkFunc v s doc).state = runCalls v s (walkCalls v s doc) :=
  (walkCalls_inv v (fun _ => True) (fun _ => True) (fun _ => true)
    (fun _ _ _ _ => ⟨trivial, fun _ => trivial, fun _ => trivial⟩)
    (fun _ _ _ _ => ⟨trivial, fun _ => trivial⟩) doc s (allNodes_true doc) trivial).1

/-- The visitor of `Render` over a sequence of calls: the renderer is run over the calls and
its bytes are appended to the buffer. -/
theorem runCalls_renderVisitor {ρ : Type} (r : Renderer ρ) (rs : ρ) (buf : Bytes)
    (calls : List (Node × Bool)) :
    runCalls (renderVisitor r) (rs, buf) calls =
      ((runRenderer r rs calls).1, buf ++ (runRenderer r rs calls).2) := by
  induction calls generalizing rs buf with
  | nil => simp [runCalls, runRenderer]
  | cons c calls ih =>
    obtain ⟨n, e⟩ := c
    rw [runCalls, runRenderer]
    simp only [renderVisitor]
    rw [ih]
    simp only [List.append_assoc]

mutual
/-- When the visitor always answers `GoToNext` and writes no heading id, the calls of the
walk are the events of the tree in document order, and the tree is left as it was. -/
theorem WalkFunc_recordCalls_events {σ : Type} (v : σ → Node → Bool → Visit σ)
    (hv : ∀ s n e, (v s n e).status = .GoToNext ∧ (v s n e).headingID = none) :
    ∀ (n : Node) (s : σ) (l : List (Node × Bool)),
      (WalkFunc (recordCalls v) (s, l) n).state.2 = l ++ events n ∧
        (WalkFunc (recordCalls v) (s, l) n).tree = n ∧
        (WalkFunc (recordCalls v) (s, l) n).status = .GoToNext
  | .leaf literal, s, l => by
    rw [WalkFunc_leaf]
    simp only [recordCalls, (hv _ _ _).1, events]
    simp
  | .inner kind children, s, l => by
    have hc := walkChildren_recordCalls_events v hv children
      (v s (.inner kind children) true).state (l ++ [(.inner kind children, true)])
    rw [WalkFunc_inner]
    simp only [recordCalls, (hv _ _ _).1, (hv _ _ _).2, Kind.assign_none] at hc ⊢
    rw [if_neg (by simp), if_neg (by simp), if_neg (by rw [hc.2.2]; simp)]
    simp only [hc.1, hc.2.1, events, List.append_assoc, List.singleton_append, if_neg,
      List.cons_append, List.nil_append]
    simp
theorem walkChildren_recordCalls_events {σ : Type} (v : σ → Node → Bool → Visit σ)
    (hv : ∀ s n e, (v s n e).status = .GoToNext ∧ (v s n e).headingID = none) :
    ∀ (ns : List Node) (s : σ) (l : List (Node × Bool)),
      (walkChildren (recordCalls v) (s, l) ns).state.2 = l ++ eventsList ns ∧
        (walkChildren (recordCalls v) (s, l) ns).tree = ns ∧
        (walkChildren (recordCalls v) (s, l) ns).status = .GoToNext
  | [], s, l => by
    rw [walkChildren_nil]
    simp [eventsList]
  | n :: rest, s, l => by
    have h1 := WalkFunc_recordCalls_events v hv n s l
    have h2 := walkChildren_recordCalls_events v hv rest
      (WalkFunc (recordCalls v) (s, l) n).state.1 (WalkFunc (recordCalls v) (s, l) n).state.2
    rw [walkChildren_cons, if_neg (by rw [h1.2.2]; simp)]
    simp only [Prod.mk.eta] at h2
    refine ⟨?_, ?_, h2.2.2⟩
    · simp only [h2.1, h1.1, eventsList, List.append_assoc]
    · simp only [h2.2.1, h1.2.1]
end

/-! ## Preprocessing: what is cut and what is left -/

theorem lineEndingsSpec_no_cr (s : Bytes) : '\r' ∉ lineEndingsSpec s := by
  induction s using lineEndingsSpec.induct with
  | case1 => simp [lineEndingsSpec]
  | case2 rest ih =>
    rw [lineEndingsSpec]
    simp only [List.mem_cons, not_or]
    exact ⟨by decide, ih⟩
  | case3 rest h ih =>
    rw [lineEndingsSpec]
    · simp only [List.mem_cons, not_or]
      exact ⟨by decide, ih⟩
    · exact h
  | case4 c rest h1 h2 ih =>
    rw [lineEndingsSpec_cons_ne c rest h2]
    simp only [List.mem_cons, not_or]
    exact ⟨fun e => h2 e.symm, ih⟩

theorem lineEndingsSpec_length (s : Bytes) : (lineEndingsSpec s).length ≤ s.length := by
  induction s using lineEndingsSpec.induct with
  | case1 => simp [lineEndingsSpec]
  | case2 rest ih =>
    rw [lineEndingsSpec]
    simp only [List.length_cons]
    omega
  | case3 rest h ih =>
    rw [lineEndingsSpec]
    · simp only [List.length_cons]
      omega
    · exact h
  | case4 c rest h1 h2 ih =>
    rw [lineEndingsSpec_cons_ne c rest h2]
    simp only [List.length_cons]
    omega

/-- A match found in `s` ends at least five bytes after its start and within `s`. -/
theorem findIndexAux_bounds (pos : Nat) (s : Bytes) (ix : Nat × Nat)
    (h : findIndexAux pos s = some ix) :
    pos ≤ ix.1 ∧ ix.1 + 5 ≤ ix.2 ∧ ix.2 ≤ pos + s.length := by
  induction s generalizing pos with
  | nil => simp [findIndexAux] at h
  | cons c rest ih =>
    rw [findIndexAux] at h
    by_cases hp : tocMarker.isPrefixOf (c :: rest) = true
    · rw [if_pos hp] at h
      have hpre := List.isPrefixOf_iff_prefix.mp hp
      obtain ⟨t, ht⟩ := hpre
      have hix : ix = (pos, matchEnd pos ((c :: rest).drop 5)) := by
        simpa using h.symm
      have hd : (c :: rest).drop 5 = t := by
        rw [← ht]; simp [tocMarker]
      have hlen : (c :: rest).length = 5 + t.length := by
        rw [← ht]; simp [tocMarker]; omega
      rw [hix, hd]
      refine ⟨Nat.le_refl _, ?_, ?_⟩
      · unfold matchEnd; split <;> simp
      · rw [hlen]
        unfold matchEnd
        split
        · simp only [List.length_cons]; omega
        · simp only; omega
    · rw [if_neg hp] at h
      have := ih (pos + 1) h
      simp only [List.length_cons]
      omega

/-- What `Preparse` returns, by whether the normalised text holds a match. -/
theorem Preparse_eq_drop (markdown : Bytes) :
    (∀ ix, findIndex (normalizeLineEndings markdown) = some ix →
        Preparse markdown = (normalizeLineEndings markdown).drop ix.2) ∧
      (findIndex (normalizeLineEndings markdown) = none →
        Preparse markdown = normalizeLineEndings markdown) := by
  constructor
  · intro ix h
    show (match findIndex (normalizeLineEndings markdown) with
      | some ix => (normalizeLineEndings markdown).drop ix.2
      | none => normalizeLineEndings markdown) = _
    rw [h]
  · intro h
    show (match findIndex (normalizeLineEndings markdown) with
      | some ix => (normalizeLineEndings markdown).drop ix.2
      | none => normalizeLineEndings markdown) = _
    rw [h]

/-- The pattern matches the raw bytes exactly when it matches the normalised bytes. -/
theorem findIndex_normalize (markdown : Bytes) :
    (findIndex (normalizeLineEndings markdown)).isSome = (findIndex markdown).isSome := by
  have h1 := findIndex_isSome (normalizeLineEndings markdown)
  have h2 := findIndex_isSome markdown
  rw [normalizeLineEndings_eq,
    infix_lineEndingsSpec tocMarker (by decide) (by decide) (by decide)] at h1
  rw [normalizeLineEndings_eq]
  cases ha : (findIndex (lineEndingsSpec markdown)).isSome <;>
    cases hb : (findIndex markdown).isSome <;> simp_all

/-! ## The level counter and the markup written -/

theorem runRenderer_silent {ρ : Type} (r : Renderer ρ) (rs : ρ) (calls : List (Node × Bool)) :
    (runRenderer (silent r) rs calls).2 = [] := by
  induction calls generalizing rs with
  | nil => rfl
  | cons c calls ih =>
    obtain ⟨n, e⟩ := c
    rw [runRenderer]
    simp only [silent, List.nil_append]
    exact ih _

theorem silent_noListTags {ρ : Type} (r : Renderer ρ) : NoListTags (silent r) := by
  intro rs calls tag _
  rw [runRenderer_silent]
  rfl

/-- The visitor run with a renderer and with the same renderer silenced: everything but the
buffer stays the same, and so do the status and the heading id written. -/
theorem headingVisitor_silent {ρ : Type} (r : Renderer ρ) (a b : TocState ρ) (n : Node)
    (e : Bool) (h : sameButBuf a b) :
    sameButBuf (headingVisitor r a n e).state (headingVisitor (silent r) b n e).state ∧
      (headingVisitor r a n e).headingID = (headingVisitor (silent r) b n e).headingID ∧
      (headingVisitor r a n e).status = (headingVisitor (silent r) b n e).status := by
  obtain ⟨h1, h2, h3, h4, h5⟩ := h
  by_cases hn : n.isTocHeading = true
  · match n, hn with
    | .inner (.heading level false id) cs, _ =>
      cases e
      · rw [headingVisitor_exit, headingVisitor_exit]
        exact ⟨⟨rfl, h2, h3, h4, h5⟩, rfl, rfl⟩
      · rw [headingVisitor_enter, headingVisitor_enter]
        refine ⟨⟨rfl, rfl, ?_, ?_, h5⟩, ?_, rfl⟩
        · show a.headingCount + 1 = b.headingCount + 1
          rw [h3]
        · show (if a.minHeading = -1 ∨ level ≤ a.minHeading then level else a.minHeading) =
            (if b.minHeading = -1 ∨ level ≤ b.minHeading then level else b.minHeading)
          rw [h4]
        · show some (tocID a.headingCount) = some (tocID b.headingCount)
          rw [h3]
  · have hn' : n.isTocHeading = false := by simpa using hn
    by_cases hin : b.inHeading = true
    · have hina : a.inHeading = true := h1.trans hin
      rw [headingVisitor_other r a n e hn', headingVisitor_other (silent r) b n e hn',
        if_pos hina, if_pos hin]
      refine ⟨⟨h1, h2, h3, h4, ?_⟩, rfl, ?_⟩
      · show (r.RenderNode a.renderer n e).1 = ((silent r).RenderNode b.renderer n e).1
        rw [h5]; rfl
      · show (r.RenderNode a.renderer n e).2.2 = ((silent r).RenderNode b.renderer n e).2.2
        rw [h5]; rfl
    · have hina : ¬ a.inHeading = true := fun h => hin (h1.symm.trans h)
      rw [headingVisitor_other r a n e hn', headingVisitor_other (silent r) b n e hn',
        if_neg hina, if_neg hin]
      exact ⟨⟨h1, h2, h3, h4, h5⟩, rfl, rfl⟩

theorem runCalls_silent {ρ : Type} (r : Renderer ρ) (a b : TocState ρ)
    (calls : List (Node × Bool)) (h : sameButBuf a b) :
    sameButBuf (runCalls (headingVisitor r) a calls)
      (runCalls (headingVisitor (silent r)) b calls) := by
  induction calls generalizing a b with
  | nil => exact h
  | cons c calls ih =>
    obtain ⟨n, e⟩ := c
    rw [runCalls, runCalls]
    exact ih _ _ (headingVisitor_silent r a b n e h).1

/-- Silencing the renderer does not change the calls of the walk. -/
theorem tocCalls_silent {ρ : Type} (r : Renderer ρ) (rs : ρ) (doc : Node) :
    tocCalls (silent r) rs doc = tocCalls r rs doc := by
  have key := (WalkFunc_rel (recordCalls (headingVisitor r))
    (recordCalls (headingVisitor (silent r)))
    (fun x y => sameButBuf x.1 y.1 ∧ x.2 = y.2) (by
      intro x y n e hR
      have hs := headingVisitor_silent r x.1 y.1 n e hR.1
      refine ⟨⟨hs.1, ?_⟩, hs.2.1, hs.2.2⟩
      show x.2 ++ [(n, e)] = y.2 ++ [(n, e)]
      rw [hR.2]) doc (tocInit rs, []) (tocInit rs, [])
    ⟨⟨rfl, rfl, rfl, rfl, rfl⟩, rfl⟩).1.2
  exact key.symm

/-- What the invariant says about the level counter and the list tags in the buffer, for a
renderer that writes no list tag. -/
theorem TocInv_balance {ρ : Type} (r : Renderer ρ) (st : TocState ρ) (h : TocInv r st)
    (hn : NoListTags r) :
    0 ≤ st.tocLevel ∧
      countOcc tagUl st.buf = countOcc tagUlEnd st.buf + st.tocLevel.toNat := by
  have hUl : tagUl ∈ listTags := by simp [listTags]
  have hUlEnd : tagUlEnd ∈ listTags := by simp [listTags]
  rcases h with ⟨_, hb, ht, _, _⟩ |
    ⟨hm1, hmt, pre, run, s0, calls, hb, hpre, hend, hrun, hanch, hcnt⟩
  · rw [hb, ht]
    exact ⟨le_refl _, rfl⟩
  · refine ⟨by omega, ?_⟩
    have hrun0 : ∀ tag, tag ∈ listTags → countOcc tag run = 0 := by
      intro tag ht
      have := hn s0 calls tag ht
      rw [hrun] at this
      exact this
    rw [hb, countOcc_tag_append_end _ _ _ hUl
        (EndsClean_copies _ _ ulOpen_clean.2.2 ulOpen_clean.1),
      countOcc_tag_append_end _ _ _ hUlEnd
        (EndsClean_copies _ _ ulOpen_clean.2.2 ulOpen_clean.1),
      countOcc_tag_append_end _ _ _ hUl hend, countOcc_tag_append_end _ _ _ hUlEnd hend,
      countOcc_tag_copies _ hUl _ _ ulOpen_clean.2.1,
      countOcc_tag_copies _ hUlEnd _ _ ulOpen_clean.2.1,
      hrun0 _ hUl, hrun0 _ hUlEnd, (hcnt hn).1,
      show countOcc tagUl ulOpen = 1 by decide, show countOcc tagUlEnd ulOpen = 0 by decide]
    omega

/-- The invariant holds after every initial part of the calls of the walk. -/
theorem TocInv_tocCalls {ρ : Type} (r : Renderer ρ) (rs : ρ) (doc : Node)
    (hlev : levelsAtLeast 1 doc = true) :
    (tocWalk r rs doc).state = runCalls (headingVisitor r) (tocInit rs) (tocCalls r rs doc) ∧
      ∀ p, p <+: tocCalls r rs doc → TocInv r (runCalls (headingVisitor r) (tocInit rs) p) :=
  walkCalls_inv (headingVisitor r) (TocInv r) (fun st => st.minHeading ≠ -1)
    (levelAtLeast 1) (TocInv_henter r) (TocInv_hexit r) doc (tocInit rs) hlev
    (Or.inl ⟨rfl, rfl, rfl, rfl, rfl⟩)

/-! ## Which calls reach the renderer -/

/-- The visitor run with a renderer and with the same renderer logging its calls: everything
but the log stays the same, and so do the status and the heading id written. -/
theorem headingVisitor_logged {ρ : Type} (r : Renderer ρ) (a : TocState ρ)
    (b : TocState (ρ × List (Node × Bool))) (n : Node) (e : Bool) (h : sameButLog a b) :
    sameButLog (headingVisitor r a n e).state (headingVisitor (logged r) b n e).state ∧
      (headingVisitor r a n e).headingID = (headingVisitor (logged r) b n e).headingID ∧
      (headingVisitor r a n e).status = (headingVisitor (logged r) b n e).status := by
  obtain ⟨h0, h1, h2, h3, h4, h5⟩ := h
  by_cases hn : n.isTocHeading = true
  · match n, hn with
    | .inner (.heading level false id) cs, _ =>
      cases e
      · rw [headingVisitor_exit, headingVisitor_exit]
        refine ⟨⟨?_, rfl, h2, h3, h4, h5⟩, rfl, rfl⟩
        show a.buf ++ aClose = b.buf ++ aClose
        rw [h0]
      · rw [headingVisitor_enter, headingVisitor_enter]
        refine ⟨⟨?_, rfl, rfl, ?_, ?_, h5⟩, ?_, rfl⟩
        · show a.buf ++ levelMarkup level a.tocLevel ++ aOpen a.headingCount =
            b.buf ++ levelMarkup level b.tocLevel ++ aOpen b.headingCount
          rw [h0, h2, h3]
        · show a.headingCount + 1 = b.headingCount + 1
          rw [h3]
        · show (if a.minHeading = -1 ∨ level ≤ a.minHeading then level else a.minHeading) =
            (if b.minHeading = -1 ∨ level ≤ b.minHeading then level else b.minHeading)
          rw [h4]
        · show some (tocID a.headingCount) = some (tocID b.headingCount)
          rw [h3]
  · have hn' : n.isTocHeading = false := by simpa using hn
    by_cases hin : b.inHeading = true
    · have hina : a.inHeading = true := h1.trans hin
      rw [headingVisitor_other r a n e hn', headingVisitor_other (logged r) b n e hn',
        if_pos hina, if_pos hin]
      refine ⟨⟨?_, h1, h2, h3, h4, ?_⟩, rfl, ?_⟩
      · show a.buf ++ (r.RenderNode a.renderer n e).2.1 =
          b.buf ++ (r.RenderNode b.renderer.1 n e).2.1
        rw [h0, h5]
      · show (r.RenderNode a.renderer n e).1 = (r.RenderNode b.renderer.1 n e).1
        rw [h5]
      · show (r.RenderNode a.renderer n e).2.2 = (r.RenderNode b.renderer.1 n e).2.2
        rw [h5]
    · have hina : ¬ a.inHeading = true := fun h => hin (h1.symm.trans h)
      rw [headingVisitor_other r a n e hn', headingVisitor_other (logged r) b n e hn',
        if_neg hina, if_neg hin]
      exact ⟨⟨h0, h1, h2, h3, h4, h5⟩, rfl, rfl⟩

/-- Logging the renderer's calls changes neither the visitor's variables after the walk nor
the walked tree. -/
theorem tocWalk_logged {ρ : Type} (r : Renderer ρ) (rs : ρ) (l : List (Node × Bool))
    (doc : Node) :
    sameButLog (tocWalk r rs doc).state (tocWalk (logged r) (rs, l) doc).state ∧
      (tocWalk r rs doc).tree = (tocWalk (logged r) (rs, l) doc).tree :=
  have key := WalkFunc_rel (headingVisitor r) (headingVisitor (logged r)) sameButLog
    (fun a b n e h => headingVisitor_logged r a b n e h) doc (tocInit rs) (tocInit (rs, l))
    ⟨rfl, rfl, rfl, rfl, rfl, rfl⟩
  ⟨key.1, key.2.1⟩

/-- Logging the renderer's calls does not change the calls of the walk. -/
theorem tocCalls_logged {ρ : Type} (r : Renderer ρ) (rs : ρ) (l : List (Node × Bool))
    (doc : Node) : tocCalls (logged r) (rs, l) doc = tocCalls r rs doc := by
  have key := (WalkFunc_rel (recordCalls (headingVisitor r))
    (recordCalls (headingVisitor (logged r)))
    (fun x y => sameButLog x.1 y.1 ∧ x.2 = y.2) (by
      intro x y n e hR
      have hs := headingVisitor_logged r x.1 y.1 n e hR.1
      refine ⟨⟨hs.1, ?_⟩, hs.2.1, hs.2.2⟩
      show x.2 ++ [(n, e)] = y.2 ++ [(n, e)]
      rw [hR.2]) doc (tocInit rs, []) (tocInit (rs, l), [])
    ⟨⟨rfl, rfl, rfl, rfl, rfl, rfl⟩, rfl⟩).1.2
  exact key.symm

/-- Logging the renderer's calls does not change what `HeadingRender` returns and leaves. -/
theorem HeadingRender_logged {ρ : Type} (r : Renderer ρ) (rs : ρ) (l : List (Node × Bool))
    (doc : Node) :
    (HeadingRender (logged r) (rs, l) doc).toc = (HeadingRender r rs doc).toc ∧
      (HeadingRender (logged r) (rs, l) doc).doc = (HeadingRender r rs doc).doc ∧
      (HeadingRender (logged r) (rs, l) doc).renderer.1 = (HeadingRender r rs doc).renderer
    := by
  obtain ⟨⟨h0, _, h2, _, h4, h5⟩, ht⟩ := tocWalk_logged r rs l doc
  refine ⟨?_, ?_, ?_⟩
  · rw [HeadingRender_toc, HeadingRender_toc, h0, h2, h4]
  · rw [HeadingRender_doc, HeadingRender_doc, ht]
  · rw [HeadingRender_renderer, HeadingRender_renderer, h5]

/-- What one visitor call adds to the log: the call itself when the node is not a non-title
heading and `inHeading` is set, nothing otherwise. -/
theorem headingVisitor_log {ρ : Type} (r : Renderer ρ) (st : TocState (ρ × List (Node × Bool)))
    (n : Node) (e : Bool) :
    (headingVisitor (logged r) st n e).state.renderer.2 =
      st.renderer.2 ++ (if n.isTocHeading = false ∧ st.inHeading = true then [(n, e)] else [])
    := by
  by_cases hn : n.isTocHeading = true
  · rw [if_neg (by rw [hn]; simp)]
    match n, hn with
    | .inner (.heading level false id) cs, _ =>
      cases e
      · rw [headingVisitor_exit]; simp
      · rw [headingVisitor_enter]; simp
  · have hn' : n.isTocHeading = false := by simpa using hn
    rw [headingVisitor_other (logged r) st n e hn']
    by_cases hin : st.inHeading = true
    · rw [if_pos hin, if_pos ⟨hn', hin⟩]
      rfl
    · rw [if_neg hin, if_neg (fun h => hin h.2)]
      simp

/-- While `inHeading` is set, the last heading event was the entering of a non-title
heading: the calls so far are some calls, that entering call, and calls on nodes that are
not non-title headings. -/
theorem runCalls_inHeading {ρ : Type} (r : Renderer ρ) (s : TocState ρ)
    (hs : s.inHeading = false) (p : List (Node × Bool))
    (h : (runCalls (headingVisitor r) s p).inHeading = true) :
    ∃ (p1 : List (Node × Bool)) (hd : Node) (p2 : List (Node × Bool)),
      p = p1 ++ (hd, true) :: p2 ∧ hd.isTocHeading = true ∧
        ∀ x ∈ p2, x.1.isTocHeading = false := by
  induction p using List.reverseRecOn with
  | nil =>
    rw [runCalls, hs] at h
    exact absurd h (by simp)
  | append_singleton q c ih =>
    obtain ⟨n, e⟩ := c
    rw [runCalls_snoc] at h
    by_cases hn : n.isTocHeading = true
    · cases e
      · exfalso
        match n, hn with
        | .inner (.heading level false id) cs, _ =>
          rw [headingVisitor_exit] at h
          simp at h
      · exact ⟨q, n, [], rfl, hn, by simp⟩
    · have hn' : n.isTocHeading = false := by simpa using hn
      have hq : (runCalls (headingVisitor r) s q).inHeading = true := by
        rw [headingVisitor_other r _ n e hn'] at h
        by_cases hin : (runCalls (headingVisitor r) s q).inHeading = true
        · exact hin
        · rw [if_neg hin] at h
          exact h
      obtain ⟨p1, hd, p2, hp, hh, hall⟩ := ih hq
      refine ⟨p1, hd, p2 ++ [(n, e)], ?_, hh, ?_⟩
      · rw [hp]
        simp
      · intro x hx
        rcases List.mem_append.mp hx with hx | hx
        · exact hall x hx
        · rw [List.mem_singleton.mp hx]
          exact hn'

/-! ## Headings of one level -/

theorem countOcc_pos_of_infix (p a b : Bytes) : 0 < countOcc p (a ++ (p ++ b)) ∨ p = [] := by
  cases p with
  | nil => exact Or.inr rfl
  | cons c p' =>
    refine Or.inl ?_
    induction a with
    | nil =>
      show 0 < (if (c :: p').isPrefixOf (c :: (p' ++ b)) then 1 else 0) + countOcc (c :: p') _
      have hp : (c :: p').isPrefixOf (c :: (p' ++ b)) = true :=
        List.isPrefixOf_iff_prefix.mpr (List.prefix_append (c :: p') b)
      rw [if_pos hp]
      omega
    | cons x a ih =>
      show 0 < (if (c :: p').isPrefixOf (x :: (a ++ (c :: p' ++ b))) then 1 else 0) +
        countOcc (c :: p') (a ++ (c :: p' ++ b))
      omega

/-- An outline of two items holds an anchor close followed by an item switch. -/
theorem flatOutline_two (c0 c1 : Bytes) :
    0 < countOcc (aClose ++ liNext) (flatOutline [c0, c1]) := by
  have h := countOcc_pos_of_infix (aClose ++ liNext) (ulOpen ++ aOpen 0 ++ c0)
    (aOpen 1 ++ c1 ++ aClose ++ ulClose)
  rcases h with h | h
  · have e : flatOutline [c0, c1] =
        ulOpen ++ aOpen 0 ++ c0 ++ (aClose ++ liNext ++ (aOpen 1 ++ c1 ++ aClose ++ ulClose)) := by
      simp only [flatOutline, outlineTail, List.append_assoc, List.append_nil]
    rw [e]
    exact h
  · exact absurd h (by decide)

/-- The whole effect of one heading on the visitor's variables, written out. -/
theorem headingStep_eq {ρ : Type} (r : Renderer ρ) (st : TocState ρ) (h : Int × List Node) :
    headingStep r st h =
      { buf := st.buf ++ levelMarkup h.1 st.tocLevel ++ aOpen st.headingCount ++
          (inlineRender r st.renderer h.2).2 ++ aClose,
        inHeading := false, tocLevel := h.1, headingCount := st.headingCount + 1,
        minHeading := if st.minHeading = -1 ∨ h.1 ≤ st.minHeading then h.1 else st.minHeading,
        renderer := (inlineRender r st.renderer h.2).1 } := by
  simp only [headingStep, headingVisitor_enter]

/-- Headings of the level that is open and is the smallest so far: each adds one item. -/
theorem foldl_headingStep_level {ρ : Type} (r : Renderer ρ) (k : Int) (cs : List (List Node))
    (st : TocState ρ) (ht : st.tocLevel = k) (hm : st.minHeading = k) :
    ((cs.map (fun c => (k, c))).foldl (headingStep r) st).buf =
        st.buf ++ outlineTail st.headingCount (renderContents r st.renderer cs) ∧
      ((cs.map (fun c => (k, c))).foldl (headingStep r) st).tocLevel = k ∧
      ((cs.map (fun c => (k, c))).foldl (headingStep r) st).minHeading = k := by
  induction cs generalizing st with
  | nil => exact ⟨(List.append_nil _).symm, ht, hm⟩
  | cons c rest ih =>
    have e : headingStep r st (k, c) =
        { buf := st.buf ++ liNext ++ aOpen st.headingCount ++
            (inlineRender r st.renderer c).2 ++ aClose,
          inHeading := false, tocLevel := k, headingCount := st.headingCount + 1,
          minHeading := k, renderer := (inlineRender r st.renderer c).1 } := by
      rw [headingStep_eq]
      simp only [ht, hm, levelMarkup, if_true, le_refl, or_true]
    rw [List.map_cons, List.foldl_cons, e]
    obtain ⟨h1, h2, h3⟩ := ih
      { buf := st.buf ++ liNext ++ aOpen st.headingCount ++
          (inlineRender r st.renderer c).2 ++ aClose,
        inHeading := false, tocLevel := k, headingCount := st.headingCount + 1,
        minHeading := k, renderer := (inlineRender r st.renderer c).1 } rfl rfl
    refine ⟨?_, h2, h3⟩
    rw [h1]
    simp only [renderContents, outlineTail, List.append_assoc]

/-- The bytes returned when the buffer after the final close is the returned bytes wrapped
in `minHeading - 1` list opens and closes. -/
theorem HeadingRender_toc_wrapped {ρ : Type} (r : Renderer ρ) (rs : ρ) (doc : Node) (m : Int)
    (mid : Bytes) (hm1 : 1 ≤ m) (hmin : (tocWalk r rs doc).state.minHeading = m)
    (hbuf : (tocWalk r rs doc).state.buf ++
        copies (tocWalk r rs doc).state.tocLevel.toNat ulClose =
      copies (m - 1).toNat ulOpen ++ mid ++ copies (m - 1).toNat ulClose) :
    (HeadingRender r rs doc).toc = some mid := by
  rw [HeadingRender_toc, hbuf, hmin]
  by_cases h : m > 1
  · rw [if_pos h]
    exact slice_wrapped _ mid m (by omega)
  · rw [if_neg h]
    have e : (m - 1).toNat = 0 := by omega
    rw [e]
    simp [copies]

/-! ## Lowering the heading levels: lemmas -/

theorem Kind.shift_assign (d : Int) (kind : Kind) (id : Option String) :
    (kind.shift d).assign id = (kind.assign id).shift d := by
  cases kind with
  | other name => cases id <;> rfl
  | heading level t hid => cases id <;> cases t <;> rfl

theorem shiftLevels_isTocHeading (d : Int) (n : Node) :
    (shiftLevels d n).isTocHeading = n.isTocHeading := by
  match n with
  | .leaf _ => simp only [shiftLevels]
  | .inner (.other _) _ => simp only [shiftLevels, Kind.shift, Node.isTocHeading]
  | .inner (.heading _ true _) _ => simp only [shiftLevels, Kind.shift, Node.isTocHeading]
  | .inner (.heading _ false _) _ => simp only [shiftLevels, Kind.shift, Node.isTocHeading]

mutual
/-- The walk of the tree with lowered levels is the walk of the tree itself with a visitor
that sees every node with lowered levels. -/
theorem WalkFunc_shiftLevels {σ : Type} (v : σ → Node → Bool → Visit σ) (d : Int) :
    ∀ (n : Node) (s : σ),
      WalkFunc v s (shiftLevels d n) =
        { state := (WalkFunc (fun s n e => v s (shiftLevels d n) e) s n).state,
          tree := shiftLevels d (WalkFunc (fun s n e => v s (shiftLevels d n) e) s n).tree,
          status := (WalkFunc (fun s n e => v s (shiftLevels d n) e) s n).status }
  | .leaf literal, s => by
    simp only [shiftLevels, WalkFunc_leaf]
  | .inner kind children, s => by
    have hc := walkChildren_shiftLevels v d children
    have e1 : shiftLevels d (.inner kind children) =
        .inner (kind.shift d) (shiftLevelsList d children) := by simp only [shiftLevels]
    rw [e1, WalkFunc_inner, WalkFunc_inner]
    simp only [e1, hc, Kind.shift_assign]
    by_cases h1 : (v s (.inner (kind.shift d) (shiftLevelsList d children)) true).status
        = .Terminate
    · simp only [if_pos h1, shiftLevels]
    · simp only [if_neg h1]
      by_cases h2 : (v s (.inner (kind.shift d) (shiftLevelsList d children)) true).status
          = .SkipChildren
      · simp only [if_pos h2, shiftLevels]
      · simp only [if_neg h2]
        split
        · simp only [shiftLevels]
        · simp only [shiftLevels, Kind.shift_assign]
theorem walkChildren_shiftLevels {σ : Type} (v : σ → Node → Bool → Visit σ) (d : Int) :
    ∀ (ns : List Node) (s : σ),
      walkChildren v s (shiftLevelsList d ns) =
        { state := (walkChildren (fun s n e => v s (shiftLevels d n) e) s ns).state,
          tree := shiftLevelsList d
            (walkChildren (fun s n e => v s (shiftLevels d n) e) s ns).tree,
          status := (walkChildren (fun s n e => v s (shiftLevels d n) e) s ns).status }
  | [], s => by
    simp only [shiftLevelsList, walkChildren_nil]
  | n :: rest, s => by
    have h1 := WalkFunc_shiftLevels v d n
    have h2 := walkChildren_shiftLevels v d rest
    have e1 : shiftLevelsList d (n :: rest) = shiftLevels d n :: shiftLevelsList d rest := by
      simp only [shiftLevelsList]
    rw [e1, walkChildren_cons, walkChildren_cons]
    simp only [h1, h2]
    split
    · simp only [shiftLevelsList]
    · simp only [shiftLevelsList]
end

mutual
/-- Two visitors that keep a relation between their states, and return the same status and
heading id when their states are related, walk a tree in step. Entering calls are only made
on nodes of the tree (so `q` may be assumed); an exit call on a non-title heading is only
made after that heading was entered, which `S` records. -/
theorem WalkFunc_relInv {σ₁ σ₂ : Type} (v₁ : σ₁ → Node → Bool → Visit σ₁)
    (v₂ : σ₂ → Node → Bool → Visit σ₂) (R : σ₁ → σ₂ → Prop) (S : σ₁ → Prop) (q : Node → Bool)
    (henter : ∀ s₁ s₂ n, q n = true → R s₁ s₂ →
      (R (v₁ s₁ n true).state (v₂ s₂ n true).state ∧
        (v₁ s₁ n true).headingID = (v₂ s₂ n true).headingID ∧
        (v₁ s₁ n true).status = (v₂ s₂ n true).status) ∧
      (n.isTocHeading = true → S (v₁ s₁ n true).state) ∧
      (S s₁ → S (v₁ s₁ n true).state))
    (hexit : ∀ s₁ s₂ n, R s₁ s₂ → (n.isTocHeading = true → S s₁) →
      (R (v₁ s₁ n false).state (v₂ s₂ n false).state ∧
        (v₁ s₁ n false).headingID = (v₂ s₂ n false).headingID ∧
        (v₁ s₁ n false).status = (v₂ s₂ n false).status) ∧
      (S s₁ → S (v₁ s₁ n false).state)) :
    ∀ (n : Node) (s₁ : σ₁) (s₂ : σ₂), allNodes q n = true → R s₁ s₂ →
      (R (WalkFunc v₁ s₁ n).state (WalkFunc v₂ s₂ n).state ∧
        (WalkFunc v₁ s₁ n).tree = (WalkFunc v₂ s₂ n).tree ∧
        (WalkFunc v₁ s₁ n).status = (WalkFunc v₂ s₂ n).status) ∧
      (S s₁ → S (WalkFunc v₁ s₁ n).state)
  | .leaf literal, s₁, s₂, hq, hR => by
    simp only [allNodes] at hq
    have he := henter s₁ s₂ (.leaf literal) hq hR
    rw [WalkFunc_leaf, WalkFunc_leaf, he.1.2.2]
    exact ⟨⟨he.1.1, rfl, rfl⟩, he.2.2⟩
  | .inner kind children, s₁, s₂, hq, hR => by
    simp only [allNodes, Bool.and_eq_true] at hq
    have he := henter s₁ s₂ (.inner kind children) hq.1 hR
    have hc := walkChildren_relInv v₁ v₂ R S q henter hexit children _ _ hq.2 he.1.1
    rw [WalkFunc_inner, WalkFunc_inner, he.1.2.2]
    by_cases h1 : (v₂ s₂ (.inner kind children) true).status = .Terminate
    · simp only [if_pos h1]
      exact ⟨⟨he.1.1, by rw [he.1.2.1], trivial⟩, he.2.2⟩
    · simp only [if_neg h1]
      by_cases h2 : (v₂ s₂ (.inner kind children) true).status = .SkipChildren
      · simp only [if_pos h2]
        exact ⟨⟨he.1.1, by rw [he.1.2.1], trivial⟩, he.2.2⟩
      · simp only [if_neg h2]
        rw [hc.1.2.2]
        by_cases h3 : (walkChildren v₂ (v₂ s₂ (.inner kind children) true).state
            children).status = .Terminate
        · simp only [if_pos h3]
          exact ⟨⟨hc.1.1, by rw [he.1.2.1, hc.1.2.1], trivial⟩, fun hs => hc.2 (he.2.2 hs)⟩
        · simp only [if_neg h3]
          have hx := hexit (walkChildren v₁ (v₁ s₁ (.inner kind children) true).state
              children).state
            (walkChildren v₂ (v₂ s₂ (.inner kind children) true).state children).state
            (.inner (kind.assign (v₁ s₁ (.inner kind children) true).headingID)
              (walkChildren v₁ (v₁ s₁ (.inner kind children) true).state children).tree)
            hc.1.1
            (fun ht => hc.2 (he.2.1 (by
              rw [← ht]; exact (Kind.assign_isTocHeading _ _ _ _).symm)))
          rw [he.1.2.1, hc.1.2.1] at hx
          rw [he.1.2.1, hc.1.2.1, hx.1.2.1, hx.1.2.2]
          exact ⟨⟨hx.1.1, rfl, rfl⟩, fun hs => hx.2 (hc.2 (he.2.2 hs))⟩
theorem walkChildren_relInv {σ₁ σ₂ : Type} (v₁ : σ₁ → Node → Bool → Visit σ₁)
    (v₂ : σ₂ → Node → Bool → Visit σ₂) (R : σ₁ → σ₂ → Prop) (S : σ₁ → Prop) (q : Node → Bool)
    (henter : ∀ s₁ s₂ n, q n = true → R s₁ s₂ →
      (R (v₁ s₁ n true).state (v₂ s₂ n true).state ∧
        (v₁ s₁ n true).headingID = (v₂ s₂ n true).headingID ∧
        (v₁ s₁ n true).status = (v₂ s₂ n true).status) ∧
      (n.isTocHeading = true → S (v₁ s₁ n true).state) ∧
      (S s₁ → S (v₁ s₁ n true).state))
    (hexit : ∀ s₁ s₂ n, R s₁ s₂ → (n.isTocHeading = true → S s₁) →
      (R (v₁ s₁ n false).state (v₂ s₂ n false).state ∧
        (v₁ s₁ n false).headingID = (v₂ s₂ n false).headingID ∧
        (v₁ s₁ n false).status = (v₂ s₂ n false).status) ∧
      (S s₁ → S (v₁ s₁ n false).state)) :
    ∀ (ns : List Node) (s₁ : σ₁) (s₂ : σ₂), allNodesList q ns = true → R s₁ s₂ →
      (R (walkChildren v₁ s₁ ns).state (walkChildren v₂ s₂ ns).state ∧
        (walkChildren v₁ s₁ ns).tree = (walkChildren v₂ s₂ ns).tree ∧
        (walkChildren v₁ s₁ ns).status = (walkChildren v₂ s₂ ns).status) ∧
      (S s₁ → S (walkChildren v₁ s₁ ns).state)
  | [], s₁, s₂, _, hR => by
    rw [walkChildren_nil, walkChildren_nil]
    exact ⟨⟨hR, rfl, rfl⟩, id⟩
  | n :: rest, s₁, s₂, hq, hR => by
    simp only [allNodesList, Bool.and_eq_true] at hq
    have h1 := WalkFunc_relInv v₁ v₂ R S q henter hexit n s₁ s₂ hq.1 hR
    have h2 := walkChildren_relInv v₁ v₂ R S q henter hexit rest _ _ hq.2 h1.1.1
    rw [walkChildren_cons, walkChildren_cons, h1.1.2.2]
    by_cases ht : (WalkFunc v₂ s₂ n).status = .Terminate
    · simp only [if_pos ht]
      exact ⟨⟨h1.1.1, by rw [h1.1.2.1], trivial⟩, h1.2⟩
    · simp only [if_neg ht]
      exact ⟨⟨h2.1.1, by rw [h1.1.2.1, h2.1.2.1], h2.1.2.2⟩, fun hs => h2.2 (h1.2 hs)⟩
end

/-- The list markup on entering a heading depends on the two levels only through their
difference. -/
theorem levelMarkup_shift (l t d : Int) : levelMarkup l (t + d) = levelMarkup (l - d) t := by
  unfold levelMarkup
  by_cases h1 : l = t + d
  · rw [if_pos h1, if_pos (show l - d = t by omega)]
  · rw [if_neg h1, if_neg (show ¬ l - d = t by omega)]
    by_cases h2 : l < t + d
    · rw [if_pos h2, if_pos (show l - d < t by omega)]
      congr 2
      omega
    · rw [if_neg h2, if_neg (show ¬ l - d < t by omega)]
      congr 1
      omega

theorem levelMarkup_zero_shift (l d : Int) (hd : 0 ≤ d) (hl : d + 1 ≤ l) :
    levelMarkup l 0 = copies d.toNat ulOpen ++ levelMarkup (l - d) 0 := by
  unfold levelMarkup
  rw [if_neg (show ¬ l = 0 by omega), if_neg (show ¬ l < 0 by omega),
    if_neg (show ¬ l - d = 0 by omega), if_neg (show ¬ l - d < 0 by omega), ← copies_add]
  congr 1
  omega

/-- Entering a non-title heading keeps the two walks in step. -/
theorem headingVisitor_shift_enter {ρ : Type} (r : Renderer ρ) (d : Int) (hd : 0 ≤ d)
    (a b : TocState ρ) (l : Int) (id : String) (cs cs' : List Node) (hl : d + 1 ≤ l)
    (hR : shiftedBy d a b) :
    shiftedBy d (headingVisitor r a (.inner (.heading l false id) cs) true).state
        (headingVisitor r b (.inner (.heading (l - d) false id) cs') true).state ∧
      (headingVisitor r a (.inner (.heading l false id) cs) true).headingID =
        (headingVisitor r b (.inner (.heading (l - d) false id) cs') true).headingID ∧
      (headingVisitor r a (.inner (.heading l false id) cs) true).state.minHeading ≠ -1 := by
  obtain ⟨h1, h2, h3, h4⟩ := hR
  rw [headingVisitor_enter, headingVisitor_enter]
  refine ⟨⟨rfl, ?_, h3, Or.inr ?_⟩, ?_, ?_⟩
  · show a.headingCount + 1 = b.headingCount + 1
    rw [h2]
  · show 1 ≤ (if b.minHeading = -1 ∨ l - d ≤ b.minHeading then l - d else b.minHeading) ∧
      0 ≤ l - d ∧
      (if a.minHeading = -1 ∨ l ≤ a.minHeading then l else a.minHeading) =
        (if b.minHeading = -1 ∨ l - d ≤ b.minHeading then l - d else b.minHeading) + d ∧
      l = l - d + d ∧
      a.buf ++ levelMarkup l a.tocLevel ++ aOpen a.headingCount =
        copies d.toNat ulOpen ++ (b.buf ++ levelMarkup (l - d) b.tocLevel ++ aOpen b.headingCount)
    rcases h4 with ⟨ha, hb, hta, htb, hba, hbb, _⟩ | ⟨hb1, _, hab, htab, hbuf⟩
    · rw [ha, hb, hta, htb, hba, hbb, h2, levelMarkup_zero_shift l d hd hl]
      simp only [true_or, if_true, List.nil_append, List.append_assoc]
      refine ⟨by omega, by omega, by omega, by omega, trivial⟩
    · rw [hab, htab, hbuf, h2, levelMarkup_shift]
      simp only [List.append_assoc]
      refine ⟨?_, by omega, ?_, by omega, trivial⟩
      · split <;> omega
      · by_cases hle : l - d ≤ b.minHeading
        · rw [if_pos (Or.inr (by omega)), if_pos (Or.inr hle)]
          omega
        · rw [if_neg (by omega), if_neg (by omega)]
  · show some (tocID a.headingCount) = some (tocID b.headingCount)
    rw [h2]
  · show (if a.minHeading = -1 ∨ l ≤ a.minHeading then l else a.minHeading) ≠ -1
    split
    · omega
    · rename_i h
      exact fun e => h (Or.inl e)

/-- A call on a node that is not a non-title heading keeps the two walks in step, for a
renderer that does not look at the levels beneath the node. -/
theorem headingVisitor_shift_other {ρ : Type} (r : Renderer ρ) (d : Int)
    (hblind : LevelBlind r d) (a b : TocState ρ) (n : Node) (e : Bool)
    (hn : n.isTocHeading = false) (hR : shiftedBy d a b) :
    shiftedBy d (headingVisitor r a n e).state
        (headingVisitor r b (shiftLevels d n) e).state ∧
      (headingVisitor r a n e).headingID = (headingVisitor r b (shiftLevels d n) e).headingID ∧
      (headingVisitor r a n e).status = (headingVisitor r b (shiftLevels d n) e).status ∧
      (headingVisitor r a n e).state.minHeading = a.minHeading := by
  obtain ⟨h1, h2, h3, h4⟩ := hR
  have hn' : (shiftLevels d n).isTocHeading = false := by
    rw [shiftLevels_isTocHeading]; exact hn
  rw [headingVisitor_other r a n e hn, headingVisitor_other r b _ e hn', hblind _ n e hn]
  by_cases hin : b.inHeading = true
  · have hina : a.inHeading = true := h1.trans hin
    rw [if_pos hina, if_pos hin]
    refine ⟨⟨h1, h2, ?_, ?_⟩, rfl, ?_, rfl⟩
    · show (r.RenderNode a.renderer n e).1 = (r.RenderNode b.renderer n e).1
      rw [h3]
    · rcases h4 with ⟨_, _, _, _, _, _, hf⟩ | ⟨hb1, hb0, hab, htab, hbuf⟩
      · rw [hf] at hina
        exact absurd hina (by simp)
      · refine Or.inr ⟨hb1, hb0, hab, htab, ?_⟩
        show a.buf ++ (r.RenderNode a.renderer n e).2.1 =
          copies d.toNat ulOpen ++ (b.buf ++ (r.RenderNode b.renderer n e).2.1)
        rw [hbuf, h3, List.append_assoc]
    · show (r.RenderNode a.renderer n e).2.2 = (r.RenderNode b.renderer n e).2.2
      rw [h3]
  · have hina : ¬ a.inHeading = true := fun h => hin (h1.symm.trans h)
    rw [if_neg hina, if_neg hin]
    exact ⟨⟨h1, h2, h3, h4⟩, rfl, rfl, rfl⟩

/-- Leaving a non-title heading that was entered keeps the two walks in step. -/
theorem headingVisitor_shift_exit {ρ : Type} (r : Renderer ρ) (d : Int)
    (a b : TocState ρ) (l l' : Int) (id id' : String) (cs cs' : List Node)
    (hs : a.minHeading ≠ -1) (hR : shiftedBy d a b) :
    shiftedBy d (headingVisitor r a (.inner (.heading l false id) cs) false).state
      (headingVisitor r b (.inner (.heading l' false id') cs') false).state := by
  obtain ⟨h1, h2, h3, h4⟩ := hR
  rw [headingVisitor_exit, headingVisitor_exit]
  refine ⟨rfl, h2, h3, ?_⟩
  rcases h4 with ⟨ha, _⟩ | ⟨hb1, hb0, hab, htab, hbuf⟩
  · exact absurd ha hs
  · refine Or.inr ⟨hb1, hb0, hab, htab, ?_⟩
    show a.buf ++ aClose = copies d.toNat ulOpen ++ (b.buf ++ aClose)
    rw [hbuf, List.append_assoc]

theorem levelAtLeast_shift (d m : Int) (kind : Kind) (cs cs' : List Node)
    (h : levelAtLeast (m + d) (.inner kind cs) = true) :
    levelAtLeast m (.inner (kind.shift d) cs') = true := by
  match kind, h with
  | .other _, _ => rfl
  | .heading _ true _, _ => rfl
  | .heading l false _, h =>
    simp only [levelAtLeast, decide_eq_true_eq] at h
    simp only [Kind.shift, levelAtLeast, decide_eq_true_eq]
    omega

mutual
theorem allNodes_levelAtLeast_shift (d m : Int) :
    ∀ (n : Node), allNodes (levelAtLeast (m + d)) n = true →
      allNodes (levelAtLeast m) (shiftLevels d n) = true
  | .leaf literal, _ => by
    simp only [shiftLevels, allNodes, levelAtLeast]
  | .inner kind children, h => by
    simp only [allNodes, Bool.and_eq_true] at h
    simp only [shiftLevels, allNodes, Bool.and_eq_true]
    exact ⟨levelAtLeast_shift d m kind children _ h.1,
      allNodesList_levelAtLeast_shift d m children h.2⟩
theorem allNodesList_levelAtLeast_shift (d m : Int) :
    ∀ (ns : List Node), allNodesList (levelAtLeast (m + d)) ns = true →
      allNodesList (levelAtLeast m) (shiftLevelsList d ns) = true
  | [], _ => by
    simp only [shiftLevelsList, allNodesList]
  | n :: rest, h => by
    simp only [allNodesList, Bool.and_eq_true] at h
    simp only [shiftLevelsList, allNodesList, Bool.and_eq_true]
    exact ⟨allNodes_levelAtLeast_shift d m n h.1,
      allNodesList_levelAtLeast_shift d m rest h.2⟩
end

theorem tocEntry_shift (d : Int) (kind : Kind) (cs cs' : List Node) :
    tocEntry (.inner (kind.shift d) cs') =
      (tocEntry (.inner kind cs)).map (fun p => (p.1 - d, p.2)) := by
  match kind with
  | .other _ => rfl
  | .heading _ true _ => rfl
  | .heading _ false _ => rfl

mutual
/-- The non-title headings of the tree with lowered levels: the same ids, the levels
lowered. -/
theorem collect_tocEntry_shift (d : Int) :
    ∀ (n : Node), collect tocEntry (shiftLevels d n) =
      (collect tocEntry n).map (fun p => (p.1 - d, p.2))
  | .leaf literal => by
    simp only [shiftLevels, collect, tocEntry, List.map_nil]
  | .inner kind children => by
    simp only [shiftLevels, collect, List.map_append,
      collectList_tocEntry_shift d children, tocEntry_shift d kind children]
theorem collectList_tocEntry_shift (d : Int) :
    ∀ (ns : List Node), collectList tocEntry (shiftLevelsList d ns) =
      (collectList tocEntry ns).map (fun p => (p.1 - d, p.2))
  | [] => by
    simp only [shiftLevelsList, collectList, List.map_nil]
  | n :: rest => by
    simp only [shiftLevelsList, collectList, List.map_append, collect_tocEntry_shift d n,
      collectList_tocEntry_shift d rest]
end

theorem tocHeadingIDs_shift (d : Int) (n : Node) :
    tocHeadingIDs (shiftLevels d n) = tocHeadingIDs n := by
  unfold tocHeadingIDs
  rw [collect_tocEntry_shift, List.map_map]
  rfl

theorem tocLevels_shift (d : Int) (n : Node) :
    tocLevels (shiftLevels d n) = (tocLevels n).map (fun l => l - d) := by
  unfold tocLevels
  rw [collect_tocEntry_shift, List.map_map, List.map_map]
  rfl

/-- The walk of `HeadingRender` on a tree and on the tree with the levels lowered by `d`,
when every level is above `d` and the renderer does not look at the levels: the visitor's
variables stay in step, and the walked trees differ by the lowering of levels only. -/
theorem tocWalk_shift {ρ : Type} (r : Renderer ρ) (rs : ρ) (doc : Node) (d : Int)
    (hd : 0 ≤ d) (hlev : levelsAtLeast (d + 1) doc = true) (hblind : LevelBlind r d) :
    shiftedBy d (tocWalk r rs doc).state (tocWalk r rs (shiftLevels d doc)).state ∧
      (tocWalk r rs (shiftLevels d doc)).tree = shiftLevels d (tocWalk r rs doc).tree := by
  have key := (WalkFunc_relInv (headingVisitor r)
    (fun s n e => headingVisitor r s (shiftLevels d n) e) (shiftedBy d)
    (fun a => a.minHeading ≠ -1) (levelAtLeast (d + 1)) ?_ ?_ doc (tocInit rs) (tocInit rs)
    hlev ⟨rfl, rfl, rfl, Or.inl ⟨rfl, rfl, rfl, rfl, rfl, rfl, rfl⟩⟩).1
  · unfold tocWalk
    rw [WalkFunc_shiftLevels]
    exact ⟨key.1, by rw [key.2.1]⟩
  · intro a b n hq hR
    by_cases hn : n.isTocHeading = true
    · match n, hn, hq with
      | .inner (.heading l false id) cs, _, hq =>
        simp only [levelAtLeast, decide_eq_true_eq] at hq
        have h := headingVisitor_shift_enter r d hd a b l id cs (shiftLevelsList d cs) hq hR
        have e : shiftLevels d (.inner (.heading l false id) cs) =
            .inner (.heading (l - d) false id) (shiftLevelsList d cs) := by
          simp only [shiftLevels, Kind.shift]
        simp only [e]
        refine ⟨⟨h.1, h.2.1, ?_⟩, fun _ => h.2.2, fun _ => h.2.2⟩
        rw [headingVisitor_enter, headingVisitor_enter]
    · have hn' : n.isTocHeading = false := by simpa using hn
      have h := headingVisitor_shift_other r d hblind a b n true hn' hR
      refine ⟨⟨h.1, h.2.1, h.2.2.1⟩, fun ht => absurd ht hn, fun hs => ?_⟩
      show (headingVisitor r a n true).state.minHeading ≠ -1
      rw [h.2.2.2]
      exact hs
  · intro a b n hR hS
    by_cases hn : n.isTocHeading = true
    · match n, hn, hS with
      | .inner (.heading l false id) cs, _, hS =>
        have e : shiftLevels d (.inner (.heading l false id) cs) =
            .inner (.heading (l - d) false id) (shiftLevelsList d cs) := by
          simp only [shiftLevels, Kind.shift]
        simp only [e]
        refine ⟨⟨headingVisitor_shift_exit r d a b l (l - d) id id cs _ (hS rfl) hR, ?_, ?_⟩,
          fun hs => ?_⟩
        · rw [headingVisitor_exit, headingVisitor_exit]
        · rw [headingVisitor_exit, headingVisitor_exit]
        · rw [headingVisitor_exit]
          exact hs
    · have hn' : n.isTocHeading = false := by simpa using hn
      have h := headingVisitor_shift_other r d hblind a b n false hn' hR
      refine ⟨⟨h.1, h.2.1, h.2.2.1⟩, fun hs => ?_⟩
      show (headingVisitor r a n false).state.minHeading ≠ -1
      rw [h.2.2.2]
      exact hs

/-- The bytes returned for the tree with lowered levels are the bytes returned for the tree
itself. -/
theorem HeadingRender_toc_shift {ρ : Type} (r : Renderer ρ) (rs : ρ) (doc : Node) (d : Int)
    (hd : 0 ≤ d) (hlev : levelsAtLeast (d + 1) doc = true) (hblind : LevelBlind r d) :
    (HeadingRender r rs (shiftLevels d doc)).toc = (HeadingRender r rs doc).toc := by
  obtain ⟨⟨_, _, _, h4⟩, _⟩ := tocWalk_shift r rs doc d hd hlev hblind
  rcases h4 with ⟨ha, hb, hta, htb, hba, hbb, _⟩ | ⟨hb1, hb0, hab, htab, hbuf⟩
  · rw [HeadingRender_toc, HeadingRender_toc, ha, hb, hta, htb, hba, hbb]
  · have hlev1 : levelsAtLeast 1 (shiftLevels d doc) = true :=
      allNodes_levelAtLeast_shift d 1 doc (by rw [Int.add_comm]; exact hlev)
    rcases HeadingRender_of_TocInv r rs _ (TocInv_tocWalk r rs _ hlev1) with
      ⟨hm, _⟩ | ⟨_, pre, run, j, _, _, _, _, _, hdec, htoc⟩
    · rw [hm] at hb1
      exact absurd hb1 (by decide)
    · rw [htoc]
      symm
      refine HeadingRender_toc_wrapped r rs doc
        ((tocWalk r rs (shiftLevels d doc)).state.minHeading + d) _ (by omega) hab ?_
      have e1 : ((tocWalk r rs (shiftLevels d doc)).state.tocLevel + d).toNat =
          (tocWalk r rs (shiftLevels d doc)).state.tocLevel.toNat + d.toNat := by omega
      have e2 : ((tocWalk r rs (shiftLevels d doc)).state.minHeading + d - 1).toNat =
          d.toNat + ((tocWalk r rs (shiftLevels d doc)).state.minHeading - 1).toNat := by omega
      have e3 : d.toNat + ((tocWalk r rs (shiftLevels d doc)).state.minHeading - 1).toNat =
          ((tocWalk r rs (shiftLevels d doc)).state.minHeading - 1).toNat + d.toNat :=
        Nat.add_comm _ _
      have c1 : copies ((tocWalk r rs (shiftLevels d doc)).state.tocLevel + d).toNat ulClose =
          copies (tocWalk r rs (shiftLevels d doc)).state.tocLevel.toNat ulClose ++
            copies d.toNat ulClose := by rw [e1, copies_add]
      have c2 : copies ((tocWalk r rs (shiftLevels d doc)).state.minHeading + d - 1).toNat
            ulOpen =
          copies d.toNat ulOpen ++
            copies ((tocWalk r rs (shiftLevels d doc)).state.minHeading - 1).toNat ulOpen := by
        rw [e2, copies_add]
      have c3 : copies ((tocWalk r rs (shiftLevels d doc)).state.minHeading + d - 1).toNat
            ulClose =
          copies ((tocWalk r rs (shiftLevels d doc)).state.minHeading - 1).toNat ulClose ++
            copies d.toNat ulClose := by
        rw [e2, e3, copies_add]
      rw [hbuf, htab, c1, c2, c3]
      have step : copies d.toNat ulOpen ++ (tocWalk r rs (shiftLevels d doc)).state.buf ++
          (copies (tocWalk r rs (shiftLevels d doc)).state.tocLevel.toNat ulClose ++
            copies d.toNat ulClose) =
          copies d.toNat ulOpen ++ ((tocWalk r rs (shiftLevels d doc)).state.buf ++
            copies (tocWalk r rs (shiftLevels d doc)).state.tocLevel.toNat ulClose) ++
            copies d.toNat ulClose := by
        simp only [List.append_assoc]
      rw [step, hdec]
      simp only [List.append_assoc]

theorem textRenderer_levelBlind (d : Int) : LevelBlind textRenderer d := by
  intro rs n e _
  cases n with
  | leaf literal => simp only [shiftLevels]
  | inner kind children => simp only [shiftLevels, textRenderer]

theorem sampleRenderer_levelBlind (d : Int) : LevelBlind sampleRenderer d := by
  intro rs n e _
  match n with
  | .leaf literal => simp only [shiftLevels]
  | .inner (.other name) children => simp only [shiftLevels, Kind.shift, sampleRenderer]
  | .inner (.heading l true id) children => simp only [shiftLevels, Kind.shift, sampleRenderer]
  | .inner (.heading l false id) children => simp only [shiftLevels, Kind.shift, sampleRenderer]

/-! ## The inline output, run by run -/

/-- A call on a node that is not a non-title heading appends what it writes and leaves the
level as it is. -/
theorem headingVisitor_written {ρ : Type} (r : Renderer ρ) (st : TocState ρ) (n : Node)
    (e : Bool) (hn : n.isTocHeading = false) :
    (headingVisitor r st n e).state.buf = st.buf ++ written r st n e ∧
      (headingVisitor r st n e).state.tocLevel = st.tocLevel := by
  unfold written
  rw [headingVisitor_other r st n e hn, headingVisitor_other r _ n e hn]
  by_cases hin : st.inHeading = true
  · simp only [hin, if_true, List.nil_append, and_self]
  · simp only [hin, Bool.false_eq_true, if_false, List.append_nil, and_self]

theorem TocInv_tocLevel_nonneg {ρ : Type} (r : Renderer ρ) (st : TocState ρ)
    (h : TocInv r st) : 0 ≤ st.tocLevel := by
  rcases h with ⟨_, _, ht, _⟩ | ⟨h1, h2, _⟩
  · rw [ht]
  · omega

/-- Over a sequence of visitor calls after each of which the level is at least 0 and whose
inline runs hold no list tag: when the buffer before is a part that ends with `>` and has
`tocLevel` more opens than closes of lists and of items, followed by the run written so
far, then the buffer after has `tocLevel` more opens than closes of lists and of items. -/
theorem runCalls_balanced {ρ : Type} (r : Renderer ρ) :
    ∀ (calls : List (Node × Bool)) (st : TocState ρ) (X cur : Bytes),
      st.buf = X ++ cur → EndsClean X →
      countOcc tagUl X = countOcc tagUlEnd X + st.tocLevel.toNat →
      countOcc tagLi X = countOcc tagLiEnd X + st.tocLevel.toNat →
      (∀ p, p <+: calls → 0 ≤ (runCalls (headingVisitor r) st p).tocLevel) →
      (∀ run ∈ inlineRunsFrom r st cur calls, ∀ tag ∈ listTags, countOcc tag run = 0) →
      countOcc tagUl (runCalls (headingVisitor r) st calls).buf =
          countOcc tagUlEnd (runCalls (headingVisitor r) st calls).buf +
            (runCalls (headingVisitor r) st calls).tocLevel.toNat ∧
        countOcc tagLi (runCalls (headingVisitor r) st calls).buf =
          countOcc tagLiEnd (runCalls (headingVisitor r) st calls).buf +
            (runCalls (headingVisitor r) st calls).tocLevel.toNat
  | [], st, X, cur, hb, hX, hul, hli, _, hclean => by
    have hUl : tagUl ∈ listTags := by simp [listTags]
    have hUlEnd : tagUlEnd ∈ listTags := by simp [listTags]
    have hLi : tagLi ∈ listTags := by simp [listTags]
    have hLiEnd : tagLiEnd ∈ listTags := by simp [listTags]
    have hc : ∀ tag ∈ listTags, countOcc tag cur = 0 :=
      hclean cur (by simp [inlineRunsFrom])
    show countOcc tagUl st.buf = countOcc tagUlEnd st.buf + st.tocLevel.toNat ∧
      countOcc tagLi st.buf = countOcc tagLiEnd st.buf + st.tocLevel.toNat
    rw [hb, countOcc_tag_append_end _ _ _ hUl hX, countOcc_tag_append_end _ _ _ hUlEnd hX,
      countOcc_tag_append_end _ _ _ hLi hX, countOcc_tag_append_end _ _ _ hLiEnd hX,
      hc _ hUl, hc _ hUlEnd, hc _ hLi, hc _ hLiEnd]
    exact ⟨hul, hli⟩
  | (n, e) :: calls, st, X, cur, hb, hX, hul, hli, hpos, hclean => by
    have hUl : tagUl ∈ listTags := by simp [listTags]
    have hUlEnd : tagUlEnd ∈ listTags := by simp [listTags]
    have hLi : tagLi ∈ listTags := by simp [listTags]
    have hLiEnd : tagLiEnd ∈ listTags := by simp [listTags]
    have hpos' : ∀ p, p <+: calls →
        0 ≤ (runCalls (headingVisitor r) (headingVisitor r st n e).state p).tocLevel := by
      intro p hp
      exact hpos ((n, e) :: p) ((List.prefix_cons_inj (n, e)).mpr hp)
    have hpos0 : 0 ≤ (headingVisitor r st n e).state.tocLevel := hpos' [] List.nil_prefix
    have ht0 : 0 ≤ st.tocLevel := hpos [] List.nil_prefix
    show countOcc tagUl (runCalls (headingVisitor r) (headingVisitor r st n e).state calls).buf =
        countOcc tagUlEnd
            (runCalls (headingVisitor r) (headingVisitor r st n e).state calls).buf +
          (runCalls (headingVisitor r) (headingVisitor r st n e).state calls).tocLevel.toNat ∧
      countOcc tagLi (runCalls (headingVisitor r) (headingVisitor r st n e).state calls).buf =
        countOcc tagLiEnd
            (runCalls (headingVisitor r) (headingVisitor r st n e).state calls).buf +
          (runCalls (headingVisitor r) (headingVisitor r st n e).state calls).tocLevel.toNat
    by_cases hn : n.isTocHeading = true
    · have hruns : inlineRunsFrom r st cur ((n, e) :: calls) =
          cur :: inlineRunsFrom r (headingVisitor r st n e).state [] calls := by
        simp only [inlineRunsFrom, hn, if_true]
      rw [hruns] at hclean
      have hc : ∀ tag ∈ listTags, countOcc tag cur = 0 := hclean cur (List.mem_cons_self _ _)
      have hrest : ∀ run ∈ inlineRunsFrom r (headingVisitor r st n e).state [] calls,
          ∀ tag ∈ listTags, countOcc tag run = 0 :=
        fun run hr => hclean run (List.mem_cons_of_mem _ hr)
      refine runCalls_balanced r calls _ (headingVisitor r st n e).state.buf []
        (List.append_nil _).symm ?_ ?_ ?_ hpos' hrest
      · match n, hn with
        | .inner (.heading level false id) cs, _ =>
          cases e
          · rw [headingVisitor_exit]
            exact EndsClean_append _ _ aClose_clean.2.2 aClose_clean.1
          · rw [headingVisitor_enter]
            exact EndsClean_append _ _ (aOpen_clean _).2.2 (aOpen_clean _).1
      · match n, hn, hpos0 with
        | .inner (.heading level false id) cs, _, hpos0 =>
          cases e
          · rw [headingVisitor_exit]
            show countOcc tagUl (st.buf ++ aClose) =
              countOcc tagUlEnd (st.buf ++ aClose) + st.tocLevel.toNat
            rw [countOcc_tag_append_start _ _ _ hUl aClose_clean.2.1,
              countOcc_tag_append_start _ _ _ hUlEnd aClose_clean.2.1, hb,
              countOcc_tag_append_end _ _ _ hUl hX, countOcc_tag_append_end _ _ _ hUlEnd hX,
              hc _ hUl, hc _ hUlEnd, show countOcc tagUl aClose = 0 by decide,
              show countOcc tagUlEnd aClose = 0 by decide]
            omega
          · rw [headingVisitor_enter] at hpos0 ⊢
            have hl : 0 ≤ level := hpos0
            show countOcc tagUl (st.buf ++ levelMarkup level st.tocLevel ++
                aOpen st.headingCount) =
              countOcc tagUlEnd (st.buf ++ levelMarkup level st.tocLevel ++
                aOpen st.headingCount) + level.toNat
            rw [countOcc_tag_append_start _ _ _ hUl (aOpen_clean _).2.1,
              countOcc_tag_append_start _ _ _ hUlEnd (aOpen_clean _).2.1,
              countOcc_tag_append_start _ _ _ hUl (levelMarkup_clean _ _).2,
              countOcc_tag_append_start _ _ _ hUlEnd (levelMarkup_clean _ _).2, hb,
              countOcc_tag_append_end _ _ _ hUl hX, countOcc_tag_append_end _ _ _ hUlEnd hX,
              hc _ hUl, hc _ hUlEnd, aOpen_no_tag _ hUl, aOpen_no_tag _ hUlEnd,
              (countOcc_levelMarkup level st.tocLevel).1,
              (countOcc_levelMarkup level st.tocLevel).2.1]
            omega
      · match n, hn, hpos0 with
        | .inner (.heading level false id) cs, _, hpos0 =>
          cases e
          · rw [headingVisitor_exit]
            show countOcc tagLi (st.buf ++ aClose) =
              countOcc tagLiEnd (st.buf ++ aClose) + st.tocLevel.toNat
            rw [countOcc_tag_append_start _ _ _ hLi aClose_clean.2.1,
              countOcc_tag_append_start _ _ _ hLiEnd aClose_clean.2.1, hb,
              countOcc_tag_append_end _ _ _ hLi hX, countOcc_tag_append_end _ _ _ hLiEnd hX,
              hc _ hLi, hc _ hLiEnd, show countOcc tagLi aClose = 0 by decide,
              show countOcc tagLiEnd aClose = 0 by decide]
            omega
          · rw [headingVisitor_enter] at hpos0 ⊢
            have hl : 0 ≤ level := hpos0
            show countOcc tagLi (st.buf ++ levelMarkup level st.tocLevel ++
                aOpen st.headingCount) =
              countOcc tagLiEnd (st.buf ++ levelMarkup level st.tocLevel ++
                aOpen st.headingCount) + level.toNat
            rw [countOcc_tag_append_start _ _ _ hLi (aOpen_clean _).2.1,
              countOcc_tag_append_start _ _ _ hLiEnd (aOpen_clean _).2.1,
              countOcc_tag_append_start _ _ _ hLi (levelMarkup_clean _ _).2,
              countOcc_tag_append_start _ _ _ hLiEnd (levelMarkup_clean _ _).2, hb,
              countOcc_tag_append_end _ _ _ hLi hX, countOcc_tag_append_end _ _ _ hLiEnd hX,
              hc _ hLi, hc _ hLiEnd, aOpen_no_tag _ hLi, aOpen_no_tag _ hLiEnd,
              (countOcc_levelMarkup level st.tocLevel).2.2.1,
              (countOcc_levelMarkup level st.tocLevel).2.2.2]
            by_cases hle : level ≤ st.tocLevel
            · rw [if_pos hle, if_pos hle]
              omega
            · rw [if_neg hle, if_neg hle]
              omega
    · have hn' : n.isTocHeading = false := by simpa using hn
      have hruns : inlineRunsFrom r st cur ((n, e) :: calls) =
          inlineRunsFrom r (headingVisitor r st n e).state (cur ++ written r st n e) calls := by
        simp only [inlineRunsFrom, hn', Bool.false_eq_true, if_false]
      rw [hruns] at hclean
      have hw := headingVisitor_written r st n e hn'
      refine runCalls_balanced r calls _ X (cur ++ written r st n e) ?_ hX ?_ ?_ hpos' hclean
      · rw [hw.1, hb, List.append_assoc]
      · rw [hw.2]; exact hul
      · rw [hw.2]; exact hli

/-- Every inline run is what the renderer writes over some sequence of `RenderNode` calls. -/
theorem inlineRunsFrom_rendered {ρ : Type} (r : Renderer ρ) :
    ∀ (calls : List (Node × Bool)) (st : TocState ρ) (cur : Bytes) (s0 : ρ)
      (cs : List (Node × Bool)), runRenderer r s0 cs = (st.renderer, cur) →
      ∀ run ∈ inlineRunsFrom r st cur calls,
        ∃ (s1 : ρ) (cs1 : List (Node × Bool)), (runRenderer r s1 cs1).2 = run
  | [], st, cur, s0, cs, h0, run, hr => by
    simp only [inlineRunsFrom, List.mem_singleton] at hr
    exact ⟨s0, cs, by rw [h0, hr]⟩
  | (n, e) :: calls, st, cur, s0, cs, h0, run, hr => by
    by_cases hn : n.isTocHeading = true
    · simp only [inlineRunsFrom, hn, if_true, List.mem_cons] at hr
      rcases hr with hr | hr
      · exact ⟨s0, cs, by rw [h0, hr]⟩
      · exact inlineRunsFrom_rendered r calls _ [] (headingVisitor r st n e).state.renderer []
          rfl run hr
    · have hn' : n.isTocHeading = false := by simpa using hn
      simp only [inlineRunsFrom, hn', Bool.false_eq_true, if_false] at hr
      by_cases hin : st.inHeading = true
      · refine inlineRunsFrom_rendered r calls _ _ s0 (cs ++ [(n, e)]) ?_ run hr
        rw [runRenderer_snoc, h0]
        unfold written
        rw [headingVisitor_other r st n e hn', headingVisitor_other r _ n e hn']
        simp only [hin, if_true, List.nil_append]
      · refine inlineRunsFrom_rendered r calls _ _ s0 cs ?_ run hr
        rw [h0]
        unfold written
        rw [headingVisitor_other r st n e hn', headingVisitor_other r _ n e hn']
        simp only [hin, Bool.false_eq_true, if_false, List.append_nil]

/-- A renderer whose output never contains a list tag writes none during the walk. -/
theorem inlineClean_of_noListTags {ρ : Type} (r : Renderer ρ) (rs : ρ) (doc : Node)
    (h : NoListTags r) : InlineClean r rs doc := by
  intro run hr tag ht
  obtain ⟨s1, cs1, e⟩ := inlineRunsFrom_rendered r (tocCalls r rs doc) (tocInit rs) [] rs []
    rfl run hr
  rw [← e]
  exact h s1 cs1 tag ht

/-- When the inline output written during the walk holds no list tag, the buffer after the
walk has `tocLevel` more opens than closes of lists and of items. -/
theorem tocWalk_balanced {ρ : Type} (r : Renderer ρ) (rs : ρ) (doc : Node)
    (hlev : levelsAtLeast 1 doc = true) (hclean : InlineClean r rs doc) :
    countOcc tagUl (tocWalk r rs doc).state.buf =
        countOcc tagUlEnd (tocWalk r rs doc).state.buf +
          (tocWalk r rs doc).state.tocLevel.toNat ∧
      countOcc tagLi (tocWalk r rs doc).state.buf =
        countOcc tagLiEnd (tocWalk r rs doc).state.buf +
          (tocWalk r rs doc).state.tocLevel.toNat := by
  have hinv := TocInv_tocCalls r rs doc hlev
  rw [hinv.1]
  exact runCalls_balanced r (tocCalls r rs doc) (tocInit rs) [] [] rfl
    (by intro c hc; simp at hc) rfl rfl
    (fun p hp => TocInv_tocLevel_nonneg r _ (hinv.2 p hp)) hclean

/-! ## Flat trees: a walk that is not terminated -/

mutual
/-- In a tree without headings nested in headings, when the walk is not terminated, the
visitor's variables after the walk are those of the headings taken one after the other. -/
theorem WalkFunc_flat_run {ρ : Type} (r : Renderer ρ) :
    ∀ (n : Node) (st : TocState ρ), flat n = true → st.inHeading = false →
      (WalkFunc (headingVisitor r) st n).status ≠ .Terminate →
      (WalkFunc (headingVisitor r) st n).state = (collect headingEntry n).foldl (headingStep r) st
  | .leaf literal, st, _, hin, _ => by
    rw [WalkFunc_headingFree r (.leaf literal) st rfl hin]
    rfl
  | .inner kind children, st, hf, hin, hs => by
    simp only [flat, allNodes, Bool.and_eq_true] at hf
    by_cases hk : (Node.inner kind children).isTocHeading = true
    · match kind, hk, hf, hs with
      | .heading level false id, _, hf, hs =>
        have hcs : headingFreeList children = true := hf.1
        have he1 : ¬ (headingVisitor r st (.inner (.heading level false id) children)
            true).status = .Terminate := by rw [headingVisitor_enter]; simp
        have he2 : ¬ (headingVisitor r st (.inner (.heading level false id) children)
            true).status = .SkipChildren := by rw [headingVisitor_enter]; simp
        have hst : ¬ (walkChildren (headingVisitor r)
            (headingVisitor r st (.inner (.heading level false id) children) true).state
            children).status = .Terminate := by
          intro h
          rw [WalkFunc_inner, if_neg he1, if_neg he2, if_pos h] at hs
          exact hs rfl
        rw [WalkFunc_inner, if_neg he1, if_neg he2, if_neg hst]
        rw [walkChildren_inline r _ (by rw [headingVisitor_enter]) children hcs]
        simp only [headingVisitor_enter, Kind.assign, headingVisitor_exit]
        simp only [collect, headingEntry,
          collectList_of_headingFree headingEntry headingEntry_of_not_tocHeading children hcs,
          List.append_nil, List.foldl_cons, List.foldl_nil, headingStep, headingVisitor_enter]
    · have hk' : (Node.inner kind children).isTocHeading = false := by simpa using hk
      have hw := WalkFunc_outside r st kind children hk' hin (walkChildren_inHeading r _ st hin)
      rw [hw] at hs ⊢
      simp only [collect, headingEntry_of_not_tocHeading _ hk', List.nil_append]
      exact walkChildren_flat_run r children st hf.2 hin hs
theorem walkChildren_flat_run {ρ : Type} (r : Renderer ρ) :
    ∀ (ns : List Node) (st : TocState ρ), allNodesList contentHeadingFree ns = true →
      st.inHeading = false →
      (walkChildren (headingVisitor r) st ns).status ≠ .Terminate →
      (walkChildren (headingVisitor r) st ns).state =
        (collectList headingEntry ns).foldl (headingStep r) st
  | [], st, _, _, _ => by
    rw [walkChildren_nil]
    rfl
  | n :: rest, st, hf, hin, hs => by
    simp only [allNodesList, Bool.and_eq_true] at hf
    have hn : ¬ (WalkFunc (headingVisitor r) st n).status = .Terminate := by
      intro h
      rw [walkChildren_cons, if_pos h] at hs
      exact hs rfl
    have h1 := WalkFunc_flat_run r n st hf.1 hin hn
    rw [walkChildren_cons, if_neg hn] at hs ⊢
    simp only [collectList, List.foldl_append]
    rw [walkChildren_flat_run r rest _ hf.2
      (by rw [h1]; exact foldl_headingStep_inHeading r _ st hin) hs, h1]
end

/-- The walk of `HeadingRender` over a flat tree, heading by heading, when it is not
terminated. -/
theorem tocWalk_flat_run {ρ : Type} (r : Renderer ρ) (rs : ρ) (doc : Node)
    (hflat : flat doc = true) (hrun : (tocWalk r rs doc).status ≠ .Terminate) :
    (tocWalk r rs doc).state = (tocHeadings doc).foldl (headingStep r) (tocInit rs) :=
  WalkFunc_flat_run r doc (tocInit rs) hflat rfl hrun

/-- A renderer that never returns `Terminate` does not terminate the walk. -/
theorem tocWalk_status_of_never {ρ : Type} (r : Renderer ρ) (rs : ρ) (doc : Node)
    (hterm : NeverTerminates r) : (tocWalk r rs doc).status ≠ .Terminate := by
  unfold tocWalk
  rw [WalkFunc_status_of_never _ (headingVisitor_status_ne_terminate r hterm) doc]
  simp

/-! ## The headings a walk enters -/

theorem headingVisitor_other_headingCount {ρ : Type} (r : Renderer ρ) (st : TocState ρ)
    (n : Node) (e : Bool) (h : n.isTocHeading = false) :
    (headingVisitor r st n e).state.headingCount = st.headingCount :=
  congrArg Prod.fst (headingVisitor_other_counters r st n e h)

/-- The walk of a non-title heading: the count after it is the count after its children,
walked from the count plus one, and the heading has the id of the count before. -/
theorem WalkFunc_heading_entered {ρ : Type} (r : Renderer ρ) (st : TocState ρ) (level : Int)
    (id : String) (children : List Node) :
    (WalkFunc (headingVisitor r) st (.inner (.heading level false id) children)
        ).state.headingCount =
      (walkChildren (headingVisitor r)
        (headingVisitor r st (.inner (.heading level false id) children) true).state
        children).state.headingCount ∧
    collect tocEntry
        (WalkFunc (headingVisitor r) st (.inner (.heading level false id) children)).tree =
      (level, tocID st.headingCount) :: collectList tocEntry
        (walkChildren (headingVisitor r)
          (headingVisitor r st (.inner (.heading level false id) children) true).state
          children).tree := by
  have he1 : ¬ (headingVisitor r st (.inner (.heading level false id) children)
      true).status = .Terminate := by rw [headingVisitor_enter]; simp
  have he2 : ¬ (headingVisitor r st (.inner (.heading level false id) children)
      true).status = .SkipChildren := by rw [headingVisitor_enter]; simp
  rw [WalkFunc_inner, if_neg he1, if_neg he2]
  split
  · simp only [headingVisitor_enter, Kind.assign, collect, tocEntry, List.singleton_append,
      and_self]
  · simp only [headingVisitor_enter, headingVisitor_exit, Kind.assign, collect, tocEntry,
      List.singleton_append, and_self]

/-- The walk of a container that is not a non-title heading: either nothing beneath it is
walked, or the count after it is the count after its children and the tree is the container
with its children as walked. -/
theorem WalkFunc_other_entered {ρ : Type} (r : Renderer ρ) (st : TocState ρ) (kind : Kind)
    (children : List Node) (hk : (Node.inner kind children).isTocHeading = false) :
    ((WalkFunc (headingVisitor r) st (.inner kind children)).state.headingCount =
        st.headingCount ∧
      (WalkFunc (headingVisitor r) st (.inner kind children)).tree = .inner kind children) ∨
    ((WalkFunc (headingVisitor r) st (.inner kind children)).state.headingCount =
        (walkChildren (headingVisitor r) (headingVisitor r st (.inner kind children) true).state
          children).state.headingCount ∧
      collect tocEntry (WalkFunc (headingVisitor r) st (.inner kind children)).tree =
        collectList tocEntry (walkChildren (headingVisitor r)
          (headingVisitor r st (.inner kind children) true).state children).tree) := by
  have hid := headingVisitor_headingID_none r st _ true hk
  have hcnt := headingVisitor_other_headingCount r st _ true hk
  have hk2 : ∀ cs, (Node.inner kind cs).isTocHeading = false := by
    intro cs
    rw [← hk]
    cases kind with
    | other name => rfl
    | heading level t hid' => cases t <;> rfl
  rw [WalkFunc_inner, hid, Kind.assign_none]
  by_cases h1 : (headingVisitor r st (.inner kind children) true).status = .Terminate
  · rw [if_pos h1]
    exact Or.inl ⟨hcnt, rfl⟩
  · rw [if_neg h1]
    by_cases h2 : (headingVisitor r st (.inner kind children) true).status = .SkipChildren
    · rw [if_pos h2]
      exact Or.inl ⟨hcnt, rfl⟩
    · rw [if_neg h2]
      refine Or.inr ?_
      split
      · simp only [collect, tocEntry_of_not_tocHeading _ (hk2 _), List.nil_append, and_self]
      · simp only [headingVisitor_headingID_none r _ _ false (hk2 _), Kind.assign_none,
          headingVisitor_other_headingCount r _ _ false (hk2 _), collect,
          tocEntry_of_not_tocHeading _ (hk2 _), List.nil_append, and_self]

mutual
/-- The walk of `HeadingRender` enters at most the non-title headings of the tree, and when
it enters them all, they get the ids `toc_c, toc_(c+1), ...` in document order, from the
count `c` the walk started with. -/
theorem WalkFunc_entered {ρ : Type} (r : Renderer ρ) :
    ∀ (n : Node) (st : TocState ρ),
      (WalkFunc (headingVisitor r) st n).state.headingCount ≤
          st.headingCount + (collect tocEntry n).length ∧
        ((WalkFunc (headingVisitor r) st n).state.headingCount =
            st.headingCount + (collect tocEntry n).length →
          (collect tocEntry (WalkFunc (headingVisitor r) st n).tree).map Prod.snd =
            (List.range' st.headingCount (collect tocEntry n).length).map tocID)
  | .leaf literal, st => by
    rw [WalkFunc_leaf]
    have hc := headingVisitor_other_headingCount r st (.leaf literal) true rfl
    simp only [collect, tocEntry, List.length_nil, Nat.add_zero, List.map_nil,
      List.range'_zero, hc, le_refl, implies_true, and_self]
  | .inner kind children, st => by
    by_cases hk : (Node.inner kind children).isTocHeading = true
    · match kind, hk with
      | .heading level false id, _ =>
        obtain ⟨h1, h2⟩ := WalkFunc_heading_entered r st level id children
        have hc := walkChildren_entered r children
          (headingVisitor r st (.inner (.heading level false id) children) true).state
        have hc1 : (headingVisitor r st (.inner (.heading level false id) children)
            true).state.headingCount = st.headingCount + 1 := by
          rw [headingVisitor_enter]
        rw [hc1] at hc
        rw [h1, h2]
        simp only [collect, tocEntry, List.singleton_append, List.length_cons, List.map_cons,
          List.range'_succ]
        refine ⟨by omega, fun he => ?_⟩
        rw [hc.2 (by omega)]
    · have hk' : (Node.inner kind children).isTocHeading = false := by simpa using hk
      have he : tocEntry (.inner kind children) = [] := tocEntry_of_not_tocHeading _ hk'
      have hc := walkChildren_entered r children
        (headingVisitor r st (.inner kind children) true).state
      rw [headingVisitor_other_headingCount r st _ true hk'] at hc
      simp only [collect, he, List.nil_append]
      rcases WalkFunc_other_entered r st kind children hk' with ⟨h1, h2⟩ | ⟨h1, h2⟩
      · rw [h1, h2]
        refine ⟨by omega, fun hl => ?_⟩
        have h0 : (collectList tocEntry children).length = 0 := by omega
        simp [collect, he, List.length_eq_zero.mp h0]
      · rw [h1, h2]
        exact hc
theorem walkChildren_entered {ρ : Type} (r : Renderer ρ) :
    ∀ (ns : List Node) (st : TocState ρ),
      (walkChildren (headingVisitor r) st ns).state.headingCount ≤
          st.headingCount + (collectList tocEntry ns).length ∧
        ((walkChildren (headingVisitor r) st ns).state.headingCount =
            st.headingCount + (collectList tocEntry ns).length →
          (collectList tocEntry (walkChildren (headingVisitor r) st ns).tree).map Prod.snd =
            (List.range' st.headingCount (collectList tocEntry ns).length).map tocID)
  | [], st => by
    rw [walkChildren_nil]
    simp only [collectList, List.length_nil, Nat.add_zero, List.map_nil, List.range'_zero,
      le_refl, implies_true, and_self]
  | n :: rest, st => by
    have h1 := WalkFunc_entered r n st
    have h2 := walkChildren_entered r rest (WalkFunc (headingVisitor r) st n).state
    rw [walkChildren_cons]
    split
    · dsimp only
      simp only [collectList, List.length_append, List.map_append]
      refine ⟨by omega, fun he => ?_⟩
      have h0 : (collectList tocEntry rest).length = 0 := by omega
      rw [h1.2 (by omega), h0, List.length_eq_zero.mp h0]
      simp only [List.map_nil, List.append_nil, Nat.add_zero]
    · dsimp only
      simp only [collectList, List.length_append, List.map_append]
      refine ⟨by omega, fun he => ?_⟩
      have hn : (WalkFunc (headingVisitor r) st n).state.headingCount =
          st.headingCount + (collect tocEntry n).length := by omega
      rw [h1.2 hn, h2.2 (by omega), hn, ← List.map_append, List.range'_append_1, Nat.add_comm]
end

/-! ## Preprocessing: the specified properties -/

/-- C1. Preparse strips through the first marker only. If the first occurrence of `[TOC]` in
the line-ending-normalised text `N` starts at index `i`, then `Preparse` returns exactly
`N` from index `i + 5` on, less one more byte when the byte at `i + 5` is a linefeed; every
later occurrence of the marker (at index `k` of `N`) is still in the output, moved left by
the number of bytes cut; and `Preparse "[TOC]\nHello" = "Hello"`. -/
theorem Preparse_strips_through_first_marker (markdown : Bytes) (i : Nat)
    (hocc : tocMarker <+: (normalizeLineEndings markdown).drop i)
    (hfirst : ∀ j, j < i → ¬ tocMarker <+: (normalizeLineEndings markdown).drop j) :
    Preparse markdown =
        (if (normalizeLineEndings markdown)[i + 5]? = some '\n'
         then (normalizeLineEndings markdown).drop (i + 6)
         else (normalizeLineEndings markdown).drop (i + 5)) ∧
      (∀ k, i < k → tocMarker <+: (normalizeLineEndings markdown).drop k →
        tocMarker <+: (Preparse markdown).drop
          (k - ((normalizeLineEndings markdown).length - (Preparse markdown).length))) ∧
      Preparse "[TOC]\nHello".toList = "Hello".toList := by
  have heq := Preparse_eq_of_first markdown i hocc hfirst
  refine ⟨?_, ?_, Preparse_marker_hello⟩
  · rw [heq]; split <;> rfl
  · intro k hk hocc2
    have hle := later_marker_after_cut _ i k hocc hk hocc2
    have hlen : k + tocMarker.length ≤ (normalizeLineEndings markdown).length := by
      have := hocc2.length_le
      rw [List.length_drop] at this
      have h5 : tocMarker.length = 5 := by decide
      omega
    have h5 : tocMarker.length = 5 := by decide
    rw [heq, List.length_drop, List.drop_drop]
    have : (if (normalizeLineEndings markdown)[i + 5]? = some '\n' then i + 6 else i + 5) +
        (k - ((normalizeLineEndings markdown).length -
          ((normalizeLineEndings markdown).length -
            (if (normalizeLineEndings markdown)[i + 5]? = some '\n' then i + 6 else i + 5))))
        = k := by
      split at hle <;> rename_i hc <;> simp only [hc, if_true, if_false] <;> omega
    rw [this]
    exact hocc2

/-- Witness for C1 on the text `"x\r\n[TOC]\r\ny[TOC]z"`, whose normalised form has its first
marker at index 2. -/
theorem Preparse_strips_through_first_marker_witness :
    Preparse "x\r\n[TOC]\r\ny[TOC]z".toList = "y[TOC]z".toList := by
  have h := (Preparse_strips_through_first_marker "x\r\n[TOC]\r\ny[TOC]z".toList 2
    (by decide) (by decide)).1
  rw [h]
  decide

/-- C6. Pass-through without a marker. For every input that does not contain `[TOC]`,
`Preparse` returns the input with every carriage-return-linefeed pair replaced by one
linefeed, every remaining carriage return replaced by a linefeed and every other byte kept
(`lineEndingsSpec`); for instance `"a\r\nb\rc"` becomes `"a\nb\nc"`. -/
theorem Preparse_without_marker (markdown : Bytes) (h : ¬ tocMarker <:+: markdown) :
    Preparse markdown = lineEndingsSpec markdown ∧
      Preparse "a\r\nb\rc".toList = "a\nb\nc".toList :=
  ⟨Preparse_eq_of_no_marker markdown h, by decide⟩

/-- Witness for C6 on the text `"a\r\r\nb"`. -/
theorem Preparse_without_marker_witness :
    Preparse "a\r\r\nb".toList = "a\n\nb".toList := by
  have h := (Preparse_without_marker "a\r\r\nb".toList (by decide)).1
  rw [h]
  decide

/-- C7. Idempotent preprocessing on already-normalised input. For every input with no
carriage return and no `[TOC]` marker, `Preparse (Preparse x) = Preparse x`, and both are
`x`. -/
theorem Preparse_idempotent (x : Bytes) (hcr : '\r' ∉ x) (hm : ¬ tocMarker <:+: x) :
    Preparse (Preparse x) = Preparse x ∧ Preparse x = x := by
  have h1 : Preparse x = x := by
    rw [Preparse_eq_of_no_marker x hm, lineEndingsSpec_of_no_cr x hcr]
  exact ⟨by rw [h1, h1], h1⟩

/-- Witness for C7 on the text `"# Title\n\ntext [TOC"`. -/
theorem Preparse_idempotent_witness :
    Preparse (Preparse "# Title\n\ntext [TOC".toList) = Preparse "# Title\n\ntext [TOC".toList ∧
      Preparse "# Title\n\ntext [TOC".toList = "# Title\n\ntext [TOC".toList :=
  Preparse_idempotent "# Title\n\ntext [TOC".toList (by decide) (by decide)

/-! ## Table of contents: the specified properties -/

/-- C2. Balanced TOC markup. For every document tree whose non-title headings all have level
at least 1, every renderer and whatever walk signals it returns, `HeadingRender` returns
bytes (the slice does not panic), and when the inline output written during the walk holds
no list tag in any of its runs, those bytes contain as many `<ul>` as `</ul>` and as many
`<li>` as `</li>`; the bytes are the final ones, after the boundary trim when it applies.
The condition is on what is written during this walk only; it holds in particular for a
renderer whose output never contains a list tag. -/
theorem HeadingRender_balanced {ρ : Type} (renderer : Renderer ρ) (rs : ρ) (doc : Node)
    (hlev : levelsAtLeast 1 doc = true) :
    (NoListTags renderer → InlineClean renderer rs doc) ∧
      ∃ toc, (HeadingRender renderer rs doc).toc = some toc ∧
        (InlineClean renderer rs doc →
          countOcc tagUl toc = countOcc tagUlEnd toc ∧
          countOcc tagLi toc = countOcc tagLiEnd toc) := by
  have hUl : tagUl ∈ listTags := by simp [listTags]
  have hUlEnd : tagUlEnd ∈ listTags := by simp [listTags]
  have hLi : tagLi ∈ listTags := by simp [listTags]
  have hLiEnd : tagLiEnd ∈ listTags := by simp [listTags]
  refine ⟨inlineClean_of_noListTags renderer rs doc, ?_⟩
  rcases HeadingRender_of_TocInv renderer rs doc (TocInv_tocWalk renderer rs doc hlev) with
    ⟨_, _, _, _, h⟩ | ⟨_, pre, run, j, _, _, _, _, _, hdec, h⟩
  · exact ⟨[], h, fun _ => ⟨by decide, by decide⟩⟩
  · refine ⟨_, h, fun hclean => ?_⟩
    have hbal := tocWalk_balanced renderer rs doc hlev hclean
    have hL : ∀ tag ∈ listTags,
        countOcc tag ((tocWalk renderer rs doc).state.buf ++
          copies (tocWalk renderer rs doc).state.tocLevel.toNat ulClose) =
        countOcc tag (tocWalk renderer rs doc).state.buf +
          (tocWalk renderer rs doc).state.tocLevel.toNat * countOcc tag ulClose := by
      intro tag ht
      rw [countOcc_tag_append_start _ _ _ ht
          (StartsClean_copies _ _ ulClose_clean.2.1 ulClose_clean.1),
        countOcc_tag_copies _ ht _ _ ulClose_clean.2.1]
    have hR : ∀ tag ∈ listTags,
        countOcc tag ((tocWalk renderer rs doc).state.buf ++
          copies (tocWalk renderer rs doc).state.tocLevel.toNat ulClose) =
        ((tocWalk renderer rs doc).state.minHeading - 1).toNat * countOcc tag ulOpen +
          countOcc tag (pre ++ run ++ copies j ulClose) +
          ((tocWalk renderer rs doc).state.minHeading - 1).toNat * countOcc tag ulClose := by
      intro tag ht
      rw [hdec, countOcc_tag_append_start _ _ _ ht
          (StartsClean_copies _ _ ulClose_clean.2.1 ulClose_clean.1),
        countOcc_tag_append_end _ _ _ ht
          (EndsClean_copies _ _ ulOpen_clean.2.2 ulOpen_clean.1),
        countOcc_tag_copies _ ht _ _ ulClose_clean.2.1,
        countOcc_tag_copies _ ht _ _ ulOpen_clean.2.1]
    have e1 := (hL _ hUl).symm.trans (hR _ hUl)
    have e2 := (hL _ hUlEnd).symm.trans (hR _ hUlEnd)
    have e3 := (hL _ hLi).symm.trans (hR _ hLi)
    have e4 := (hL _ hLiEnd).symm.trans (hR _ hLiEnd)
    rw [show countOcc tagUl ulClose = 0 by decide, show countOcc tagUl ulOpen = 1 by decide,
      Nat.mul_zero, Nat.mul_one, Nat.mul_zero] at e1
    rw [show countOcc tagUlEnd ulClose = 1 by decide,
      show countOcc tagUlEnd ulOpen = 0 by decide, Nat.mul_zero, Nat.mul_one, Nat.mul_one]
      at e2
    rw [show countOcc tagLi ulClose = 0 by decide, show countOcc tagLi ulOpen = 1 by decide,
      Nat.mul_zero, Nat.mul_one, Nat.mul_zero] at e3
    rw [show countOcc tagLiEnd ulClose = 1 by decide,
      show countOcc tagLiEnd ulOpen = 0 by decide, Nat.mul_zero, Nat.mul_one, Nat.mul_one]
      at e4
    constructor
    · omega
    · omega

/-- Witness for C2: a renderer that writes list tags for list blocks, and a document with a
list block between two headings. The renderer's output can hold list tags, but what it
writes during the walk of `HeadingRender` holds none, and the TOC is balanced. -/
theorem HeadingRender_balanced_witness :
    ¬ NoListTags listRenderer ∧
      ∃ toc, (HeadingRender listRenderer ()
          (sampleDoc [sampleHeading 2 "a",
            .inner (.other "ul") [.inner (.other "li") [.leaf "x"]],
            .inner (.heading 3 false "") [.inner (.other "em") [.leaf "b"]]])).toc = some toc ∧
        countOcc tagUl toc = countOcc tagUlEnd toc ∧
        countOcc tagLi toc = countOcc tagLiEnd toc := by
  refine ⟨fun h => absurd (h () [(.inner (.other "ul") [], true)] tagUl (by simp [listTags]))
    (by decide), ?_⟩
  obtain ⟨toc, h1, h2⟩ := (HeadingRender_balanced listRenderer ()
    (sampleDoc [sampleHeading 2 "a",
      .inner (.other "ul") [.inner (.other "li") [.leaf "x"]],
      .inner (.heading 3 false "") [.inner (.other "em") [.leaf "b"]]]) (by decide)).2
  exact ⟨toc, h1, h2 (by unfold InlineClean; decide)⟩

/-- C3, as stated, fails: the renderer `skippingRenderer` never terminates the walk, yet by
skipping the children of a container inside the first heading it keeps the walk from the
heading nested there. Of the three non-title headings the second keeps its old id and the
third gets `toc_1`, not `toc_2`. -/
theorem HeadingRender_ids_counterexample :
    NeverTerminates skippingRenderer ∧
      tocLevels (sampleDoc [.inner (.heading 1 false "")
          [.inner (.other "skip") [sampleHeading 2 "b"]], sampleHeading 1 "c"]) = [1, 2, 1] ∧
      tocHeadingIDs (HeadingRender skippingRenderer ()
        (sampleDoc [.inner (.heading 1 false "")
          [.inner (.other "skip") [sampleHeading 2 "b"]], sampleHeading 1 "c"])).doc
        = ["toc_0", "", "toc_1"] :=
  ⟨skippingRenderer_neverTerminates, by decide, by decide⟩

/-- C3, amended. With a renderer that never terminates the walk and returns `SkipChildren`
only for nodes without a non-title heading beneath them, after `HeadingRender` the k-th
non-title heading in document order (from 0) has headingID `toc_k`; the anchor
`<a href="#toc_k">` of each of them is in the TOC buffer; on entering a heading the visitor
writes the id and, last, the anchor with the same number; and nothing else in the tree is
changed, so every title-block heading keeps the headingID it had. -/
theorem HeadingRender_ids {ρ : Type} (renderer : Renderer ρ) (rs : ρ) (doc : Node)
    (hterm : NeverTerminates renderer) (hskip : SkipsOnlyHeadingFree renderer) :
    tocHeadingIDs (HeadingRender renderer rs doc).doc =
        (List.range (tocLevels doc).length).map tocID ∧
      (∀ k, k < (tocLevels doc).length →
        aOpen k <:+: (tocWalk renderer rs doc).state.buf ∧
        aOpen k = "<a href=\"#".toList ++ (tocID k).toList ++ "\">".toList) ∧
      (∀ (st : TocState ρ) (level : Int) (id : String) (cs : List Node),
        (headingVisitor renderer st (.inner (.heading level false id) cs) true).headingID =
            some (tocID st.headingCount) ∧
          aOpen st.headingCount <:+
            (headingVisitor renderer st (.inner (.heading level false id) cs) true).state.buf) ∧
      titleIDs (HeadingRender renderer rs doc).doc = titleIDs doc ∧
      eraseTocIDs (HeadingRender renderer rs doc).doc = eraseTocIDs doc := by
  have hc := WalkFunc_counters renderer hterm hskip doc (tocInit rs)
  have hcount : (tocWalk renderer rs doc).state.headingCount = (tocLevels doc).length := by
    have := congrArg Prod.fst hc.2.1
    rw [foldl_enterCounters_fst] at this
    simpa [tocLevels, tocInit, TocState.counters] using this
  refine ⟨?_, ?_, ?_, ?_, ?_⟩
  · rw [HeadingRender_doc]
    have := hc.2.2
    simp only [tocInit] at this
    rw [List.range_eq_range']
    simpa [tocHeadingIDs, tocLevels] using this
  · intro k hk
    refine ⟨tocWalk_anchors renderer rs doc k (by rw [hcount]; exact hk), ?_⟩
    simp [aOpen, tocID, String.toList, String.data_append]
  · intro st level id cs
    rw [headingVisitor_enter]
    exact ⟨rfl, List.suffix_append _ _⟩
  · rw [HeadingRender_doc]
    exact titleIDs_of_erase_eq _ _ (tocWalk_erase renderer rs doc)
  · rw [HeadingRender_doc]
    exact tocWalk_erase renderer rs doc

/-- Witness for C3, amended: a title-block heading, a heading inside a container and a
heading nested in a heading, rendered by `textRenderer`. -/
theorem HeadingRender_ids_witness :
    tocHeadingIDs (HeadingRender textRenderer ()
      (sampleDoc [.inner (.heading 1 true "title") [.leaf "t"],
        .inner (.heading 2 false "")
          [.inner (.other "em") [.inner (.heading 3 false "old") []]],
        .inner (.other "quote") [sampleHeading 1 "c"]])).doc = ["toc_0", "toc_1", "toc_2"] := by
  have h := (HeadingRender_ids textRenderer ()
    (sampleDoc [.inner (.heading 1 true "title") [.leaf "t"],
      .inner (.heading 2 false "")
        [.inner (.other "em") [.inner (.heading 3 false "old") []]],
      .inner (.other "quote") [sampleHeading 1 "c"]])
    textRenderer_neverTerminates textRenderer_skips).1
  rw [h]
  decide

/-- C8, as stated, fails: the levels are 2 and 1, so the smallest level of the tree is 1 and
nothing should be cut; but the renderer terminates the walk inside the first heading, the
walk has only seen level 2, and `HeadingRender` cuts 10 bytes from the start and 11 from the
end of the buffer. -/
theorem HeadingRender_trim_counterexample :
    levelsAtLeast 1 (sampleDoc [sampleHeading 2 "!stop", sampleHeading 1 "b"]) = true ∧
      tocLevels (sampleDoc [sampleHeading 2 "!stop", sampleHeading 1 "b"]) = [2, 1] ∧
      tocBuffer sampleRenderer () (sampleDoc [sampleHeading 2 "!stop", sampleHeading 1 "b"]) =
        "\n<ul>\n<li>\n<ul>\n<li><a href=\"#toc_0\">!stop</li>\n</ul></li>\n</ul>".toList ∧
      (HeadingRender sampleRenderer ()
          (sampleDoc [sampleHeading 2 "!stop", sampleHeading 1 "b"])).toc =
        some "\n<ul>\n<li><a href=\"#toc_0\">!stop</li>\n</ul>".toList := by
  refine ⟨by decide, by decide, by decide, by decide⟩

/-- C8, amended. For every tree whose non-title headings all have level at least 1 and every
renderer, let `m` be `minHeading` after the walk: the smallest level among the headings the
walk reached, which is the smallest level of the tree when the renderer never terminates the
walk and skips only subtrees without non-title headings. If `m > 1` the slice is within
bounds, the `(m-1)*10` bytes cut from the start of the buffer are `m-1` copies of
`"\n<ul>\n<li>"`, the `(m-1)*11` bytes cut from the end are `m-1` copies of
`"</li>\n</ul>"`, and every anchor written is in the bytes returned; if `m ≤ 1` nothing is
cut. -/
theorem HeadingRender_trim {ρ : Type} (renderer : Renderer ρ) (rs : ρ) (doc : Node)
    (hlev : levelsAtLeast 1 doc = true) :
    (1 < (tocWalk renderer rs doc).state.minHeading →
        ((tocWalk renderer rs doc).state.minHeading - 1) * 10 +
            ((tocWalk renderer rs doc).state.minHeading - 1) * 11 ≤
          ((tocBuffer renderer rs doc).length : Int) ∧
        ∃ mid, tocBuffer renderer rs doc =
            copies ((tocWalk renderer rs doc).state.minHeading - 1).toNat ulOpen ++ mid ++
              copies ((tocWalk renderer rs doc).state.minHeading - 1).toNat ulClose ∧
          (HeadingRender renderer rs doc).toc = some mid ∧
          ∀ k, k < (tocWalk renderer rs doc).state.headingCount → aOpen k <:+: mid) ∧
      ((tocWalk renderer rs doc).state.minHeading ≤ 1 →
        (HeadingRender renderer rs doc).toc = some (tocBuffer renderer rs doc)) ∧
      (NeverTerminates renderer → SkipsOnlyHeadingFree renderer →
        ∀ m, m ∈ tocLevels doc → (∀ l, l ∈ tocLevels doc → m ≤ l) →
          (tocWalk renderer rs doc).state.minHeading = m) := by
  refine ⟨?_, ?_, ?_⟩
  · intro hgt
    rcases HeadingRender_of_TocInv renderer rs doc (TocInv_tocWalk renderer rs doc hlev) with
      ⟨hm, _⟩ | ⟨_, pre, run, j, _, _, hanch, _, _, hbuf, htoc⟩
    · rw [hm] at hgt; exact absurd hgt (by decide)
    · rw [tocBuffer_eq, hbuf]
      refine ⟨?_, (pre ++ run) ++ copies j ulClose, rfl, htoc, ?_⟩
      · rw [List.length_append, List.length_append, length_copies, length_copies]
        have h10 : ulOpen.length = 10 := rfl
        have h11 : ulClose.length = 11 := rfl
        rw [h10, h11]
        push_cast
        omega
      · intro k hk
        obtain ⟨u, w, huw⟩ := hanch k hk
        exact ⟨u, w ++ run ++ copies j ulClose, by rw [← huw]; simp only [List.append_assoc]⟩
  · intro hle
    rw [HeadingRender_toc, if_neg (by omega), tocBuffer_eq]
  · intro hterm hskip m hm hmin
    exact tocWalk_minHeading renderer rs doc hterm hskip hlev m hm hmin

/-- Witness for C8, amended: levels 3, 4, 3 with the walk terminated inside the last
heading; two list opens and two list closes are cut. -/
theorem HeadingRender_trim_witness :
    ∃ mid, tocBuffer sampleRenderer ()
          (sampleDoc [sampleHeading 3 "a", sampleHeading 4 "b", sampleHeading 3 "!stop"]) =
        copies 2 ulOpen ++ mid ++ copies 2 ulClose ∧
      (HeadingRender sampleRenderer ()
        (sampleDoc [sampleHeading 3 "a", sampleHeading 4 "b", sampleHeading 3 "!stop"])).toc
        = some mid := by
  obtain ⟨mid, h1, h2, _⟩ := ((HeadingRender_trim sampleRenderer ()
    (sampleDoc [sampleHeading 3 "a", sampleHeading 4 "b", sampleHeading 3 "!stop"])
    (by decide)).1 (by decide)).2
  exact ⟨mid, h1, h2⟩

/-- C9, as stated, fails: the input has the marker, but the renderer terminates the walk of
`HeadingRender` inside the first heading, so the tree handed on to `Render` has its second
non-title heading still without the id `toc_1`. -/
theorem ToHTML_ids_counterexample :
    tocMarker <:+: "[TOC]\n# !stop\n## b".toList ∧
      tocHeadingIDs (HeaderToHtml "[TOC]\n# !stop\n## b".toList
        (Parse "[TOC]\n# !stop\n## b".toList
          (fun _ => sampleDoc [sampleHeading 1 "!stop", sampleHeading 2 "b"]))
        sampleRenderer ()).doc = ["toc_0", ""] := by
  refine ⟨by decide, by decide⟩

/-- C9, amended. In `ToHTML`, for every input containing the `[TOC]` marker and every
renderer, `Render` is applied to the tree and the renderer as `HeadingRender` left them, so
`HeadingRender` has completed before `Render` starts. The walk of `HeadingRender` enters at
most the non-title headings of the tree (`headingCount` counts the headings entered). When
it enters them all, every non-title heading of the tree handed to `Render` has the id
`toc_n` of its index in document order, and when moreover all levels are at least 1 the
anchor `<a href="#toc_n">` of each is in the TOC returned. It enters them all whenever the
renderer never terminates the walk and skips only subtrees without non-title headings. -/
theorem ToHTML_ids_before_render {ρ : Type} (markdown : Bytes) (parse : Bytes → Node)
    (renderer : Renderer ρ) (rs : ρ) (hmark : tocMarker <:+: markdown) :
    ToHTML markdown parse renderer rs =
        (HeadingRender renderer rs (Parse markdown parse)).toc.map (fun toc =>
          (toc, (Render (HeadingRender renderer rs (Parse markdown parse)).doc renderer
            (HeadingRender renderer rs (Parse markdown parse)).renderer).1)) ∧
      (tocWalk renderer rs (Parse markdown parse)).state.headingCount ≤
        (tocLevels (Parse markdown parse)).length ∧
      ((tocWalk renderer rs (Parse markdown parse)).state.headingCount =
          (tocLevels (Parse markdown parse)).length →
        tocHeadingIDs (HeadingRender renderer rs (Parse markdown parse)).doc =
          (List.range (tocLevels (Parse markdown parse)).length).map tocID ∧
        (levelsAtLeast 1 (Parse markdown parse) = true →
          ∃ toc, (HeadingRender renderer rs (Parse markdown parse)).toc = some toc ∧
            ∀ n, n < (tocLevels (Parse markdown parse)).length → aOpen n <:+: toc)) ∧
      (NeverTerminates renderer → SkipsOnlyHeadingFree renderer →
        (tocWalk renderer rs (Parse markdown parse)).state.headingCount =
          (tocLevels (Parse markdown parse)).length) := by
  have hfind : (findIndex markdown).isSome = true := (findIndex_isSome markdown).mpr hmark
  have hent := WalkFunc_entered renderer (Parse markdown parse) (tocInit rs)
  have hlen : (tocLevels (Parse markdown parse)).length =
      (collect tocEntry (Parse markdown parse)).length := by
    simp only [tocLevels, List.length_map]
  have h0 : (tocInit rs).headingCount = 0 := rfl
  rw [h0, Nat.zero_add, ← hlen] at hent
  refine ⟨?_, hent.1, ?_, ?_⟩
  · unfold ToHTML HeaderToHtml
    simp only [hfind, if_true]
    cases (HeadingRender renderer rs (Parse markdown parse)).toc <;> rfl
  · intro hcount
    refine ⟨?_, ?_⟩
    · rw [HeadingRender_doc, List.range_eq_range']
      exact hent.2 hcount
    · intro hlev
      rcases HeadingRender_of_TocInv renderer rs _ (TocInv_tocWalk renderer rs _ hlev) with
        ⟨_, _, _, h0, htoc⟩ | ⟨_, pre, run, j, _, _, hanch, _, _, _, htoc⟩
      · refine ⟨[], htoc, ?_⟩
        intro n hn
        rw [← hcount, h0] at hn
        exact absurd hn (Nat.not_lt_zero n)
      · refine ⟨_, htoc, ?_⟩
        intro n hn
        obtain ⟨u, w, huw⟩ := hanch n (by rw [hcount]; exact hn)
        exact ⟨u, w ++ run ++ copies j ulClose, by rw [← huw]; simp only [List.append_assoc]⟩
  · intro hterm hskip
    have hc := WalkFunc_counters renderer hterm hskip (Parse markdown parse) (tocInit rs)
    have := congrArg Prod.fst hc.2.1
    rw [foldl_enterCounters_fst] at this
    simpa [tocLevels, tocInit, TocState.counters] using this

/-- Witness for C9, amended: the ids of the tree handed to `Render` for a marked input, and
the order of the two steps for the renderer that terminates the walk of `HeadingRender`:
`Render` gets the tree with the one id that walk wrote. -/
theorem ToHTML_ids_before_render_witness :
    tocHeadingIDs (HeadingRender textRenderer ()
      (Parse "[TOC]\n# a\n## b".toList
        (fun _ => sampleDoc [sampleHeading 1 "a", sampleHeading 2 "b"]))).doc
      = ["toc_0", "toc_1"] ∧
    ToHTML "[TOC]\n# !stop\n## b".toList
        (fun _ => sampleDoc [sampleHeading 1 "!stop", sampleHeading 2 "b"]) sampleRenderer ()
      = some ("\n<ul>\n<li><a href=\"#toc_0\">!stop</li>\n</ul>".toList,
          (Render (sampleDoc [.inner (.heading 1 false "toc_0") [.leaf "!stop"],
            sampleHeading 2 "b"]) sampleRenderer ()).1) := by
  constructor
  · have h := ((ToHTML_ids_before_render "[TOC]\n# a\n## b".toList
      (fun _ => sampleDoc [sampleHeading 1 "a", sampleHeading 2 "b"]) textRenderer ()
      (by decide)).2.2.1 (by decide)).1
    rw [h]
    decide
  · have h := (ToHTML_ids_before_render "[TOC]\n# !stop\n## b".toList
      (fun _ => sampleDoc [sampleHeading 1 "!stop", sampleHeading 2 "b"]) sampleRenderer ()
      (by decide)).1
    rw [h]
    rfl

/-- C10. No marker, no TOC. For every input that does not contain `[TOC]`, `HeaderToHtml`
returns the empty TOC and leaves the tree and the renderer as they were (`HeadingRender` is
not run, no headingID is written), and `ToHTML` returns the empty TOC with the body rendered
from the tree exactly as parsed. -/
theorem HeaderToHtml_without_marker {ρ : Type} (markdown : Bytes) (parse : Bytes → Node)
    (doc : Node) (renderer : Renderer ρ) (rs : ρ) (h : ¬ tocMarker <:+: markdown) :
    HeaderToHtml markdown doc renderer rs = { toc := some [], doc := doc, renderer := rs } ∧
      ToHTML markdown parse renderer rs =
        some ([], (Render (Parse markdown parse) renderer rs).1) := by
  have hfind : (findIndex markdown).isSome = false := by
    rw [← Bool.not_eq_true, findIndex_isSome]
    exact h
  constructor
  · unfold HeaderToHtml
    simp [hfind]
  · unfold ToHTML HeaderToHtml
    simp [hfind]

/-- Witness for C10: an input without the marker and a tree with two headings, whose ids
stay as they were. -/
theorem HeaderToHtml_without_marker_witness :
    tocHeadingIDs (HeaderToHtml "# a\n## b".toList
      (sampleDoc [sampleHeading 1 "a", sampleHeading 2 "b"]) textRenderer ()).doc = ["", ""]
    := by
  have h := (HeaderToHtml_without_marker "# a\n## b".toList
    (fun _ => sampleDoc [sampleHeading 1 "a", sampleHeading 2 "b"])
    (sampleDoc [sampleHeading 1 "a", sampleHeading 2 "b"]) textRenderer () (by decide)).1
  rw [h]
  decide

/-- C4, as stated, fails: the non-title headings have levels 1, 3, 2, but the renderer
terminates the walk inside the first heading. Nothing is written between the headings; the
buffer is the first list open and anchor, the text, and one list close. -/
theorem HeadingRender_level_jump_counterexample :
    flat (sampleDoc [sampleHeading 1 "!stop", sampleHeading 3 "b", sampleHeading 2 "c"]) = true ∧
      tocLevels (sampleDoc [sampleHeading 1 "!stop", sampleHeading 3 "b", sampleHeading 2 "c"])
        = [1, 3, 2] ∧
      (HeadingRender sampleRenderer ()
          (sampleDoc [sampleHeading 1 "!stop", sampleHeading 3 "b", sampleHeading 2 "c"])).toc =
        some "\n<ul>\n<li><a href=\"#toc_0\">!stop</li>\n</ul>".toList := by
  refine ⟨by decide, by decide, by decide⟩

/-- C4, amended. For a document without headings nested in headings whose non-title headings
have levels 1, 3, 2 (with contents `c1`, `c2`, `c3`), when the renderer does not terminate
the walk (as is the case for a renderer that never returns `Terminate`), `HeadingRender`
returns: one list open, the first anchor with its content and `</a>`; two list opens, the
second anchor with its content and `</a>`; one list close and one item switch, the third
anchor with its content and `</a>`; two list closes. More generally, for every renderer and
every state of the visitor, on entering a heading the visitor writes `levelMarkup` for the
heading's level and the level open before, sets `tocLevel` to the heading's level, and
`levelMarkup` is `d` list opens when the level is `d > 0` above the one before and `d` list
closes and an item switch when it is `d > 0` below. -/
theorem HeadingRender_level_jump {ρ : Type} (renderer : Renderer ρ) (rs : ρ) (doc : Node)
    (c1 c2 c3 : List Node) :
    (flat doc = true → tocHeadings doc = [(1, c1), (3, c2), (2, c3)] →
      (tocWalk renderer rs doc).status ≠ .Terminate →
      (HeadingRender renderer rs doc).toc = some (
        ulOpen ++ aOpen 0 ++ (inlineRender renderer rs c1).2 ++ aClose ++
        (ulOpen ++ ulOpen) ++ aOpen 1 ++
          (inlineRender renderer (inlineRender renderer rs c1).1 c2).2 ++ aClose ++
        (ulClose ++ liNext) ++ aOpen 2 ++
          (inlineRender renderer
            (inlineRender renderer (inlineRender renderer rs c1).1 c2).1 c3).2 ++ aClose ++
        (ulClose ++ ulClose))) ∧
      (NeverTerminates renderer → (tocWalk renderer rs doc).status ≠ .Terminate) ∧
      (∀ (st : TocState ρ) (level : Int) (id : String) (cs : List Node),
        (headingVisitor renderer st (.inner (.heading level false id) cs) true).state.buf =
            st.buf ++ levelMarkup level st.tocLevel ++ aOpen st.headingCount ∧
          (headingVisitor renderer st (.inner (.heading level false id) cs) true).state.tocLevel
            = level) ∧
      (∀ (level tocLevel : Int) (d : Nat), 0 < d →
        (level = tocLevel + d → levelMarkup level tocLevel = copies d ulOpen) ∧
        (tocLevel = level + d → levelMarkup level tocLevel = copies d ulClose ++ liNext)) := by
  refine ⟨?_, tocWalk_status_of_never renderer rs doc, ?_, ?_⟩
  · intro hflat hh hrun
    have m1 : levelMarkup 1 0 = ulOpen := by decide
    have m2 : levelMarkup 3 1 = ulOpen ++ ulOpen := by decide
    have m3 : levelMarkup 2 3 = ulClose ++ liNext := by decide
    have e2 : (if (1 : Int) = -1 ∨ (3 : Int) ≤ 1 then (3 : Int) else 1) = 1 := by decide
    have e3 : (if (1 : Int) = -1 ∨ (2 : Int) ≤ 1 then (2 : Int) else 1) = 1 := by decide
    have c2 : copies (2 : Int).toNat ulClose = ulClose ++ ulClose := by decide
    have s1 : headingStep renderer (tocInit rs) (1, c1) =
        { buf := ulOpen ++ aOpen 0 ++ (inlineRender renderer rs c1).2 ++ aClose,
          inHeading := false, tocLevel := 1, headingCount := 1, minHeading := 1,
          renderer := (inlineRender renderer rs c1).1 } := by
      rw [headingStep_eq]
      simp only [tocInit, m1, true_or, if_true, List.nil_append, Nat.zero_add]
    rw [HeadingRender_toc, tocWalk_flat_run renderer rs doc hflat hrun, hh]
    simp only [List.foldl_cons, List.foldl_nil]
    rw [s1, headingStep_eq, headingStep_eq]
    simp only [m2, m3, e2, e3]
    rw [if_neg (by decide), c2]
  · intro st level id cs
    rw [headingVisitor_enter]
    exact ⟨rfl, rfl⟩
  · intro level tocLevel d hd
    unfold levelMarkup
    constructor
    · intro h
      rw [if_neg (by omega), if_neg (by omega)]
      congr 1
      omega
    · intro h
      rw [if_neg (by omega), if_pos (by omega)]
      congr 2
      omega

/-- Witness for C4, amended: three headings of levels 1, 3, 2 with text content, and the
step rule at the renderer that terminates walks, on entering a heading of level 3 while
level 1 is open. -/
theorem HeadingRender_level_jump_witness :
    (HeadingRender textRenderer ()
        (sampleDoc [sampleHeading 1 "a", sampleHeading 3 "b", sampleHeading 2 "c"])).toc =
      some ("\n<ul>\n<li><a href=\"#toc_0\">a</a>" ++
        "\n<ul>\n<li>\n<ul>\n<li><a href=\"#toc_1\">b</a>" ++
        "</li>\n</ul></li>\n\n<li><a href=\"#toc_2\">c</a>" ++
        "</li>\n</ul></li>\n</ul>").toList ∧
    (headingVisitor sampleRenderer
        { buf := [], inHeading := false, tocLevel := 1, headingCount := 1, minHeading := 1,
          renderer := () }
        (sampleHeading 3 "!stop") true).state.buf =
      [] ++ copies 2 ulOpen ++ aOpen 1 := by
  constructor
  · have h := (HeadingRender_level_jump textRenderer ()
      (sampleDoc [sampleHeading 1 "a", sampleHeading 3 "b", sampleHeading 2 "c"])
      [.leaf "a"] [.leaf "b"] [.leaf "c"]).1 (by decide) rfl (by decide)
    rw [h]
    decide
  · have h := (HeadingRender_level_jump sampleRenderer ()
      (sampleDoc [sampleHeading 1 "!stop", sampleHeading 3 "b", sampleHeading 2 "c"])
      [.leaf "!stop"] [.leaf "b"] [.leaf "c"]).2.2
    have e2 := (h.2 3 1 2 (by decide)).1 (by decide)
    refine (h.1 _ 3 "" [.leaf "!stop"]).1.trans ?_
    show [] ++ levelMarkup 3 1 ++ aOpen 1 = [] ++ copies 2 ulOpen ++ aOpen 1
    rw [e2]

/-- C5, as stated, fails: a title-block heading put inside a non-title heading is handed to
the renderer with its children like any other content, so the text of the title block shows
up in the TOC. -/
theorem HeadingRender_titleblock_counterexample :
    (HeadingRender textRenderer ()
        (sampleDoc [.inner (.heading 1 false "") [.leaf "a"]])).toc =
      some "\n<ul>\n<li><a href=\"#toc_0\">a</a></li>\n</ul>".toList ∧
    (HeadingRender textRenderer ()
        (sampleDoc [.inner (.heading 1 false "")
          [.inner (.heading 1 true "") [.leaf "x"], .leaf "a"]])).toc =
      some "\n<ul>\n<li><a href=\"#toc_0\">xa</a></li>\n</ul>".toList := by
  refine ⟨by decide, by decide⟩

/-- C5, amended. For every document tree and renderer, putting a title-block heading (of any
level and id) whose children hold no non-title heading into any gap that is not inside a
non-title heading, or taking it out, changes neither the bytes returned by `HeadingRender`
nor the renderer, and the resulting tree is the same with and without it, the title block
itself unchanged, so the other headings get the same headingIDs. A visitor call on a
title-block heading, wherever it is, writes no headingID and changes none of `headingCount`,
`minHeading` and `tocLevel`. -/
theorem HeadingRender_titleblock {ρ : Type} (renderer : Renderer ρ) (rs : ρ) (ctx : Ctx)
    (level : Int) (id : String) (children : List Node)
    (hout : ctx.outsideHeadings = true) (hfree : headingFreeList children = true) :
    (HeadingRender renderer rs (ctx.fill [.inner (.heading level true id) children])).toc =
        (HeadingRender renderer rs (ctx.fill [])).toc ∧
      (HeadingRender renderer rs
          (ctx.fill [.inner (.heading level true id) children])).renderer =
        (HeadingRender renderer rs (ctx.fill [])).renderer ∧
      (∃ ctx' : Ctx,
        (HeadingRender renderer rs (ctx.fill [.inner (.heading level true id) children])).doc =
          ctx'.fill [.inner (.heading level true id) children] ∧
        (HeadingRender renderer rs (ctx.fill [])).doc = ctx'.fill []) ∧
      (∀ (st : TocState ρ) (l : Int) (i : String) (cs : List Node) (entering : Bool),
        (headingVisitor renderer st (.inner (.heading l true i) cs) entering).headingID = none ∧
        (headingVisitor renderer st (.inner (.heading l true i) cs) entering).state.counters
          = st.counters) := by
  have ht : headingFree (.inner (.heading level true id) children) = true := by
    simp only [headingFree, allNodes, Bool.and_eq_true]
    exact ⟨rfl, hfree⟩
  obtain ⟨ctx', h1, _, h3, h4⟩ := WalkFunc_fill renderer _ ht ctx (tocInit rs) hout rfl
  have hstate : (tocWalk renderer rs (ctx.fill [.inner (.heading level true id) children])).state
      = (tocWalk renderer rs (ctx.fill [])).state := h1
  refine ⟨?_, ?_, ⟨ctx', ?_, ?_⟩, ?_⟩
  · rw [HeadingRender_toc, HeadingRender_toc, hstate]
  · rw [HeadingRender_renderer, HeadingRender_renderer, hstate]
  · rw [HeadingRender_doc]; exact h3
  · rw [HeadingRender_doc]; exact h4
  · intro st l i cs entering
    exact ⟨headingVisitor_headingID_none renderer st _ entering rfl,
      headingVisitor_other_counters renderer st _ entering rfl⟩

/-- Witness for C5, amended: a title block with text put between two headings, inside a
container of the document. -/
theorem HeadingRender_titleblock_witness :
    (HeadingRender sampleRenderer ()
        (sampleDoc [sampleHeading 2 "a",
          .inner (.other "section")
            [.inner (.heading 1 true "t") [.leaf "title"], sampleHeading 3 "b"]])).toc =
      (HeadingRender sampleRenderer ()
        (sampleDoc [sampleHeading 2 "a",
          .inner (.other "section") [sampleHeading 3 "b"]])).toc :=
  (HeadingRender_titleblock sampleRenderer ()
    (.step (.other "document") [sampleHeading 2 "a"]
      (.hole (.other "section") [] [sampleHeading 3 "b"]) [])
    1 "t" [.leaf "title"] (by decide) (by decide)).1

/-! ## Further properties -/

/-- C13. Empty outline. For every document tree that contains no non-title heading (title
blocks and other nodes only) and every renderer, `HeadingRender` returns the empty byte
sequence, never calls `RenderNode` (the log of the calls stays empty and the renderer keeps
its state), writes nothing to the tree, and applies no trim: `minHeading` is still `-1` and
what is returned is the whole buffer. -/
theorem HeadingRender_empty_outline {ρ : Type} (renderer : Renderer ρ) (rs : ρ) (doc : Node)
    (h : headingFree doc = true) :
    (HeadingRender renderer rs doc).toc = some [] ∧
      (HeadingRender (logged renderer) (rs, []) doc).renderer = (rs, []) ∧
      (HeadingRender renderer rs doc).renderer = rs ∧
      (HeadingRender renderer rs doc).doc = doc ∧
      (tocWalk renderer rs doc).state.minHeading = -1 ∧
      (HeadingRender renderer rs doc).toc = some (tocBuffer renderer rs doc) := by
  have hw : tocWalk renderer rs doc =
      { state := tocInit rs, tree := doc, status := .GoToNext } :=
    WalkFunc_headingFree renderer doc (tocInit rs) h rfl
  have hw' : tocWalk (logged renderer) (rs, []) doc =
      { state := tocInit (rs, []), tree := doc, status := .GoToNext } :=
    WalkFunc_headingFree (logged renderer) doc (tocInit (rs, [])) h rfl
  refine ⟨?_, ?_, ?_, ?_, ?_, ?_⟩
  · rw [HeadingRender_toc, hw]
    simp [tocInit, copies]
  · rw [HeadingRender_renderer, hw']
    rfl
  · rw [HeadingRender_renderer, hw]
    rfl
  · rw [HeadingRender_doc, hw]
  · rw [hw]
    rfl
  · rw [HeadingRender_toc, tocBuffer_eq, hw]
    simp [tocInit, copies]

/-- Witness for C13: a document with a title block and a paragraph, and a renderer that
would write and terminate if it were called. -/
theorem HeadingRender_empty_outline_witness :
    (HeadingRender sampleRenderer ()
      (sampleDoc [.inner (.heading 1 true "t") [.leaf "!stop"],
        .inner (.other "p") [.leaf "text"]])).toc = some [] :=
  (HeadingRender_empty_outline sampleRenderer ()
    (sampleDoc [.inner (.heading 1 true "t") [.leaf "!stop"],
      .inner (.other "p") [.leaf "text"]]) (by decide)).1

/-- C16. No carriage return survives preprocessing. For every input, with or without a
marker, the output of `Preparse` contains no carriage return and is at most as long as the
input. -/
theorem Preparse_no_carriage_return (markdown : Bytes) :
    '\r' ∉ Preparse markdown ∧ (Preparse markdown).length ≤ markdown.length := by
  have hn := lineEndingsSpec_no_cr markdown
  have hl := lineEndingsSpec_length markdown
  rw [← normalizeLineEndings_eq] at hn hl
  cases hf : findIndex (normalizeLineEndings markdown) with
  | none =>
    rw [(Preparse_eq_drop markdown).2 hf]
    exact ⟨hn, hl⟩
  | some ix =>
    rw [(Preparse_eq_drop markdown).1 ix hf]
    refine ⟨fun hm => hn (List.mem_of_mem_drop hm), ?_⟩
    rw [List.length_drop]
    omega

/-- C18. Marker detection agrees between the two places it is done. For every raw input the
pattern matches the raw bytes (the test of `HeaderToHtml`) exactly when it matches the
normalised bytes (the test of `Preparse`). So when it matches, `HeaderToHtml` is
`HeadingRender` and `Preparse` has cut the normalised text through the end of a match, five
bytes or more; when it does not, `HeaderToHtml` returns the empty TOC and touches nothing
and `Preparse` has cut nothing. -/
theorem marker_detection_agrees {ρ : Type} (markdown : Bytes) (doc : Node)
    (renderer : Renderer ρ) (rs : ρ) :
    (findIndex markdown).isSome = (findIndex (normalizeLineEndings markdown)).isSome ∧
      ((findIndex markdown).isSome = true →
        HeaderToHtml markdown doc renderer rs = HeadingRender renderer rs doc ∧
        ∃ ix, findIndex (normalizeLineEndings markdown) = some ix ∧
          Preparse markdown = (normalizeLineEndings markdown).drop ix.2 ∧
          ix.1 + 5 ≤ ix.2 ∧ ix.2 ≤ (normalizeLineEndings markdown).length) ∧
      ((findIndex markdown).isSome = false →
        HeaderToHtml markdown doc renderer rs =
          { toc := some [], doc := doc, renderer := rs } ∧
        Preparse markdown = normalizeLineEndings markdown) := by
  have hagree := findIndex_normalize markdown
  refine ⟨hagree.symm, ?_, ?_⟩
  · intro h
    constructor
    · unfold HeaderToHtml
      simp [h]
    · rw [← hagree] at h
      obtain ⟨ix, hix⟩ := Option.isSome_iff_exists.mp h
      have hb := findIndexAux_bounds 0 _ ix hix
      exact ⟨ix, hix, (Preparse_eq_drop markdown).1 ix hix, hb.2.1, by simpa using hb.2.2⟩
  · intro h
    constructor
    · unfold HeaderToHtml
      simp [h]
    · rw [← hagree] at h
      have hnone : findIndex (normalizeLineEndings markdown) = none := by
        cases hf : findIndex (normalizeLineEndings markdown) with
        | none => rfl
        | some ix => rw [hf] at h; simp at h
      exact (Preparse_eq_drop markdown).2 hnone

/-- Witness for C18: a marker whose linefeed is written as carriage return and linefeed. -/
theorem marker_detection_agrees_witness :
    HeaderToHtml "[TOC]\r\n# a".toList (sampleDoc [sampleHeading 1 "a"]) textRenderer () =
      HeadingRender textRenderer () (sampleDoc [sampleHeading 1 "a"]) :=
  ((marker_detection_agrees "[TOC]\r\n# a".toList (sampleDoc [sampleHeading 1 "a"])
    textRenderer ()).2.1 (by decide)).1

/-- C11. Render pipeline order. For every tree and every renderer, the bytes returned by
`Render` are the renderer's header output for the root, then the bytes the renderer writes
over the `RenderNode` calls of the walk, in the order the walk makes them and from the state
the header left, then the renderer's footer output for the root in the state the walk left;
nothing else is in the buffer. When the renderer always answers `GoToNext`, those calls are
the enter and exit events of the tree in document order. -/
theorem Render_pipeline_order {ρ : Type} (doc : Node) (renderer : Renderer ρ) (rs : ρ) :
    Render doc renderer rs =
        ((renderer.RenderHeader rs doc).2 ++
            (runRenderer renderer (renderer.RenderHeader rs doc).1
              (renderCalls renderer rs doc)).2 ++
            (renderer.RenderFooter
              (runRenderer renderer (renderer.RenderHeader rs doc).1
                (renderCalls renderer rs doc)).1 doc).2,
          (renderer.RenderFooter
            (runRenderer renderer (renderer.RenderHeader rs doc).1
              (renderCalls renderer rs doc)).1 doc).1) ∧
      ((∀ s n e, (renderer.RenderNode s n e).2.2 = .GoToNext) →
        renderCalls renderer rs doc = events doc) := by
  constructor
  · have hw := WalkFunc_eq_runCalls (renderVisitor renderer)
      ((renderer.RenderHeader rs doc).1, (renderer.RenderHeader rs doc).2) doc
    rw [runCalls_renderVisitor] at hw
    unfold Render
    simp only [hw]
    rfl
  · intro hgo
    have := (WalkFunc_recordCalls_events (renderVisitor renderer)
      (fun s n e => ⟨hgo s.1 n e, rfl⟩) doc
      ((renderer.RenderHeader rs doc).1, (renderer.RenderHeader rs doc).2) []).1
    simpa [renderCalls, walkCalls] using this

/-- Witness for C11: header, the events of a small document in order, footer. -/
theorem Render_pipeline_order_witness :
    (Render (sampleDoc [.inner (.other "p") [.leaf "a"], .leaf "b"]) tagRenderer ()).1 =
      "[<document><p>a</p>b</document>]".toList := by
  have h := (Render_pipeline_order (sampleDoc [.inner (.other "p") [.leaf "a"], .leaf "b"])
    tagRenderer ()).1
  have hc := (Render_pipeline_order (sampleDoc [.inner (.other "p") [.leaf "a"], .leaf "b"])
    tagRenderer ()).2 (by
      intro s n e
      cases n with
      | leaf literal => rfl
      | inner kind cs => cases kind <;> rfl)
  rw [h, hc]
  decide

/-- C12. Level-stack invariant. When every non-title heading has level at least 1, then for
every renderer and after every visitor call of the walk of `HeadingRender` (the state after
each initial part of the calls of the walk, which ends in the state after all of them):
`tocLevel` is at least 0 and equals the number of `<ul>` minus the number of `</ul>` in the
markup `HeadingRender` has written so far, which is also their difference in the buffer when
the renderer writes no list tag. Immediately after the entering call of a non-title heading
`tocLevel` is that heading's level, and after the final close loop it is 0. -/
theorem tocLevel_invariant {ρ : Type} (renderer : Renderer ρ) (rs : ρ) (doc : Node)
    (hlev : levelsAtLeast 1 doc = true) :
    (tocWalk renderer rs doc).state =
        runCalls (headingVisitor renderer) (tocInit rs) (tocCalls renderer rs doc) ∧
      (∀ p, p <+: tocCalls renderer rs doc →
        0 ≤ (runCalls (headingVisitor renderer) (tocInit rs) p).tocLevel ∧
        (runCalls (headingVisitor renderer) (tocInit rs) p).tocLevel =
          (countOcc tagUl (ownMarkup renderer rs p) : Int) -
            (countOcc tagUlEnd (ownMarkup renderer rs p) : Int) ∧
        (NoListTags renderer →
          (runCalls (headingVisitor renderer) (tocInit rs) p).tocLevel =
            (countOcc tagUl (runCalls (headingVisitor renderer) (tocInit rs) p).buf : Int) -
              (countOcc tagUlEnd
                (runCalls (headingVisitor renderer) (tocInit rs) p).buf : Int))) ∧
      (∀ (st : TocState ρ) (level : Int) (id : String) (cs : List Node),
        (headingVisitor renderer st (.inner (.heading level false id) cs) true).state.tocLevel
          = level) ∧
      (finalClose (tocWalk renderer rs doc).state.tocLevel.toNat
        (tocWalk renderer rs doc).state.tocLevel (tocWalk renderer rs doc).state.buf).1 = 0
    := by
  have hinv := TocInv_tocCalls renderer rs doc hlev
  have hsil := TocInv_tocCalls (silent renderer) rs doc hlev
  refine ⟨hinv.1, ?_, ?_, ?_⟩
  · intro p hp
    have hsame := runCalls_silent renderer (tocInit rs) (tocInit rs) p
      ⟨rfl, rfl, rfl, rfl, rfl⟩
    have hb := TocInv_balance (silent renderer) _
      (hsil.2 p (by rw [tocCalls_silent]; exact hp)) (silent_noListTags renderer)
    have ht : (runCalls (headingVisitor renderer) (tocInit rs) p).tocLevel =
        (runCalls (headingVisitor (silent renderer)) (tocInit rs) p).tocLevel := hsame.2.1
    refine ⟨by rw [ht]; exact hb.1, ?_, ?_⟩
    · rw [ht]
      have h2 := hb.2
      unfold ownMarkup
      omega
    · intro hn
      have hb' := TocInv_balance renderer _ (hinv.2 p hp) hn
      omega
  · intro st level id cs
    rw [headingVisitor_enter]
  · rw [finalClose_eq]
    have hb := TocInv_balance (silent renderer) _ (TocInv_tocWalk (silent renderer) rs doc hlev)
      (silent_noListTags renderer)
    have hsame : sameButBuf (tocWalk renderer rs doc).state
        (tocWalk (silent renderer) rs doc).state := by
      rw [hinv.1, hsil.1, tocCalls_silent]
      exact runCalls_silent renderer _ _ _ ⟨rfl, rfl, rfl, rfl, rfl⟩
    have ht : (tocWalk renderer rs doc).state.tocLevel =
        (tocWalk (silent renderer) rs doc).state.tocLevel := hsame.2.1
    show min (tocWalk renderer rs doc).state.tocLevel 0 = 0
    rw [ht]
    exact min_eq_right hb.1

/-- Witness for C12: levels 2, 1, 3 with content that is rendered; after the calls up to and
including the entering call of the third heading the level is 3. -/
theorem tocLevel_invariant_witness :
    (runCalls (headingVisitor sampleRenderer) (tocInit ())
      ((tocCalls sampleRenderer ()
        (sampleDoc [sampleHeading 2 "a", sampleHeading 1 "b", sampleHeading 3 "c"])).take 8)
      ).tocLevel = 3 ∧
    0 ≤ (runCalls (headingVisitor sampleRenderer) (tocInit ())
      ((tocCalls sampleRenderer ()
        (sampleDoc [sampleHeading 2 "a", sampleHeading 1 "b", sampleHeading 3 "c"])).take 8)
      ).tocLevel :=
  ⟨by decide, ((tocLevel_invariant sampleRenderer ()
    (sampleDoc [sampleHeading 2 "a", sampleHeading 1 "b", sampleHeading 3 "c"])
    (by decide)).2.1 _ (List.take_prefix _ _)).1⟩

/-- C15. Only heading content reaches the TOC. The renderer is run with a log of its
`RenderNode` calls, which changes nothing in what `HeadingRender` returns or in the visitor
calls of its walk. A visitor call of that walk either leaves the log as it is, or adds the
call itself to the log, and then the node is not a non-title heading and the calls before it
are: some calls, the entering call of a non-title heading, and calls on nodes that are not
non-title headings, so that heading has been entered and not yet left. And for every tree
(headings nested in headings or not), putting a subtree that holds no non-title heading into
a gap that is not inside a non-title heading, or taking it out, leaves the bytes returned by
`HeadingRender` unchanged. -/
theorem HeadingRender_only_heading_content {ρ : Type} (renderer : Renderer ρ) (rs : ρ)
    (doc : Node) :
    ((HeadingRender (logged renderer) (rs, []) doc).toc = (HeadingRender renderer rs doc).toc ∧
      tocCalls (logged renderer) (rs, []) doc = tocCalls renderer rs doc ∧
      (HeadingRender (logged renderer) (rs, []) doc).renderer.2 =
        (runCalls (headingVisitor (logged renderer)) (tocInit (rs, []))
          (tocCalls renderer rs doc)).renderer.2) ∧
    (∀ (pre : List (Node × Bool)) (n : Node) (e : Bool) (post : List (Node × Bool)),
      tocCalls renderer rs doc = pre ++ (n, e) :: post →
      (headingVisitor (logged renderer)
          (runCalls (headingVisitor (logged renderer)) (tocInit (rs, [])) pre) n e
        ).state.renderer.2 =
          (runCalls (headingVisitor (logged renderer)) (tocInit (rs, [])) pre).renderer.2 ∨
      ((headingVisitor (logged renderer)
          (runCalls (headingVisitor (logged renderer)) (tocInit (rs, [])) pre) n e
        ).state.renderer.2 =
          (runCalls (headingVisitor (logged renderer)) (tocInit (rs, [])) pre).renderer.2 ++
            [(n, e)] ∧
        n.isTocHeading = false ∧
        ∃ (p1 : List (Node × Bool)) (hd : Node) (p2 : List (Node × Bool)),
          pre = p1 ++ (hd, true) :: p2 ∧ hd.isTocHeading = true ∧
            ∀ x ∈ p2, x.1.isTocHeading = false)) ∧
    (∀ (ctx : Ctx) (t : Node), ctx.outsideHeadings = true → headingFree t = true →
      (HeadingRender renderer rs (ctx.fill [t])).toc =
        (HeadingRender renderer rs (ctx.fill [])).toc) := by
  refine ⟨⟨(HeadingRender_logged renderer rs [] doc).1, tocCalls_logged renderer rs [] doc, ?_⟩,
    ?_, ?_⟩
  · rw [HeadingRender_renderer, ← tocCalls_logged renderer rs [] doc]
    unfold tocWalk tocCalls
    rw [← WalkFunc_eq_runCalls]
  · intro pre n e post _
    rw [headingVisitor_log]
    by_cases hc : n.isTocHeading = false ∧
        (runCalls (headingVisitor (logged renderer)) (tocInit (rs, [])) pre).inHeading = true
    · rw [if_pos hc]
      exact Or.inr ⟨rfl, hc.1,
        runCalls_inHeading (logged renderer) (tocInit (rs, [])) rfl pre hc.2⟩
    · rw [if_neg hc]
      exact Or.inl (List.append_nil _)
  · intro ctx t hout hfree
    obtain ⟨_, h1, _, _, _⟩ := WalkFunc_fill renderer t hfree ctx (tocInit rs) hout rfl
    have hstate : (tocWalk renderer rs (ctx.fill [t])).state =
        (tocWalk renderer rs (ctx.fill [])).state := h1
    rw [HeadingRender_toc, HeadingRender_toc, hstate]

/-- Witness for C15: a paragraph put between two headings, at the top level of the document,
does not change the TOC. -/
theorem HeadingRender_only_heading_content_witness :
    (HeadingRender sampleRenderer ()
        (sampleDoc [sampleHeading 1 "a", .inner (.other "paragraph") [.leaf "text"],
          sampleHeading 2 "b"])).toc =
      (HeadingRender sampleRenderer ()
        (sampleDoc [sampleHeading 1 "a", sampleHeading 2 "b"])).toc :=
  (HeadingRender_only_heading_content sampleRenderer () (sampleDoc [])).2.2
    (.hole (.other "document") [sampleHeading 1 "a"] [sampleHeading 2 "b"])
    (.inner (.other "paragraph") [.leaf "text"]) (by decide) (by decide)

/-- C14, as stated, fails. First, two non-title headings of level 1, the second inside the
first: the second heading is entered while the first is open, so the first anchor is closed
only after the second item; the bytes returned are not a list of two entries, whatever the
contents `c0`, `c1` are taken to be. Second, two headings of level 1 side by side with a
renderer that terminates the walk in the first: the second heading is never entered. -/
theorem HeadingRender_flat_outline_counterexample :
    (tocLevels (sampleDoc [.inner (.heading 1 false "")
        [.leaf "a", .inner (.heading 1 false "") [.leaf "b"]]]) = [1, 1] ∧
      (HeadingRender textRenderer () (sampleDoc [.inner (.heading 1 false "")
          [.leaf "a", .inner (.heading 1 false "") [.leaf "b"]]])).toc =
        some ("\n<ul>\n<li><a href=\"#toc_0\">a</li>\n\n<li>" ++
          "<a href=\"#toc_1\">b</a></a></li>\n</ul>").toList ∧
      ∀ c0 c1 : Bytes,
        (HeadingRender textRenderer () (sampleDoc [.inner (.heading 1 false "")
          [.leaf "a", .inner (.heading 1 false "") [.leaf "b"]]])).toc ≠
            some (flatOutline [c0, c1])) ∧
    (flat (sampleDoc [sampleHeading 1 "!stop", sampleHeading 1 "b"]) = true ∧
      tocLevels (sampleDoc [sampleHeading 1 "!stop", sampleHeading 1 "b"]) = [1, 1] ∧
      (HeadingRender sampleRenderer ()
          (sampleDoc [sampleHeading 1 "!stop", sampleHeading 1 "b"])).toc =
        some "\n<ul>\n<li><a href=\"#toc_0\">!stop</li>\n</ul>".toList ∧
      ∀ c0 c1 : Bytes,
        (HeadingRender sampleRenderer ()
          (sampleDoc [sampleHeading 1 "!stop", sampleHeading 1 "b"])).toc ≠
            some (flatOutline [c0, c1])) := by
  refine ⟨⟨by decide, by decide, ?_⟩, by decide, by decide, by decide, ?_⟩
  · intro c0 c1 h
    have e : (HeadingRender textRenderer () (sampleDoc [.inner (.heading 1 false "")
          [.leaf "a", .inner (.heading 1 false "") [.leaf "b"]]])).toc =
        some ("\n<ul>\n<li><a href=\"#toc_0\">a</li>\n\n<li>" ++
          "<a href=\"#toc_1\">b</a></a></li>\n</ul>").toList := by decide
    rw [e] at h
    have h2 := flatOutline_two c0 c1
    rw [← Option.some.inj h] at h2
    exact absurd h2 (by decide)
  · intro c0 c1 h
    have e : (HeadingRender sampleRenderer ()
          (sampleDoc [sampleHeading 1 "!stop", sampleHeading 1 "b"])).toc =
        some "\n<ul>\n<li><a href=\"#toc_0\">!stop</li>\n</ul>".toList := by decide
    rw [e] at h
    have h2 := flatOutline_two c0 c1
    rw [← Option.some.inj h] at h2
    exact absurd h2 (by decide)

/-- C14, amended. For a document without headings nested in headings and a renderer that
never terminates the walk: when the non-title headings, in document order, all have the
same level `k ≥ 1` and there is at least one, with contents `contents`, then `HeadingRender`
returns exactly the single list `flatOutline` of the bytes the renderer writes for the
contents, one after the other: `"\n<ul>\n<li>"`, the entries
`<a href="#toc_i">` ++ `c_i` ++ `</a>` separated by `"</li>\n\n<li>"`, and `"</li>\n</ul>"`,
whatever `k` is. -/
theorem HeadingRender_flat_outline {ρ : Type} (renderer : Renderer ρ) (rs : ρ) (doc : Node)
    (k : Int) (contents : List (List Node)) (hterm : NeverTerminates renderer)
    (hflat : flat doc = true) (hk : 1 ≤ k) (hne : contents ≠ [])
    (hh : tocHeadings doc = contents.map (fun c => (k, c))) :
    (HeadingRender renderer rs doc).toc =
      some (flatOutline (renderContents renderer rs contents)) := by
  cases contents with
  | nil => exact absurd rfl hne
  | cons c0 rest =>
    have hw := tocWalk_flat renderer hterm rs doc hflat
    rw [hh, List.map_cons, List.foldl_cons] at hw
    have e : headingStep renderer (tocInit rs) (k, c0) =
        { buf := copies (k - 1).toNat ulOpen ++ ulOpen ++ aOpen 0 ++
            (inlineRender renderer rs c0).2 ++ aClose,
          inHeading := false, tocLevel := k, headingCount := 1,
          minHeading := k, renderer := (inlineRender renderer rs c0).1 } := by
      rw [headingStep_eq]
      simp only [tocInit, levelMarkup_of_zero k hk, true_or, if_true, List.nil_append,
        Nat.zero_add]
    rw [e] at hw
    obtain ⟨h1, h2, h3⟩ := foldl_headingStep_level renderer k rest
      { buf := copies (k - 1).toNat ulOpen ++ ulOpen ++ aOpen 0 ++
          (inlineRender renderer rs c0).2 ++ aClose,
        inHeading := false, tocLevel := k, headingCount := 1,
        minHeading := k, renderer := (inlineRender renderer rs c0).1 } rfl rfl
    rw [← hw] at h1 h2 h3
    apply HeadingRender_toc_wrapped renderer rs doc k _ hk h3
    rw [h1, h2]
    have hc : copies k.toNat ulClose = ulClose ++ copies (k - 1).toNat ulClose := by
      have : k.toNat = (k - 1).toNat + 1 := by omega
      rw [this]
      rfl
    rw [hc]
    simp only [renderContents, flatOutline, List.append_assoc]

/-- Witness for C14, amended: three headings of level 2 with text content. -/
theorem HeadingRender_flat_outline_witness :
    (HeadingRender textRenderer ()
        (sampleDoc [sampleHeading 2 "a", sampleHeading 2 "b", sampleHeading 2 "c"])).toc =
      some ("\n<ul>\n<li><a href=\"#toc_0\">a</a></li>\n\n<li><a href=\"#toc_1\">b</a>" ++
        "</li>\n\n<li><a href=\"#toc_2\">c</a></li>\n</ul>").toList := by
  have h := HeadingRender_flat_outline textRenderer ()
    (sampleDoc [sampleHeading 2 "a", sampleHeading 2 "b", sampleHeading 2 "c"]) 2
    [[.leaf "a"], [.leaf "b"], [.leaf "c"]] textRenderer_neverTerminates (by decide)
    (by decide) (by simp) rfl
  rw [h]
  decide

/-- C17, as stated, fails: the renderer is handed every node inside a heading that is not
itself a non-title heading, with all that lies beneath it. Here a container inside a heading
of level 2 holds another heading of level 2, and the renderer writes `1` for a container
whose first child is a heading of level 1: with both levels lowered by 1 the returned bytes
have a `1` that they do not have for the tree itself. -/
theorem HeadingRender_level_shift_counterexample :
    levelsAtLeast 1 (sampleDoc [.inner (.heading 2 false "")
        [.inner (.other "span") [.inner (.heading 2 false "") [.leaf "b"]]]]) = true ∧
      tocLevels (sampleDoc [.inner (.heading 2 false "")
        [.inner (.other "span") [.inner (.heading 2 false "") [.leaf "b"]]]]) = [2, 2] ∧
      tocLevels (shiftLevels (2 - 1) (sampleDoc [.inner (.heading 2 false "")
        [.inner (.other "span") [.inner (.heading 2 false "") [.leaf "b"]]]])) = [1, 1] ∧
      (HeadingRender peekRenderer () (sampleDoc [.inner (.heading 2 false "")
          [.inner (.other "span") [.inner (.heading 2 false "") [.leaf "b"]]]])).toc =
        some ("\n<ul>\n<li><a href=\"#toc_0\"></li>\n\n<li>" ++
          "<a href=\"#toc_1\">b</a></a></li>\n</ul>").toList ∧
      (HeadingRender peekRenderer () (shiftLevels (2 - 1) (sampleDoc [.inner (.heading 2 false "")
          [.inner (.other "span") [.inner (.heading 2 false "") [.leaf "b"]]]]))).toc =
        some ("\n<ul>\n<li><a href=\"#toc_0\">1</li>\n\n<li>" ++
          "<a href=\"#toc_1\">b</a></a></li>\n</ul>").toList := by
  refine ⟨by decide, by decide, by decide, by decide, by decide⟩

/-- C17, amended. For every tree whose non-title headings all have level at least `m ≥ 1`
(so in particular for their smallest level `m`) and every renderer that, for a node that is
not a non-title heading, does not depend on the levels of the non-title headings beneath
that node: on the tree with every non-title heading's level lowered by `m - 1`,
`HeadingRender` returns the same bytes, leaves the renderer in the same state, and leaves
the same tree apart from the lowered levels, with the same headingIDs in document order. The
levels of the lowered tree are those of the tree minus `m - 1`. -/
theorem HeadingRender_level_shift {ρ : Type} (renderer : Renderer ρ) (rs : ρ) (doc : Node)
    (m : Int) (hm : 1 ≤ m) (hlev : levelsAtLeast m doc = true)
    (hblind : LevelBlind renderer (m - 1)) :
    (HeadingRender renderer rs (shiftLevels (m - 1) doc)).toc =
        (HeadingRender renderer rs doc).toc ∧
      (HeadingRender renderer rs (shiftLevels (m - 1) doc)).renderer =
        (HeadingRender renderer rs doc).renderer ∧
      (HeadingRender renderer rs (shiftLevels (m - 1) doc)).doc =
        shiftLevels (m - 1) (HeadingRender renderer rs doc).doc ∧
      tocHeadingIDs (HeadingRender renderer rs (shiftLevels (m - 1) doc)).doc =
        tocHeadingIDs (HeadingRender renderer rs doc).doc ∧
      tocLevels (shiftLevels (m - 1) doc) = (tocLevels doc).map (fun l => l - (m - 1)) := by
  have hlev' : levelsAtLeast (m - 1 + 1) doc = true := by
    rw [Int.sub_add_cancel]
    exact hlev
  obtain ⟨⟨_, _, h3, _⟩, htree⟩ :=
    tocWalk_shift renderer rs doc (m - 1) (by omega) hlev' hblind
  have hdoc : (HeadingRender renderer rs (shiftLevels (m - 1) doc)).doc =
      shiftLevels (m - 1) (HeadingRender renderer rs doc).doc := by
    rw [HeadingRender_doc, HeadingRender_doc, htree]
  refine ⟨HeadingRender_toc_shift renderer rs doc (m - 1) (by omega) hlev' hblind, ?_, hdoc,
    ?_, tocLevels_shift _ _⟩
  · rw [HeadingRender_renderer, HeadingRender_renderer, h3]
  · rw [hdoc, tocHeadingIDs_shift]

/-- Witness for C17, amended: headings of levels 3, 2, 4, lowered by 1 to 2, 1, 3, with a
container in the content of the first. -/
theorem HeadingRender_level_shift_witness :
    (HeadingRender sampleRenderer ()
        (shiftLevels (2 - 1) (sampleDoc [.inner (.heading 3 false "")
          [.inner (.other "em") [.leaf "a"]], sampleHeading 2 "b", sampleHeading 4 "c"]))).toc =
      (HeadingRender sampleRenderer ()
        (sampleDoc [.inner (.heading 3 false "")
          [.inner (.other "em") [.leaf "a"]], sampleHeading 2 "b", sampleHeading 4 "c"])).toc :=
  (HeadingRender_level_shift sampleRenderer ()
    (sampleDoc [.inner (.heading 3 false "")
      [.inner (.other "em") [.leaf "a"]], sampleHeading 2 "b", sampleHeading 4 "c"])
    2 (by decide) (by decide) (sampleRenderer_levelBlind _)).1

end Mgodown
